import Mathlib

/-!
# xflag: a declarative command-line parser

A shallow embedding of `xflag.go` and the properties its specification states.

Modelling conventions.

* A Go `string` is a Lean `String`: the model covers the strings that are valid
  UTF-8.  `len` is the length in bytes, the padding of `fmt` counts runes.
* Functions of the Go standard library whose code is not part of the package
  (`strconv.ParseBool`, `strconv.ParseInt`, `strconv.ParseUint`,
  `strconv.ParseFloat`, `time.ParseDuration`, `strings.ToLower`) are the fields
  of a structure `StdLib`; every theorem holds for every such library.
* The iteration order of a Go map is not fixed: the order is a parameter
  `MapOrder`, any function returning a permutation of the entries.
* A function that may panic, or return an error, returns an `Outcome`:
  `abort` is a panic, `error` a returned `error` value, `ok` a result.
-/

namespace XFlag

/-! ## Outcomes -/

/-- The three ways a call can end: a panic, a returned error, or a value. -/
inductive Outcome (α : Type) where
  | abort (msg : String)
  | error (msg : String)
  | ok (val : α)
  deriving DecidableEq, Repr

namespace Outcome

/-- Sequencing: a panic or an error ends the computation. -/
def bind {α β : Type} (x : Outcome α) (f : α → Outcome β) : Outcome β :=
  match x with
  | abort m => abort m
  | error m => error m
  | ok a => f a

/-- Whether the outcome is a returned value. -/
def isOk {α : Type} : Outcome α → Bool
  | ok _ => true
  | _ => false

end Outcome

/-! ## Strings -/

/-- Go `len(s)`: the number of bytes of the UTF-8 encoding. -/
def len (s : String) : Nat := s.utf8ByteSize

/-- Go `utf8.RuneCountInString(s)`. -/
def runeCount (s : String) : Nat := s.data.length

/-- Go `strings.HasPrefix(s, p)`. -/
def HasPrefix (s p : String) : Bool := p.data.isPrefixOf s.data

/-- Go `strings.TrimPrefix(s, p)`. -/
def TrimPrefix (s p : String) : String :=
  if HasPrefix s p then ⟨s.data.drop p.data.length⟩ else s

/-- The pieces of a rune list between the occurrences of `sep`. -/
def splitRunes (sep : Char) : List Char → List (List Char)
  | [] => [[]]
  | c :: cs =>
    if c = sep then [] :: splitRunes sep cs
    else
      match splitRunes sep cs with
      | [] => [[c]]
      | p :: ps => (c :: p) :: ps

/-- Go `strings.Split(s, sep)` for a separator `sep` of one ASCII character. -/
def Split (s : String) (sep : Char) : List String :=
  (splitRunes sep s.data).map String.mk

/-- Go `strings.Trim(s, cutset)` for a cutset of one character. -/
def Trim (s : String) (cut : Char) : String :=
  ⟨((s.data.dropWhile (· = cut)).reverse.dropWhile (· = cut)).reverse⟩

/-- Go `strings.Repeat(" ", n)`: it panics when the count is negative. -/
def Repeat (s : String) (n : Int) : Outcome String :=
  if n < 0 then .abort "strings: negative Repeat count"
  else .ok ⟨(List.replicate n.toNat s.data).flatten⟩

/-- The verb `%-Ns` of `fmt`: `s` followed by spaces up to `width` runes. -/
def padRight (s : String) (width : Nat) : String :=
  s ++ ⟨List.replicate (width - runeCount s) ' '⟩

/-! ## The Go standard library and the map order -/

/-- The library functions the package calls and does not define.  The parsers
return the error text on failure; `parseFloat` returns the bits of the float. -/
structure StdLib where
  parseBool : String → Except String Bool
  parseInt : String → Nat → Except String Int
  parseUint : String → Nat → Except String Nat
  parseFloat : String → Nat → Except String Nat
  parseDuration : String → Except String Int
  toLower : String → String

/-! ## Templates: the struct types seen through `reflect` -/

/-- A Go type as `setField` inspects it: its `String()`, and by kind the bit
size, the element type of a pointer, or for the kinds `setField` does not
handle the name of the kind.  `duration` is the type `time.Duration`. -/
inductive GoType where
  | bool (name : String)
  | int (name : String) (bits : Nat)
  | duration
  | uint (name : String) (bits : Nat)
  | float (name : String) (bits : Nat)
  | string (name : String)
  | ptr (name : String) (elem : GoType)
  | other (name : String) (kind : String)
  deriving DecidableEq, Repr

namespace GoType

/-- Go `Type.String()`. -/
def typeString : GoType → String
  | bool n => n
  | int n _ => n
  | duration => "time.Duration"
  | uint n _ => n
  | float n _ => n
  | string n => n
  | ptr n _ => n
  | other n _ => n

/-- Go `Type.Kind() == reflect.Ptr`. -/
def isPtr : GoType → Bool
  | ptr _ _ => true
  | _ => false

end GoType

/-- A struct field as `reflect` shows it: `name` is a Go identifier, `tag` is
`Tag.Get("xflag")`, `exported` says that `PkgPath` is empty, so that the field
can be set. -/
structure Field where
  name : String
  tag : String
  type : GoType
  exported : Bool
  deriving DecidableEq, Repr

/-- A command template, an `interface{}` handed to `Parse`: a struct value, a
pointer, or a value of another kind (`kind` names it). -/
inductive Template where
  | struct (fields : List Field)
  | pointer
  | other (kind : String)
  deriving DecidableEq, Repr

/-! ## The tokenizer -/

/-- An option pair of the argument vector. -/
structure flag where
  name : String
  value : String
  deriving DecidableEq, Repr

/-- The tokenized argument vector. -/
structure userInput where
  binName : Option String
  command : Option String
  arguments : List String
  flags : List flag
  deriving DecidableEq, Repr

/-- The condition of line 201: the token starts an option. -/
def startsOption (a : String) : Bool := HasPrefix a "-" || a == "help"

/-- The condition of line 203: the token is a help alias, and is skipped. -/
def isHelpAlias (a : String) : Bool :=
  TrimPrefix a "-" == "help" || TrimPrefix a "-" == "-help" || a == "-h"

/-- The loop of `parseUserInput` over the remaining tokens; `input` holds the
positional tokens and option pairs collected so far. -/
def scanArgs : List String → userInput → Outcome userInput
  | [], input => .ok input
  | [a], input =>
    if startsOption a then
      if isHelpAlias a then .ok input
      else .error ("missing value for flag \"" ++ TrimPrefix a "-" ++ "\"")
    else .ok { input with arguments := input.arguments ++ [a] }
  | a :: v :: rest, input =>
    if startsOption a then
      if isHelpAlias a then scanArgs (v :: rest) input
      else scanArgs rest { input with flags := input.flags ++ [⟨TrimPrefix a "-", v⟩] }
    else scanArgs (v :: rest) { input with arguments := input.arguments ++ [a] }

/-- The end of `parseUserInput`: the first two positional tokens are the binary
name and the command name. -/
def splitCommand (input : userInput) : userInput :=
  match input.arguments with
  | [] => input
  | [b] => { input with binName := some b }
  | b :: c :: rest => { input with binName := some b, command := some c, arguments := rest }

/-- Go `parseUserInput`. -/
def parseUserInput (args : List String) : Outcome userInput :=
  (scanArgs args ⟨none, none, [], []⟩).bind fun input => .ok (splitCommand input)

/-! ## Schemas -/

/-- Go `argumentDef`. -/
structure argumentDef where
  field : String
  name : String
  usage : String
  datatype : String
  deriving DecidableEq, Repr

/-- Go `flagDef`. -/
structure flagDef where
  field : String
  usage : String
  defaultValue : Option String
  datatype : String
  deriving DecidableEq, Repr

/-- Go `map[string]flagDef`: the entries, with pairwise distinct keys. -/
abbrev FlagMap := List (String × flagDef)

/-- Go `m[k] = v`. -/
def FlagMap.set (m : FlagMap) (k : String) (v : flagDef) : FlagMap :=
  m.filter (fun e => e.1 != k) ++ [(k, v)]

/-- Go `v, ok := m[k]`. -/
def FlagMap.get (m : FlagMap) (k : String) : Option flagDef :=
  m.lookup k

/-- The order in which `range` enumerates a map: some permutation. -/
structure MapOrder where
  enum : FlagMap → FlagMap
  perm : ∀ m, (enum m).Perm m

/-- Go `commandDef`; `value` is the struct type of the template, the only part
of the `reflect.Value` that is used. -/
structure commandDef where
  value : List Field
  name : Option String
  usage : Option String
  arguments : List argumentDef
  flags : FlagMap
  deriving DecidableEq, Repr

/-- The loop of `toKebabCase`; `i` is the byte offset of the rune `r`. -/
def kebabLoop : Nat → List Char → List Char
  | _, [] => []
  | i, r :: rs =>
    (if 0 < i ∧ 'A' ≤ r ∧ r ≤ 'Z' then ['-', r] else [r]) ++ kebabLoop (i + r.utf8Size) rs

/-- Go `toKebabCase`. -/
def toKebabCase (L : StdLib) (input : String) : String :=
  L.toLower ⟨kebabLoop 0 input.data⟩

/-- The body of the loop over the fields of a template (lines 144 to 184). -/
def deriveField (L : StdLib) (cmd : commandDef) (field : Field) : Outcome commandDef :=
  if field.name = "XFlag" then
    match Split field.tag '|' with
    | [n, u] => .ok { cmd with name := some n, usage := some u }
    | _ => .abort "command missing usage\n"
  else if field.type.isPtr then
    match Split field.tag '|' with
    | [d, u] =>
      .ok { cmd with flags := cmd.flags.set (toKebabCase L field.name)
                      ⟨field.name, u, some d, field.type.typeString⟩ }
    | [u] =>
      .ok { cmd with flags := cmd.flags.set (toKebabCase L field.name)
                      ⟨field.name, u, none, field.type.typeString⟩ }
    | _ => .abort "flag missing usage\n"
  else
    match Split field.tag '|' with
    | [u] =>
      .ok { cmd with arguments := cmd.arguments ++
                      [⟨field.name, L.toLower field.name, u, field.type.typeString⟩] }
    | _ => .abort "argument lacks exactly one field\n"

/-- The loop over the fields of a template. -/
def deriveFields (L : StdLib) : List Field → commandDef → Outcome commandDef
  | [], cmd => .ok cmd
  | f :: fs, cmd => (deriveField L cmd f).bind fun cmd1 => deriveFields L fs cmd1

/-- The body of the loop of `parseCommandDefs` over the templates. -/
def deriveCommand (L : StdLib) : Template → Outcome commandDef
  | .pointer => .abort "do not pass in pointers\n"
  | .other kind => .abort ("reflect: call of reflect.Value.NumField on " ++ kind ++ " Value")
  | .struct fields =>
    (deriveFields L fields ⟨fields, none, none, [], []⟩).bind fun cmd =>
      if cmd.name = none ∨ cmd.usage = none then .abort "command missing name/usage\n"
      else .ok cmd

/-- Go `parseCommandDefs`. -/
def parseCommandDefs (L : StdLib) : List Template → Outcome (List commandDef)
  | [] => .ok []
  | c :: cs =>
    (deriveCommand L c).bind fun cmd =>
      (parseCommandDefs L cs).bind fun cmds => .ok (cmd :: cmds)

/-! ## Records -/

/-- The value of a field: `nil` and `ref` are the two states of a pointer,
`zero` is the zero value of a kind that `setField` does not handle. -/
inductive Value where
  | bool (b : Bool)
  | int (i : Int)
  | uint (n : Nat)
  | float (bits : Nat)
  | str (s : String)
  | nil
  | ref (v : Value)
  | zero
  deriving DecidableEq, Repr

/-- A field of a record together with its value. -/
structure Slot where
  field : Field
  value : Value
  deriving DecidableEq, Repr

/-- A record: the value behind the pointer that `reflect.New` returns. -/
abbrev Instance := List Slot

/-- The zero value of a type. -/
def zeroValue : GoType → Value
  | .bool _ => .bool false
  | .int _ _ => .int 0
  | .duration => .int 0
  | .uint _ _ => .uint 0
  | .float _ _ => .float 0
  | .string _ => .str ""
  | .ptr _ _ => .nil
  | .other _ _ => .zero

/-- Go `reflect.New(t)`: a record of zero values. -/
def New (t : List Field) : Instance := t.map fun f => ⟨f, zeroValue f.type⟩

/-- Go `FieldByName(name)` on a record: the value of the first field of that
name. -/
def Instance.get : Instance → String → Option Value
  | [], _ => none
  | slot :: rest, name => if slot.field.name = name then some slot.value else Instance.get rest name

/-- A result of the library as an outcome. -/
def ofExcept {α : Type} : Except String α → Outcome α
  | .ok a => .ok a
  | .error e => .error e

/-- The `switch field.Kind()` of `setField` (lines 253 to 290): the value that
the text denotes at a type that is not dereferenced any further. -/
def convert (L : StdLib) : GoType → String → Outcome Value
  | .bool _, s => (ofExcept (L.parseBool s)).bind fun b => .ok (.bool b)
  | .int _ bits, s => (ofExcept (L.parseInt s bits)).bind fun i => .ok (.int i)
  | .duration, s => (ofExcept (L.parseDuration s)).bind fun i => .ok (.int i)
  | .uint _ bits, s => (ofExcept (L.parseUint s bits)).bind fun n => .ok (.uint n)
  | .float _ bits, s => (ofExcept (L.parseFloat s bits)).bind fun x => .ok (.float x)
  | .string _, s => .ok (.str s)
  | .ptr _ _, _ => .error "unsupported kind ptr"
  | .other _ kind, _ => .error ("unsupported kind " ++ kind)

/-- The value `setField` stores in a field of type `t` (lines 246 to 291): a
pointer is allocated and the text converted at the element type. -/
def fieldValue (L : StdLib) (t : GoType) (value : String) : Outcome Value :=
  match t with
  | .ptr _ elem => (convert L elem value).bind fun v => .ok (.ref v)
  | _ => convert L t value

/-- Go `setField`: on success the record with the field set.  On failure the
record is dropped, as `Parse` then returns no record. -/
def setField (L : StdLib) : Instance → String → String → Outcome Instance
  | [], name, _ => .error ("cannot set field " ++ name)
  | slot :: rest, name, value =>
    if slot.field.name = name then
      if slot.field.exported then
        (fieldValue L slot.field.type value).bind fun v => .ok (⟨slot.field, v⟩ :: rest)
      else .error ("cannot set field " ++ name)
    else (setField L rest name value).bind fun rest1 => .ok (slot :: rest1)

/-! ## Help texts -/

/-- Go `row`. -/
structure row where
  key : String
  value : String
  datatype : Option String
  defaultValue : Option String
  deriving DecidableEq, Repr

/-- Go `*p` on a `*string`. -/
def deref (p : Option String) : Outcome String :=
  match p with
  | some s => .ok s
  | none => .abort "runtime error: invalid memory address or nil pointer dereference"

/-- The first loop of `formatTable`: the longest key. -/
def longestKey (rows : List row) : Nat :=
  rows.foldl (fun m r => if m < len r.key then len r.key else m) 0

/-- The first loop of `formatTable`: the longest value. -/
def longestValue (rows : List row) : Nat :=
  rows.foldl (fun m r => if m < len r.value then len r.value else m) 0

/-- The first loop of `formatTable`: the longest type name. -/
def longestDatatype (rows : List row) : Nat :=
  rows.foldl (fun m r =>
    match r.datatype with
    | some dt => if m < len dt then len dt else m
    | none => m) 0

/-- The type name as a row shows it (lines 364 to 366). -/
def renderType (L : StdLib) (datatype : String) : String :=
  L.toLower (TrimPrefix (Trim datatype '*') "time.")

/-- The body of the second loop of `formatTable`: the text of one row. -/
def formatRow (L : StdLib) (lk lv ld : Nat) (r : row) : Outcome String :=
  (Repeat " " (4 + (lk : Int) - (len r.key : Int))).bind fun tabs =>
    let line := tabs ++ r.key ++ "......." ++ padRight r.value (lv + 4)
    match r.datatype with
    | none => .ok (line ++ "\n")
    | some datatype =>
      (Repeat " " ((ld : Int) - (len (renderType L datatype) : Int))).bind fun pad =>
        match r.defaultValue with
        | none => .ok (line ++ renderType L datatype ++ pad ++ "\n")
        | some d =>
          .ok (line ++ renderType L datatype ++ pad ++ "  (default: \"" ++ d ++ "\")" ++ "\n")

/-- The second loop of `formatTable`. -/
def formatRows (L : StdLib) (lk lv ld : Nat) : List row → Outcome String
  | [] => .ok ""
  | r :: rs =>
    (formatRow L lk lv ld r).bind fun line =>
      (formatRows L lk lv ld rs).bind fun lines => .ok (line ++ lines)

/-- Go `formatTable`. -/
def formatTable (L : StdLib) (rows : List row) : Outcome String :=
  (formatRows L (longestKey rows) (longestValue rows) (longestDatatype rows) rows).bind
    fun lines => .ok (lines ++ "\n")

/-- The rows of `helpOverview`. -/
def overviewRows : List commandDef → Outcome (List row)
  | [] => .ok []
  | d :: ds =>
    (deref d.name).bind fun name =>
      (deref d.usage).bind fun usage =>
        (overviewRows ds).bind fun rows => .ok (⟨name, usage, none, none⟩ :: rows)

/-- Go `helpOverview`. -/
def helpOverview (L : StdLib) (defs : List commandDef) : Outcome String :=
  (overviewRows defs).bind fun rows =>
    (formatTable L rows).bind fun table => .ok ("\n" ++ table)

/-- The rows of `helpCommandDetails`: the arguments, then the options in the
order of the map. -/
def detailRows (o : MapOrder) (d : commandDef) : List row :=
  d.arguments.map (fun a => ⟨"<" ++ a.name ++ ">", a.usage, some a.datatype, none⟩) ++
  (o.enum d.flags).map (fun e => ⟨"[-" ++ e.1 ++ "]", e.2.usage, some e.2.datatype, e.2.defaultValue⟩)

/-- The invocation line of `helpCommandDetails` after the command name. -/
def usageKeys : List row → String
  | [] => ""
  | r :: rs => r.key ++ " " ++ usageKeys rs

/-- Go `helpCommandDetails`. -/
def helpCommandDetails (L : StdLib) (o : MapOrder) (d : commandDef) : Outcome String :=
  (deref d.name).bind fun name =>
    (formatTable L (detailRows o d)).bind fun table =>
      .ok ("\nusage: " ++ name ++ " " ++ usageKeys (detailRows o d) ++ "\n\n" ++ table)

/-- Go `GetUsage`. -/
def GetUsage (L : StdLib) (commands : List Template) : Outcome String :=
  (parseCommandDefs L commands).bind fun commandDefs => helpOverview L commandDefs

/-! ## Parse -/

/-- The loop of lines 59 to 64: the first schema of the selected name. -/
def findCommand : List commandDef → String → Outcome (Option commandDef)
  | [], _ => .ok none
  | cmd :: rest, command =>
    (deref cmd.name).bind fun name =>
      if name = command then .ok (some cmd) else findCommand rest command

/-- The loop of lines 74 to 87 from index `i` on; `n` is the number of
positional tokens. -/
def checkArguments (L : StdLib) (o : MapOrder) (d : commandDef) (n : Nat) :
    Nat → List argumentDef → Outcome Unit
  | _, [] => .ok ()
  | i, arg :: rest =>
    let errtext := if i < n then "  [ok] found argument <" ++ arg.name ++ ">\n" else ""
    if n ≤ i then
      if 0 < i then
        (helpCommandDetails L o d).bind fun help =>
          .error (help ++ "\n" ++ (errtext ++ "[fail] missing argument <" ++ arg.name ++ ">\n"))
      else
        (helpCommandDetails L o d).bind fun help => .error help
    else checkArguments L o d n (i + 1) rest

/-- The loop of lines 93 to 98 from index `i` on. -/
def setArguments (L : StdLib) (tokens : List String) :
    Nat → List argumentDef → Instance → Outcome Instance
  | _, [], inst => .ok inst
  | i, argument :: rest, inst =>
    match tokens[i]? with
    | none => .abort "runtime error: index out of range"
    | some token =>
      match setField L inst argument.field token with
      | .ok inst1 => setArguments L tokens (i + 1) rest inst1
      | .abort msg => .abort msg
      | .error _ =>
        .error ("unable to set argument field \"" ++ argument.field ++ "\" to \"" ++ token ++ "\"")

/-- The loop of lines 101 to 110 over the enumerated entries of the map. -/
def applyDefaults (L : StdLib) : FlagMap → Instance → Outcome Instance
  | [], inst => .ok inst
  | e :: rest, inst =>
    match e.2.defaultValue with
    | none => applyDefaults L rest inst
    | some dv =>
      match setField L inst e.2.field dv with
      | .ok inst1 => applyDefaults L rest inst1
      | .abort msg => .abort msg
      | .error _ =>
        .error ("unable to set default flag field \"" ++ e.2.field ++ "\" to \"" ++ dv ++ "\"")

/-- The loop of lines 113 to 123. -/
def setFlags (L : StdLib) (m : FlagMap) : List flag → Instance → Outcome Instance
  | [], inst => .ok inst
  | f :: rest, inst =>
    match m.get f.name with
    | none => .error ("unrecognized flag \"" ++ f.name ++ "\"")
    | some fdef =>
      match setField L inst fdef.field f.value with
      | .ok inst1 => setFlags L m rest inst1
      | .abort msg => .abort msg
      | .error _ =>
        .error ("unable to set flag field \"" ++ fdef.field ++ "\" to \"" ++ f.value ++ "\"")

/-- Lines 70 to 126 of `Parse`: the selected schema matched with the input. -/
def fillCommand (L : StdLib) (o : MapOrder) (d : commandDef) (input : userInput) :
    Outcome Instance :=
  if d.arguments.length < input.arguments.length then
    (helpCommandDetails L o d).bind fun help => .error (help ++ "\ntoo many arguments given\n")
  else
    (checkArguments L o d input.arguments.length 0 d.arguments).bind fun _ =>
      (setArguments L input.arguments 0 d.arguments (New d.value)).bind fun inst1 =>
        (applyDefaults L (o.enum d.flags) inst1).bind fun inst2 =>
          setFlags L d.flags input.flags inst2

/-- Go `Parse`. -/
def Parse (L : StdLib) (o : MapOrder) (commands : List Template) (args : List String) :
    Outcome Instance :=
  (parseCommandDefs L commands).bind fun commandDefs =>
    (parseUserInput args).bind fun input =>
      match input.command with
      | none => (helpOverview L commandDefs).bind fun help => .error help
      | some command =>
        (findCommand commandDefs command).bind fun found =>
          match found with
          | none =>
            (helpOverview L commandDefs).bind fun help =>
              .error (help ++ "\nunrecognized command \"" ++ command ++ "\"\n")
          | some d => fillCommand L o d input

/-! ## A library and a map order for the examples -/

/-- The value of a decimal numeral; `none` when a rune is not a digit. -/
def digitsValue : List Char → Nat → Option Nat
  | [], acc => some acc
  | c :: cs, acc =>
    if '0' ≤ c ∧ c ≤ '9' then digitsValue cs (10 * acc + (c.toNat - '0'.toNat)) else none

/-- Go `strconv.ParseBool`. -/
def sampleParseBool (s : String) : Except String Bool :=
  if s = "1" ∨ s = "t" ∨ s = "T" ∨ s = "TRUE" ∨ s = "true" ∨ s = "True" then .ok true
  else if s = "0" ∨ s = "f" ∨ s = "F" ∨ s = "FALSE" ∨ s = "false" ∨ s = "False" then .ok false
  else .error ("strconv.ParseBool: parsing \"" ++ s ++ "\": invalid syntax")

/-- Go `strconv.ParseUint(s, 10, bits)`. -/
def sampleParseUint (s : String) (bits : Nat) : Except String Nat :=
  match s.data with
  | [] => .error ("strconv.ParseUint: parsing \"" ++ s ++ "\": invalid syntax")
  | cs =>
    match digitsValue cs 0 with
    | none => .error ("strconv.ParseUint: parsing \"" ++ s ++ "\": invalid syntax")
    | some n =>
      if n < 2 ^ bits then .ok n
      else .error ("strconv.ParseUint: parsing \"" ++ s ++ "\": value out of range")

/-- Go `strconv.ParseInt(s, 10, bits)`. -/
def sampleParseInt (s : String) (bits : Nat) : Except String Int :=
  let signed : Bool × List Char :=
    match s.data with
    | '-' :: cs => (true, cs)
    | '+' :: cs => (false, cs)
    | cs => (false, cs)
  match signed.2 with
  | [] => .error ("strconv.ParseInt: parsing \"" ++ s ++ "\": invalid syntax")
  | cs =>
    match digitsValue cs 0 with
    | none => .error ("strconv.ParseInt: parsing \"" ++ s ++ "\": invalid syntax")
    | some n =>
      if signed.1 then
        if n ≤ 2 ^ (bits - 1) then .ok (-(n : Int))
        else .error ("strconv.ParseInt: parsing \"" ++ s ++ "\": value out of range")
      else
        if n < 2 ^ (bits - 1) then .ok (n : Int)
        else .error ("strconv.ParseInt: parsing \"" ++ s ++ "\": value out of range")

/-- The units of `time.ParseDuration`, in nanoseconds. -/
def durationUnit (u : String) : Option Nat :=
  if u = "ns" then some 1
  else if u = "us" ∨ u = "µs" ∨ u = "μs" then some 1000
  else if u = "ms" then some 1000000
  else if u = "s" then some 1000000000
  else if u = "m" then some 60000000000
  else if u = "h" then some 3600000000000
  else none

/-- The scanner of `sampleParseDuration`: the total so far, the digits and the
unit of the segment being read. -/
structure DurationScan where
  total : Nat
  digits : List Char
  unit : List Char

/-- Closes the segment being read: a numeral followed by a unit. -/
def DurationScan.close (st : DurationScan) : Option Nat :=
  match st.digits, digitsValue st.digits.reverse 0, durationUnit ⟨st.unit.reverse⟩ with
  | _ :: _, some n, some k => some (st.total + n * k)
  | _, _, _ => none

/-- One rune of a duration text. -/
def DurationScan.step (st : Option DurationScan) (c : Char) : Option DurationScan :=
  match st with
  | none => none
  | some st =>
    if '0' ≤ c ∧ c ≤ '9' then
      match st.unit with
      | [] => some { st with digits := c :: st.digits }
      | _ :: _ =>
        match st.close with
        | none => none
        | some t => some ⟨t, [c], []⟩
    else if c = '.' then none
    else
      match st.digits with
      | [] => none
      | _ :: _ => some { st with unit := c :: st.unit }

/-- Go `time.ParseDuration` on the texts without a fraction: a sign, then
numerals each followed by a unit; texts with a fraction are rejected. -/
def sampleParseDuration (s : String) : Except String Int :=
  let signed : Bool × List Char :=
    match s.data with
    | '-' :: cs => (true, cs)
    | '+' :: cs => (false, cs)
    | cs => (false, cs)
  if signed.2 = ['0'] then .ok 0
  else
    match (signed.2.foldl DurationScan.step (some ⟨0, [], []⟩)).bind DurationScan.close with
    | none => .error ("time: invalid duration \"" ++ s ++ "\"")
    | some n =>
      if signed.1 then
        if n ≤ 2 ^ 63 then .ok (-(n : Int)) else .error ("time: invalid duration \"" ++ s ++ "\"")
      else
        if n < 2 ^ 63 then .ok (n : Int) else .error ("time: invalid duration \"" ++ s ++ "\"")

/-- Go `unicode.ToLower` on the ASCII letters, on the upper-case letters of
Latin-1 (U+00C0 to U+00DE without U+00D7), and on the letters U+023A and
U+023E, whose lower case U+2C65 and U+2C66 is one byte longer in UTF-8; any
other rune is returned as it is. -/
def sampleLowerRune (c : Char) : Char :=
  if 'A' ≤ c ∧ c ≤ 'Z' then Char.ofNat (c.toNat + 32)
  else if 0xC0 ≤ c.toNat ∧ c.toNat ≤ 0xDE ∧ c.toNat ≠ 0xD7 then Char.ofNat (c.toNat + 32)
  else if c = Char.ofNat 0x23A then Char.ofNat 0x2C65
  else if c = Char.ofNat 0x23E then Char.ofNat 0x2C66
  else c

/-- A library for the examples.  It returns what the Go library returns on
decimal integers, on booleans, on durations without a fraction, and on texts
whose upper-case letters are ASCII, Latin-1, U+023A or U+023E; floating-point
text is outside the model, and no example uses it. -/
def sampleLib : StdLib where
  parseBool := sampleParseBool
  parseInt := sampleParseInt
  parseUint := sampleParseUint
  parseFloat := fun s _ => .error ("strconv.ParseFloat: parsing \"" ++ s ++ "\": not modelled")
  parseDuration := sampleParseDuration
  toLower := fun s => ⟨s.data.map sampleLowerRune⟩

/-- The map order that enumerates the entries in the order of insertion. -/
def insertionOrder : MapOrder where
  enum := fun m => m
  perm := fun m => List.Perm.refl m

/-- The map order that enumerates the entries in the reverse order. -/
def reverseOrder : MapOrder where
  enum := fun m => m.reverse
  perm := fun m => List.reverse_perm m

/-- The template of `xflag_test.go` with the segments separated by `|`. -/
def TestStructPiped : Template :=
  .struct [
    ⟨"XFlag", "testcmd|Test command", .string "string", true⟩,
    ⟨"FlagInt", "10|An integer flag with a default of 10", .ptr "*int" (.int "int" 64), true⟩,
    ⟨"FlagInt2", "An integer flag without default", .ptr "*int" (.int "int" 64), true⟩,
    ⟨"FlagBool", "false|A boolean flag", .ptr "*bool" (.bool "bool"), true⟩,
    ⟨"FlagBool2", "A boolean flag without default", .ptr "*bool" (.bool "bool"), true⟩,
    ⟨"FlagDur", "5s|A duration flag with a default of 5s", .ptr "*time.Duration" .duration, true⟩,
    ⟨"FlagDur2", "A duration flag without default", .ptr "*time.Duration" .duration, true⟩,
    ⟨"Arg1", "The first required argument", .string "string", true⟩,
    ⟨"Arg2", "The second required argument", .string "string", true⟩,
    ⟨"Arg3", "The third required argument with a default of 'fluff'", .string "string", true⟩]

/-- The template of the concrete scenario of the specification: a header, an
optional integer with the default 10, two required strings. -/
def ScenarioStruct : Template :=
  .struct [
    ⟨"XFlag", "testcmd|Test command", .string "string", true⟩,
    ⟨"Count", "10|An integer option", .ptr "*int" (.int "int" 64), true⟩,
    ⟨"First", "The first argument", .string "string", true⟩,
    ⟨"Second", "The second argument", .string "string", true⟩]

/-- The record of the concrete scenario. -/
def scenarioRecord : Instance :=
  [⟨⟨"XFlag", "testcmd|Test command", .string "string", true⟩, .str ""⟩,
   ⟨⟨"Count", "10|An integer option", .ptr "*int" (.int "int" 64), true⟩, .ref (.int 10)⟩,
   ⟨⟨"First", "The first argument", .string "string", true⟩, .str "5"⟩,
   ⟨⟨"Second", "The second argument", .string "string", true⟩, .str "6"⟩]

/-- A template with two option fields of the same derived name `ab`: the
field `ab` is not exported, the field `Ab` is. -/
def ShadowStruct : Template :=
  .struct [
    ⟨"XFlag", "c|A command", .string "string", true⟩,
    ⟨"ab", "An option", .ptr "*int" (.int "int" 64), false⟩,
    ⟨"Ab", "Another option", .ptr "*int" (.int "int" 64), true⟩]

/-- A template with two exported option fields of the same derived name
`aé`: the fields `AÉ` and `Aé`. -/
def AccentStruct : Template :=
  .struct [
    ⟨"XFlag", "c|A command", .string "string", true⟩,
    ⟨"AÉ", "1|An option", .ptr "*int" (.int "int" 64), true⟩,
    ⟨"Aé", "Another option", .ptr "*int" (.int "int" 64), true⟩]

/-- The field of a returned record; `none` when no record is returned. -/
def Outcome.field (x : Outcome Instance) (name : String) : Option Value :=
  match x with
  | .ok r => r.get name
  | _ => none

/-- The fields of the template of the concrete scenario. -/
def scenarioFields : List Field :=
  [⟨"XFlag", "testcmd|Test command", .string "string", true⟩,
   ⟨"Count", "10|An integer option", .ptr "*int" (.int "int" 64), true⟩,
   ⟨"First", "The first argument", .string "string", true⟩,
   ⟨"Second", "The second argument", .string "string", true⟩]

/-- The schema of the concrete scenario. -/
def scenarioDef : commandDef :=
  { value := scenarioFields
    name := some "testcmd"
    usage := some "Test command"
    arguments := [⟨"First", "first", "The first argument", "string"⟩,
      ⟨"Second", "second", "The second argument", "string"⟩]
    flags := [("count", ⟨"Count", "An integer option", some "10", "*int"⟩)] }

/-- A template with an argument field of the named type `Ⱥ` (U+023A) of
package `main`, whose underlying type is `int`. -/
def StrokeStruct : Template :=
  .struct [
    ⟨"XFlag", "c|A command", .string "string", true⟩,
    ⟨"Level", "The level", .int "main.Ⱥ" 64, true⟩]

/-- The detail texts of a list of schemas. -/
def detailTexts (L : StdLib) (o : MapOrder) : List commandDef → Outcome (List String)
  | [] => .ok []
  | d :: ds =>
    (helpCommandDetails L o d).bind fun t =>
      (detailTexts L o ds).bind fun ts => .ok (t :: ts)

/-! ## Vocabulary of the specification -/

/-- The field is the command header: the field of the reserved name. -/
def isHeader (f : Field) : Bool := decide (f.name = "XFlag")

/-- The field declares an option: it is optional-wrapped and not the header. -/
def isOption (f : Field) : Bool := !isHeader f && f.type.isPtr

/-- The field declares a positional argument. -/
def isArgument (f : Field) : Bool := !isHeader f && !f.type.isPtr

/-- The number of segments of the annotation of the field. -/
def segments (f : Field) : Nat := (Split f.tag '|').length

/-- Go `Type.FieldByName(name)`: the first field of that name. -/
def fieldByName : List Field → String → Option Field
  | [], _ => none
  | f :: fs, name => if f.name = name then some f else fieldByName fs name

/-- The struct type is one that Go accepts: two fields of the same name are
blank fields, and a blank field is not exported. -/
def validStruct (fields : List Field) : Prop :=
  fields.Pairwise fun f g => f.name = g.name → f.exported = false ∧ g.exported = false

/-- The text can be stored in the field of that name: `setField` succeeds on a
new record. -/
def canSet (L : StdLib) (fields : List Field) (name text : String) : Prop :=
  ∃ inst, setField L (New fields) name text = .ok inst

/-- The fields of a record. -/
def fieldsOf (inst : Instance) : List Field := inst.map (·.field)

/-- Whether `text` occurs in `msg`. -/
def containsText : List Char → List Char → Bool
  | [], text => text.isEmpty
  | c :: cs, text => text.isPrefixOf (c :: cs) || containsText cs text

/-- For each help text of the templates, the overview first and then the
detail text of each command: whether the text occurs in `msg`. -/
def helpTextsIn (L : StdLib) (o : MapOrder) (commands : List Template) (msg : String) :
    Outcome (List Bool) :=
  (parseCommandDefs L commands).bind fun defs =>
    (helpOverview L defs).bind fun overview =>
      (detailTexts L o defs).bind fun details =>
        .ok ((overview :: details).map fun t => containsText msg.data t.data)

/-! ## Definitions for the statements and the proofs -/

/-- A sequence of calls `setField(inst, name, text)` that all succeed. -/
def runCalls (L : StdLib) : List (String × String) → Instance → Option Instance
  | [], inst => some inst
  | c :: cs, inst =>
    match setField L inst c.1 c.2 with
    | .ok inst1 => runCalls L cs inst1
    | _ => none

/-- The calls of the loop that sets the arguments. -/
def argumentCalls (args : List argumentDef) (tokens : List String) : List (String × String) :=
  List.zip (args.map (·.field)) tokens

/-- The calls of the loop that applies the defaults. -/
def defaultCalls (entries : FlagMap) : List (String × String) :=
  entries.filterMap fun e => e.2.defaultValue.map fun dv => (e.2.field, dv)

/-- The calls of the loop that sets the options of the user. -/
def flagCalls (m : FlagMap) (flags : List flag) : List (String × String) :=
  flags.filterMap fun fl => (m.get fl.name).map fun fd => (fd.field, fl.value)

/-- The annotation of the field has the number of segments its role asks for:
two for the header, one or two for an option, one for an argument. -/
def fieldOk (f : Field) : Bool :=
  if isHeader f then segments f == 2
  else if f.type.isPtr then segments f == 1 || segments f == 2
  else segments f == 1

/-- The argument definition derived from an argument field. -/
def argOf (L : StdLib) (f : Field) : argumentDef :=
  ⟨f.name, L.toLower f.name, (Split f.tag '|').headD "", f.type.typeString⟩

/-- The option definition derived from an option field. -/
def flagOf (f : Field) : flagDef :=
  match Split f.tag '|' with
  | [d, u] => ⟨f.name, u, some d, f.type.typeString⟩
  | [u] => ⟨f.name, u, none, f.type.typeString⟩
  | _ => ⟨f.name, "", none, f.type.typeString⟩

/-- The option mapping after the option fields `opts` are stored in `m`. -/
def optionMap (L : StdLib) (m : FlagMap) (opts : List Field) : FlagMap :=
  opts.foldl (fun acc f => acc.set (toKebabCase L f.name) (flagOf f)) m

/-- The template is a struct with a header field whose annotations all have
the number of segments their role asks for. -/
def wellFormed : Template → Bool
  | .struct fields => fields.any isHeader && fields.all fieldOk
  | _ => false

/-- The schema `d` is the one that the template `t` derives. -/
structure Derived (L : StdLib) (t : Template) (d : commandDef) : Prop where
  struct : t = .struct d.value
  header : ∃ f ∈ d.value, isHeader f = true ∧
    ∃ n u, Split f.tag '|' = [n, u] ∧ d.name = some n ∧ d.usage = some u
  arguments : d.arguments = (d.value.filter isArgument).map (argOf L)
  flags : d.flags = optionMap L [] (d.value.filter isOption)
  fieldsOk : ∀ f ∈ d.value, fieldOk f = true

/-- The calls `setField` that a run of `Parse` makes, in their order. -/
def parseCalls (o : MapOrder) (d : commandDef) (input : userInput) : List (String × String) :=
  argumentCalls d.arguments input.arguments ++ defaultCalls (o.enum d.flags) ++
    flagCalls d.flags input.flags

/-- A successful run of the matching: the schema is derived from a struct type
that Go accepts, and all the calls of `setField` succeed. -/
structure Run (L : StdLib) (o : MapOrder) (d : commandDef) (input : userInput)
    (r : Instance) : Prop where
  valid : validStruct d.value
  arguments : d.arguments = (d.value.filter isArgument).map (argOf L)
  flags : d.flags = optionMap L [] (d.value.filter isOption)
  arity : input.arguments.length = d.arguments.length
  calls : runCalls L (parseCalls o d input) (New d.value) = some r

/-- The texts of a list one after the other. -/
def joinLines : List String → String
  | [] => ""
  | s :: ss => s ++ joinLines ss

/-- A row of the command overview: the name moved right to the longest name,
seven dots, the usage padded to the longest usage and four. -/
def overviewLine (lk lv : Nat) (name usage : String) : String :=
  ⟨List.replicate (4 + lk - len name) ' '⟩ ++ name ++ "......." ++ padRight usage (lv + 4) ++ "\n"

/-- Whether the scan of the tokens stops on an option name that has no value:
the position after the tokens is then the value of that option, and otherwise
a position where a token is examined. -/
def endsPending : List String → Bool
  | [] => false
  | [a] => startsOption a && !isHelpAlias a
  | a :: v :: rest =>
    if startsOption a then
      if isHelpAlias a then endsPending (v :: rest) else endsPending rest
    else endsPending (v :: rest)

/-- The template `TestStruct` of `xflag_test.go`, with the annotations as the
test file writes them: the segments separated by a comma. -/
def TestStruct : Template :=
  .struct [
    ⟨"XFlag", "testcmd,Test command", .string "string", true⟩,
    ⟨"FlagInt", "10,An integer flag with a default of 10", .ptr "*int" (.int "int" 64), true⟩,
    ⟨"FlagInt2", "An integer flag without default", .ptr "*int" (.int "int" 64), true⟩,
    ⟨"FlagBool", "false,A boolean flag", .ptr "*bool" (.bool "bool"), true⟩,
    ⟨"FlagBool2", "A boolean flag without default", .ptr "*bool" (.bool "bool"), true⟩,
    ⟨"FlagDur", "5s,A duration flag with a default of 5s", .ptr "*time.Duration" .duration, true⟩,
    ⟨"FlagDur2", "A duration flag without default", .ptr "*time.Duration" .duration, true⟩,
    ⟨"Arg1", "The first required argument", .string "string", true⟩,
    ⟨"Arg2", "The second required argument", .string "string", true⟩,
    ⟨"Arg3", "The third required argument with a default of 'fluff'", .string "string", true⟩]

/-- The argument vector of the test `TestParseWithAllFlagsAndArguments`. -/
def allFlagsAndArguments : List String :=
  ["cmd", "testcmd", "-flag-int", "42", "-flag-int2", "84", "-flag-bool", "true",
   "-flag-bool2", "false", "-flag-dur", "10s", "-flag-dur2", "30s",
   "arg1_value", "arg2_value", "arg3_value"]

/-- The rune is an upper-case letter of ASCII. -/
def asciiUpper (r : Char) : Bool := decide ('A' ≤ r ∧ r ≤ 'Z')

/-- The words of the specification: a hyphen is put before every letter that
is upper case, as `upper` tells, and not at position 0; `pos` is the position
of the first rune of the list. -/
def hyphenate (upper : Char → Bool) : Nat → List Char → List Char
  | _, [] => []
  | pos, r :: rs =>
    (if upper r && decide (pos ≠ 0) then ['-', r] else [r]) ++ hyphenate upper (pos + 1) rs

/-- The words of the specification: the lower case of the hyphenated text. -/
def kebabSpec (upper : Char → Bool) (L : StdLib) (s : String) : String :=
  L.toLower ⟨hyphenate upper 0 s.data⟩

/-- The type name has no `*` at its start and none at its end. -/
def noStarAtEnds (t : String) : Bool :=
  t.data.head? != some '*' && t.data.getLast? != some '*'

/-- The words of a row after the type name: nothing, or the default. -/
def defaultNote : Option String → String
  | none => ""
  | some d => "  (default: \"" ++ d ++ "\")"

/-- A template with two options whose defaults are no integers. -/
def TwoDefaultsStruct : Template :=
  .struct [
    ⟨"XFlag", "c|A command", .string "string", true⟩,
    ⟨"First", "x|The first option", .ptr "*int" (.int "int" 64), true⟩,
    ⟨"Second", "y|The second option", .ptr "*int" (.int "int" 64), true⟩]

/-- The row of the detail text for an argument field: the key is the lower
case of the field name between `<` and `>`. -/
def argumentRow (L : StdLib) (f : Field) : row :=
  ⟨"<" ++ L.toLower f.name ++ ">", (Split f.tag '|').headD "", some f.type.typeString, none⟩

/-- The row of the detail text for an option field: the key is the derived
name between `[-` and `]`. -/
def optionRow (L : StdLib) (f : Field) : row :=
  ⟨"[-" ++ kebabSpec asciiUpper L f.name ++ "]", (flagOf f).usage, some f.type.typeString,
    (flagOf f).defaultValue⟩

/-- The rune is in ASCII. -/
def isAsciiRune (c : Char) : Bool := decide (c.toNat < 128)

/-- The text is ASCII text. -/
def isAscii (s : String) : Bool := s.data.all isAsciiRune

/-- The lower case of a rune of ASCII. -/
def asciiLowerRune (c : Char) : Char :=
  if 'A' ≤ c ∧ c ≤ 'Z' then Char.ofNat (c.toNat + 32) else c

/-- What `strings.ToLower` does on ASCII text: each of the letters `A` to `Z`
is replaced by its lower case, every other rune is kept. -/
def lowersAscii (L : StdLib) : Prop :=
  ∀ s, isAscii s = true → L.toLower s = ⟨s.data.map asciiLowerRune⟩

/-- The words of the specification: the type name as a row shows it, without
the `*` at its start and end, without the prefix `time.`, in lower case. -/
def shownType (L : StdLib) (dt : String) : String :=
  L.toLower (TrimPrefix (Trim dt '*') "time.")

/-- The words of the specification: the type annotation of a row, padded to
the width `ld`, and the default after it. -/
def typeNote (L : StdLib) (ld : Nat) (r : row) : String :=
  match r.datatype with
  | none => ""
  | some dt =>
    shownType L dt ++ ⟨List.replicate (ld - len (shownType L dt)) ' '⟩ ++
      defaultNote r.defaultValue

/-- The words of the specification: the line of a row in an aligned table.
The key is moved right to the longest key `lk`, seven dots follow, the value
is padded to the longest value `lv` and four, the type annotation to the
common width `ld`. -/
def alignedLine (L : StdLib) (lk lv ld : Nat) (r : row) : String :=
  ⟨List.replicate (4 + lk - len r.key) ' '⟩ ++ r.key ++ "......." ++
    padRight r.value (lv + 4) ++ typeNote L ld r ++ "\n"

/-- The rows are ASCII text: the keys, the values, the type names and the
defaults. -/
def asciiRows (rows : List row) : Prop :=
  ∀ r ∈ rows, isAscii r.key = true ∧ isAscii r.value = true ∧
    (∀ dt, r.datatype = some dt → isAscii dt = true) ∧
    (∀ dv, r.defaultValue = some dv → isAscii dv = true)

/-- The rune may stand in an ASCII identifier: a letter, a digit or `_`. -/
def isIdentRune (c : Char) : Bool := isAsciiRune c && (c.isAlphanum || c == '_')

/-- The text is an ASCII identifier that begins with an upper-case letter. -/
def isExportedAscii (s : String) : Bool :=
  match s.data with
  | [] => false
  | c :: cs => asciiUpper c && (c :: cs).all isIdentRune

/-! ## The words of the specification -/

/-- The conversion rules of the specification: the value that a text denotes
at a semantic type.  A boolean, a signed integer, an unsigned integer and a
floating-point number are what the library reads in the text at the width of
the type, a duration is what the library reads as a duration literal, in
nanoseconds, and plain text is the text itself; any other type is not
supported.  The text denotes nothing when the library does not accept it. -/
def denotedValue (L : StdLib) : GoType → String → Option Value
  | .bool _, s =>
    match L.parseBool s with
    | .ok b => some (.bool b)
    | .error _ => none
  | .int _ bits, s =>
    match L.parseInt s bits with
    | .ok i => some (.int i)
    | .error _ => none
  | .duration, s =>
    match L.parseDuration s with
    | .ok i => some (.int i)
    | .error _ => none
  | .uint _ bits, s =>
    match L.parseUint s bits with
    | .ok n => some (.uint n)
    | .error _ => none
  | .float _ bits, s =>
    match L.parseFloat s bits with
    | .ok x => some (.float x)
    | .error _ => none
  | .string _, s => some (.str s)
  | .ptr _ _, _ => none
  | .other _ _, _ => none

/-- The tokens that are skipped wherever an option may start: the help
aliases. -/
def isSkippedAlias (a : String) : Bool :=
  a == "help" || a == "-help" || a == "--help" || a == "-h"

/-- The words of the specification: the tokens of the vector that remain, in
their order, after the skipped help aliases and every option name with its
value are removed.  The first two are the binary name and the command name,
the others are the positional tokens. -/
def remainingTokens : List String → List String
  | [] => []
  | [a] => if isSkippedAlias a || HasPrefix a "-" then [] else [a]
  | a :: v :: rest =>
    if isSkippedAlias a then remainingTokens (v :: rest)
    else if HasPrefix a "-" then remainingTokens rest
    else a :: remainingTokens (v :: rest)

/-- The words of the specification: the option pairs of the vector, in the
order of the vector.  A token that begins with `-` and is not skipped is an
option name, the token without its first rune, and the next token is its
value. -/
def suppliedOptions : List String → List (String × String)
  | [] => []
  | [_] => []
  | a :: v :: rest =>
    if isSkippedAlias a then suppliedOptions (v :: rest)
    else if HasPrefix a "-" then (⟨a.data.drop 1⟩, v) :: suppliedOptions rest
    else suppliedOptions (v :: rest)

/-- The value of the last of the pairs that has the name, if any. -/
def lastValue : List (String × String) → String → Option String
  | [], _ => none
  | p :: ps, name =>
    match lastValue ps name with
    | some v => some v
    | none => if p.1 = name then some p.2 else none

/-- The greatest of the numbers, 0 when there is none. -/
def widest (ns : List Nat) : Nat := ns.foldr max 0

/-- The length of the longest key of the rows. -/
def keyWidth (rows : List row) : Nat := widest (rows.map fun r => len r.key)

/-- The length of the longest value of the rows. -/
def valueWidth (rows : List row) : Nat := widest (rows.map fun r => len r.value)

/-- The length of the longest declared type name of the rows. -/
def typeWidth (rows : List row) : Nat := widest (rows.filterMap fun r => r.datatype.map len)

/-- The number of line breaks of the text. -/
def lineBreaks (s : String) : Nat := s.data.count '\n'

/-- The words of the specification: the invocation line of a detail text, the
command name and then the keys of the rows, each followed by a blank. -/
def invocationLine (name : String) (keys : List String) : String :=
  "usage: " ++ name ++ " " ++ joinLines (keys.map fun k => k ++ " ")

/-- A template with arguments of the types that are converted: an integer, a
boolean, an unsigned integer and a duration. -/
def TypedStruct : Template :=
  .struct [
    ⟨"XFlag", "c|A command", .string "string", true⟩,
    ⟨"Count", "The count", .int "int" 64, true⟩,
    ⟨"Force", "Whether to force", .bool "bool", true⟩,
    ⟨"Size", "The size", .uint "uint8" 8, true⟩,
    ⟨"Wait", "The time to wait", .duration, true⟩]

/-- The message has no help text that `Parse` added: when the quoted names and
values have no line break, the message is one line, and neither the command
overview nor the detail text of a command occurs in it. -/
def addsNoHelp (L : StdLib) (o : MapOrder) (defs : List commandDef) (msg : String)
    (quoted : List String) : Prop :=
  (∀ q ∈ quoted, lineBreaks q = 0) →
    lineBreaks msg = 0 ∧
    ∀ help, (helpOverview L defs = .ok help ∨ ∃ d ∈ defs, helpCommandDetails L o d = .ok help) →
      containsText msg.data help.data = false

/-- The rows have no line break in their keys, values, type names and
defaults. -/
def plainRows (rows : List row) : Prop :=
  ∀ r ∈ rows, lineBreaks r.key = 0 ∧ lineBreaks r.value = 0 ∧
    (∀ dt, r.datatype = some dt → lineBreaks dt = 0) ∧
    (∀ dv, r.defaultValue = some dv → lineBreaks dv = 0)

/-! ## Outcomes: basic facts -/

@[simp] theorem bind_ok {α β : Type} (a : α) (f : α → Outcome β) :
    (Outcome.ok a).bind f = f a := rfl

@[simp] theorem bind_error {α β : Type} (m : String) (f : α → Outcome β) :
    (Outcome.error m : Outcome α).bind f = .error m := rfl

@[simp] theorem bind_abort {α β : Type} (m : String) (f : α → Outcome β) :
    (Outcome.abort m : Outcome α).bind f = .abort m := rfl

theorem bind_eq_ok {α β : Type} {x : Outcome α} {f : α → Outcome β} {b : β}
    (h : x.bind f = .ok b) : ∃ a, x = .ok a ∧ f a = .ok b := by
  cases x with
  | abort m => simp at h
  | error m => simp at h
  | ok a => exact ⟨a, rfl, h⟩

/-! ## Records: basic facts -/

theorem fieldsOf_New (fields : List Field) : fieldsOf (New fields) = fields := by
  induction fields with
  | nil => rfl
  | cons f fs ih =>
    simp only [New, fieldsOf, List.map_cons, List.map_map] at ih ⊢
    rw [ih]

theorem get_New (fields : List Field) (name : String) :
    (New fields).get name = (fieldByName fields name).map fun f => zeroValue f.type := by
  induction fields with
  | nil => rfl
  | cons f fs ih =>
    simp only [New, List.map_cons, Instance.get, fieldByName] at ih ⊢
    split
    · rfl
    · exact ih

theorem convert_ne_abort (L : StdLib) (t : GoType) (s m : String) :
    convert L t s ≠ .abort m := by
  cases t <;> simp only [convert, ne_eq, reduceCtorEq, not_false_eq_true]
  case bool n => cases L.parseBool s <;> simp [ofExcept]
  case int n b => cases L.parseInt s b <;> simp [ofExcept]
  case duration => cases L.parseDuration s <;> simp [ofExcept]
  case uint n b => cases L.parseUint s b <;> simp [ofExcept]
  case float n b => cases L.parseFloat s b <;> simp [ofExcept]

theorem fieldValue_ne_abort (L : StdLib) (t : GoType) (s m : String) :
    fieldValue L t s ≠ .abort m := by
  unfold fieldValue
  split
  · rename_i n elem
    have h := convert_ne_abort L elem s m
    cases hc : convert L elem s <;> simp_all
  · exact convert_ne_abort L t s m

/-- The function `setField` never panics. -/
theorem setField_ne_abort (L : StdLib) (inst : Instance) (name value m : String) :
    setField L inst name value ≠ .abort m := by
  induction inst with
  | nil => simp [setField]
  | cons slot rest ih =>
    simp only [setField]
    split
    · split
      · have h := fieldValue_ne_abort L slot.field.type value m
        cases hc : fieldValue L slot.field.type value <;> simp_all
      · simp
    · cases hc : setField L rest name value <;> simp_all

/-- What a successful `setField` does: the first field of the name is exported,
the text converts, the field holds the value and no other field changes. -/
theorem setField_ok {L : StdLib} {inst inst1 : Instance} {name value : String}
    (h : setField L inst name value = .ok inst1) :
    ∃ f x, fieldByName (fieldsOf inst) name = some f ∧ f.exported = true ∧
      fieldValue L f.type value = .ok x ∧ fieldsOf inst1 = fieldsOf inst ∧
      inst1.get name = some x ∧ ∀ m, m ≠ name → inst1.get m = inst.get m := by
  induction inst generalizing inst1 with
  | nil => simp [setField] at h
  | cons slot rest ih =>
    simp only [setField] at h
    by_cases hn : slot.field.name = name
    · rw [if_pos hn] at h
      by_cases he : slot.field.exported = true
      · rw [if_pos he] at h
        obtain ⟨x, hx, hi⟩ := bind_eq_ok h
        cases hi
        refine ⟨slot.field, x, ?_, he, hx, ?_, ?_, ?_⟩
        · simp [fieldsOf, fieldByName, hn]
        · simp [fieldsOf]
        · simp [Instance.get, hn]
        · intro m hm
          have : ¬ slot.field.name = m := fun e => hm (e.symm.trans hn)
          simp [Instance.get, this]
      · rw [if_neg he] at h
        cases h
    · rw [if_neg hn] at h
      obtain ⟨r1, hr, hi⟩ := bind_eq_ok h
      cases hi
      obtain ⟨f, x, hf, he, hx, hfs, hg, ho⟩ := ih hr
      refine ⟨f, x, ?_, he, hx, ?_, ?_, ?_⟩
      · simpa [fieldsOf, fieldByName, hn] using hf
      · simpa [fieldsOf] using hfs
      · simpa [Instance.get, hn] using hg
      · intro m hm
        simp only [Instance.get]
        split
        · rfl
        · exact ho m hm

/-- When `setField` succeeds: it depends on the fields only, not on the values. -/
theorem setField_isOk {L : StdLib} {inst : Instance} {name value : String} {f : Field} {x : Value}
    (hf : fieldByName (fieldsOf inst) name = some f) (he : f.exported = true)
    (hx : fieldValue L f.type value = .ok x) :
    ∃ inst1, setField L inst name value = .ok inst1 := by
  induction inst with
  | nil => simp [fieldsOf, fieldByName] at hf
  | cons slot rest ih =>
    simp only [setField]
    by_cases hn : slot.field.name = name
    · simp only [fieldsOf, List.map_cons, fieldByName, hn, if_true, Option.some.injEq] at hf
      subst hf
      rw [if_pos hn, if_pos he, hx]
      exact ⟨_, rfl⟩
    · simp only [fieldsOf, List.map_cons, fieldByName, hn, if_false] at hf
      obtain ⟨r1, hr⟩ := ih hf
      rw [if_neg hn, hr]
      exact ⟨_, rfl⟩

theorem canSet_iff {L : StdLib} {fields : List Field} {name text : String} :
    canSet L fields name text ↔
      ∃ f x, fieldByName fields name = some f ∧ f.exported = true ∧
        fieldValue L f.type text = .ok x := by
  constructor
  · rintro ⟨inst, h⟩
    obtain ⟨f, x, hf, he, hx, _⟩ := setField_ok h
    rw [fieldsOf_New] at hf
    exact ⟨f, x, hf, he, hx⟩
  · rintro ⟨f, x, hf, he, hx⟩
    exact setField_isOk (by rw [fieldsOf_New]; exact hf) he hx

/-! ## Sequences of `setField` calls -/

theorem runCalls_cons_some {L : StdLib} {c : String × String} {cs : List (String × String)}
    {inst r : Instance} (h : runCalls L (c :: cs) inst = some r) :
    ∃ inst1, setField L inst c.1 c.2 = .ok inst1 ∧ runCalls L cs inst1 = some r := by
  simp only [runCalls] at h
  cases hs : setField L inst c.1 c.2 with
  | abort m => rw [hs] at h; cases h
  | error m => rw [hs] at h; cases h
  | ok inst1 => rw [hs] at h; exact ⟨inst1, rfl, h⟩

theorem runCalls_append (L : StdLib) (a b : List (String × String)) (inst : Instance) :
    runCalls L (a ++ b) inst = (runCalls L a inst).bind (runCalls L b) := by
  induction a generalizing inst with
  | nil => rfl
  | cons c cs ih =>
    simp only [List.cons_append, runCalls]
    cases hs : setField L inst c.1 c.2 with
    | abort m => rfl
    | error m => rfl
    | ok inst1 => exact ih inst1

theorem runCalls_fields {L : StdLib} {cs : List (String × String)} {inst r : Instance}
    (h : runCalls L cs inst = some r) : fieldsOf r = fieldsOf inst := by
  induction cs generalizing inst with
  | nil => simp only [runCalls, Option.some.injEq] at h; rw [h]
  | cons c cs ih =>
    obtain ⟨inst1, hs, hr⟩ := runCalls_cons_some h
    obtain ⟨_, _, _, _, _, hf, _⟩ := setField_ok hs
    rw [ih hr, hf]

/-- A field that no call names keeps its value. -/
theorem runCalls_get_other {L : StdLib} {cs : List (String × String)} {inst r : Instance}
    {name : String} (h : runCalls L cs inst = some r) (hn : ∀ c ∈ cs, c.1 ≠ name) :
    r.get name = inst.get name := by
  induction cs generalizing inst with
  | nil => simp only [runCalls, Option.some.injEq] at h; rw [h]
  | cons c cs ih =>
    obtain ⟨inst1, hs, hr⟩ := runCalls_cons_some h
    obtain ⟨_, _, _, _, _, _, _, ho⟩ := setField_ok hs
    rw [ih hr (fun c1 hc1 => hn c1 (List.mem_cons_of_mem _ hc1)),
      ho name (fun e => hn c (List.mem_cons_self _ _) e.symm)]

/-- Every call of a successful sequence names an exported field whose type
accepts the text. -/
theorem runCalls_target {L : StdLib} {cs : List (String × String)} {inst r : Instance}
    (h : runCalls L cs inst = some r) {c : String × String} (hc : c ∈ cs) :
    ∃ f x, fieldByName (fieldsOf inst) c.1 = some f ∧ f.exported = true ∧
      fieldValue L f.type c.2 = .ok x := by
  induction cs generalizing inst with
  | nil => cases hc
  | cons c1 cs ih =>
    obtain ⟨inst1, hs, hr⟩ := runCalls_cons_some h
    obtain ⟨f, x, hf, he, hx, hfs, _⟩ := setField_ok hs
    rcases List.mem_cons.1 hc with rfl | hc
    · exact ⟨f, x, hf, he, hx⟩
    · have := ih hr hc
      rwa [hfs] at this

/-- After a successful sequence a field holds the value of the last call that
names it. -/
theorem runCalls_get_last {L : StdLib} {cs1 cs2 : List (String × String)} {inst r : Instance}
    {name text : String} (h : runCalls L (cs1 ++ (name, text) :: cs2) inst = some r)
    (hn : ∀ c ∈ cs2, c.1 ≠ name) :
    ∃ f x, fieldByName (fieldsOf inst) name = some f ∧ f.exported = true ∧
      fieldValue L f.type text = .ok x ∧ r.get name = some x := by
  rw [runCalls_append] at h
  cases h1 : runCalls L cs1 inst with
  | none => rw [h1] at h; cases h
  | some inst1 =>
    rw [h1] at h
    simp only [Option.bind] at h
    obtain ⟨inst2, hs, hr⟩ := runCalls_cons_some h
    obtain ⟨f, x, hf, he, hx, _, hg, _⟩ := setField_ok hs
    refine ⟨f, x, ?_, he, hx, ?_⟩
    · rw [← runCalls_fields h1]; exact hf
    · rw [runCalls_get_other hr hn]; exact hg

/-- A sequence succeeds as soon as every call names an exported field whose
type accepts the text. -/
theorem runCalls_isSome {L : StdLib} {cs : List (String × String)} {inst : Instance}
    (h : ∀ c ∈ cs, canSet L (fieldsOf inst) c.1 c.2) : ∃ r, runCalls L cs inst = some r := by
  induction cs generalizing inst with
  | nil => exact ⟨inst, rfl⟩
  | cons c cs ih =>
    obtain ⟨f, x, hf, he, hx⟩ := canSet_iff.1 (h c (List.mem_cons_self _ _))
    obtain ⟨inst1, hs⟩ := setField_isOk hf he hx
    obtain ⟨_, _, _, _, _, hfs, _⟩ := setField_ok hs
    obtain ⟨r, hr⟩ := @ih inst1
      (fun c1 hc1 => by rw [hfs]; exact h c1 (List.mem_cons_of_mem _ hc1))
    exact ⟨r, by simp only [runCalls, hs]; exact hr⟩

/-! ## The three loops of `Parse` as sequences of calls -/

theorem setArguments_eq {L : StdLib} {tokens : List String} {args : List argumentDef}
    {i : Nat} {inst : Instance} (hlen : i + args.length ≤ tokens.length) :
    (∀ r, setArguments L tokens i args inst = .ok r ↔
      runCalls L (argumentCalls args (tokens.drop i)) inst = some r) ∧
    (∀ m, setArguments L tokens i args inst ≠ .abort m) := by
  induction args generalizing i inst with
  | nil =>
    refine ⟨fun r => ?_, fun m => ?_⟩
    · simp [setArguments, argumentCalls, runCalls]
    · simp [setArguments]
  | cons a rest ih =>
    simp only [List.length_cons] at hlen
    have hi : i < tokens.length := by omega
    have hd : tokens.drop i = tokens[i] :: tokens.drop (i + 1) := List.drop_eq_getElem_cons hi
    have hrest : (i + 1) + rest.length ≤ tokens.length := by omega
    simp only [setArguments, List.getElem?_eq_getElem hi, hd, argumentCalls, List.map_cons,
      List.zip_cons_cons, runCalls]
    cases hs : setField L inst a.field tokens[i] with
    | abort m => exact absurd hs (setField_ne_abort L inst a.field tokens[i] m)
    | error m => simp
    | ok inst1 =>
      have := @ih (i + 1) inst1 hrest
      simpa [argumentCalls] using this

theorem applyDefaults_eq (L : StdLib) (entries : FlagMap) (inst : Instance) :
    (∀ r, applyDefaults L entries inst = .ok r ↔
      runCalls L (defaultCalls entries) inst = some r) ∧
    (∀ m, applyDefaults L entries inst ≠ .abort m) := by
  induction entries generalizing inst with
  | nil =>
    refine ⟨fun r => ?_, fun m => ?_⟩
    · simp [applyDefaults, defaultCalls, runCalls]
    · simp [applyDefaults]
  | cons e rest ih =>
    cases hd : e.2.defaultValue with
    | none =>
      have := ih inst
      simpa [applyDefaults, defaultCalls, hd] using this
    | some dv =>
      simp only [applyDefaults, hd, defaultCalls, List.filterMap_cons, Option.map_some',
        runCalls]
      cases hs : setField L inst e.2.field dv with
      | abort m => exact absurd hs (setField_ne_abort L inst e.2.field dv m)
      | error m => simp
      | ok inst1 =>
        have := ih inst1
        simpa [defaultCalls] using this

theorem setFlags_ne_abort (L : StdLib) (m : FlagMap) (flags : List flag) (inst : Instance)
    (msg : String) : setFlags L m flags inst ≠ .abort msg := by
  induction flags generalizing inst with
  | nil => simp [setFlags]
  | cons fl rest ih =>
    simp only [setFlags]
    cases hg : m.get fl.name with
    | none => simp
    | some fd =>
      simp only
      cases hs : setField L inst fd.field fl.value with
      | abort m1 => exact absurd hs (setField_ne_abort L inst fd.field fl.value m1)
      | error m1 => simp
      | ok inst1 => exact ih inst1

theorem setFlags_ok_iff (L : StdLib) (m : FlagMap) (flags : List flag) (inst r : Instance) :
    setFlags L m flags inst = .ok r ↔
      (∀ fl ∈ flags, ∃ fd, m.get fl.name = some fd) ∧
        runCalls L (flagCalls m flags) inst = some r := by
  induction flags generalizing inst with
  | nil => simp [setFlags, flagCalls, runCalls]
  | cons fl rest ih =>
    simp only [setFlags]
    cases hg : m.get fl.name with
    | none =>
      simp only [reduceCtorEq, List.mem_cons, forall_eq_or_imp, hg, exists_false, false_and]
    | some fd =>
      simp only [flagCalls, List.filterMap_cons, hg, Option.map_some', runCalls, List.mem_cons,
        forall_eq_or_imp, Option.some.injEq, exists_eq', true_and]
      cases hs : setField L inst fd.field fl.value with
      | abort m1 => simp
      | error m1 => simp
      | ok inst1 =>
        have := ih inst1
        simpa [flagCalls] using this

/-- The first option of the user that the schema does not declare ends `Parse`
with the message of line 116, when the options before it are set. -/
theorem setFlags_unrecognized {L : StdLib} {m : FlagMap} {pre post : List flag} {fl : flag}
    {inst r : Instance} (hpre : setFlags L m pre inst = .ok r) (hfl : m.get fl.name = none) :
    setFlags L m (pre ++ fl :: post) inst = .error ("unrecognized flag \"" ++ fl.name ++ "\"") := by
  induction pre generalizing inst with
  | nil => simp [setFlags, hfl]
  | cons p rest ih =>
    simp only [setFlags, List.cons_append] at hpre ⊢
    cases hg : m.get p.name with
    | none => rw [hg] at hpre; cases hpre
    | some fd =>
      rw [hg] at hpre
      simp only at hpre ⊢
      cases hs : setField L inst fd.field p.value with
      | abort m1 => rw [hs] at hpre; cases hpre
      | error m1 => rw [hs] at hpre; cases hpre
      | ok inst1 => rw [hs] at hpre; exact ih hpre

/-- An option that the schema does not declare makes the loop fail. -/
theorem setFlags_undeclared {L : StdLib} {m : FlagMap} {flags : List flag} {fl : flag}
    (inst : Instance) (hmem : fl ∈ flags) (hfl : m.get fl.name = none) :
    ∃ msg, setFlags L m flags inst = .error msg := by
  cases h : setFlags L m flags inst with
  | abort msg => exact absurd h (setFlags_ne_abort L m flags inst msg)
  | error msg => exact ⟨msg, rfl⟩
  | ok r =>
    obtain ⟨fd, hfd⟩ := ((setFlags_ok_iff L m flags inst r).1 h).1 fl hmem
    rw [hfl] at hfd
    cases hfd

/-! ## Schema derivation: what a template derives -/

theorem deriveField_cases (L : StdLib) (cmd : commandDef) (f : Field) :
    (isHeader f = true ∧ fieldOk f = true ∧ ∃ n u, Split f.tag '|' = [n, u] ∧
      deriveField L cmd f = .ok { cmd with name := some n, usage := some u }) ∨
    (isOption f = true ∧ fieldOk f = true ∧
      deriveField L cmd f =
        .ok { cmd with flags := cmd.flags.set (toKebabCase L f.name) (flagOf f) }) ∨
    (isArgument f = true ∧ fieldOk f = true ∧
      deriveField L cmd f = .ok { cmd with arguments := cmd.arguments ++ [argOf L f] }) ∨
    (fieldOk f = false ∧ ∃ msg, deriveField L cmd f = .abort msg) := by
  by_cases hh : f.name = "XFlag"
  · rcases hs : Split f.tag '|' with _ | ⟨a, _ | ⟨b, _ | ⟨c, t⟩⟩⟩
    · right; right; right
      simp [deriveField, hh, hs, fieldOk, isHeader, segments]
    · right; right; right
      simp [deriveField, hh, hs, fieldOk, isHeader, segments]
    · left
      simp [deriveField, hh, hs, fieldOk, isHeader, segments]
    · right; right; right
      simp [deriveField, hh, hs, fieldOk, isHeader, segments]
  · by_cases hp : f.type.isPtr = true
    · rcases hs : Split f.tag '|' with _ | ⟨a, _ | ⟨b, _ | ⟨c, t⟩⟩⟩
      · right; right; right
        simp [deriveField, hh, hp, hs, fieldOk, isHeader, segments]
      · right; left
        simp [deriveField, hh, hp, hs, fieldOk, isHeader, isOption, segments, flagOf]
      · right; left
        simp [deriveField, hh, hp, hs, fieldOk, isHeader, isOption, segments, flagOf]
      · right; right; right
        simp [deriveField, hh, hp, hs, fieldOk, isHeader, segments]
    · rcases hs : Split f.tag '|' with _ | ⟨a, _ | ⟨b, t⟩⟩
      · right; right; right
        simp [deriveField, hh, hp, hs, fieldOk, isHeader, segments]
      · right; right; left
        simp [deriveField, hh, hp, hs, fieldOk, isHeader, isArgument, segments, argOf]
      · right; right; right
        simp [deriveField, hh, hp, hs, fieldOk, isHeader, segments]

theorem role_cases (f : Field) :
    (isHeader f = true ∧ isOption f = false ∧ isArgument f = false) ∨
    (isHeader f = false ∧ isOption f = true ∧ isArgument f = false) ∨
    (isHeader f = false ∧ isOption f = false ∧ isArgument f = true) := by
  cases h1 : isHeader f <;> cases h2 : f.type.isPtr <;> simp [isOption, isArgument, h1, h2]

/-- The loop over the fields runs to its end exactly when every annotation has
the right number of segments; it never returns an error. -/
theorem deriveFields_total (L : StdLib) (fs : List Field) (cmd : commandDef) :
    ((∀ f ∈ fs, fieldOk f = true) → ∃ cmd1, deriveFields L fs cmd = .ok cmd1) ∧
    ((∃ f ∈ fs, fieldOk f = false) → ∃ msg, deriveFields L fs cmd = .abort msg) := by
  induction fs generalizing cmd with
  | nil => simp [deriveFields]
  | cons f fs ih =>
    simp only [deriveFields, List.mem_cons, forall_eq_or_imp, exists_eq_or_imp]
    rcases deriveField_cases L cmd f with ⟨_, hok, _, _, _, hd⟩ | ⟨_, hok, hd⟩ | ⟨_, hok, hd⟩ |
        ⟨hbad, msg, hd⟩
    all_goals rw [hd]
    · simp only [bind_ok, hok, true_and, Bool.true_eq_false, false_or]; exact ih _
    · simp only [bind_ok, hok, true_and, Bool.true_eq_false, false_or]; exact ih _
    · simp only [bind_ok, hok, true_and, Bool.true_eq_false, false_or]; exact ih _
    · simp [hbad]

/-- What the loop over the fields leaves in the schema. -/
theorem deriveFields_ok {L : StdLib} {fs : List Field} {cmd cmd1 : commandDef}
    (h : deriveFields L fs cmd = .ok cmd1) :
    cmd1.value = cmd.value ∧
    cmd1.arguments = cmd.arguments ++ (fs.filter isArgument).map (argOf L) ∧
    cmd1.flags = optionMap L cmd.flags (fs.filter isOption) ∧
    (∀ f ∈ fs, fieldOk f = true) ∧
    ((∀ f ∈ fs, isHeader f = false) → cmd1.name = cmd.name ∧ cmd1.usage = cmd.usage) ∧
    ((∃ f ∈ fs, isHeader f = true) → ∃ f ∈ fs, isHeader f = true ∧
      ∃ n u, Split f.tag '|' = [n, u] ∧ cmd1.name = some n ∧ cmd1.usage = some u) := by
  induction fs generalizing cmd with
  | nil =>
    simp only [deriveFields, Outcome.ok.injEq] at h
    subst h
    simp [optionMap]
  | cons f fs ih =>
    simp only [deriveFields] at h
    obtain ⟨c1, hd, hr⟩ := bind_eq_ok h
    obtain ⟨hv, ha, hfl, hok, hnh, hh⟩ := ih hr
    rcases role_cases f with ⟨r1, r2, r3⟩ | ⟨r1, r2, r3⟩ | ⟨r1, r2, r3⟩
    · rcases deriveField_cases L cmd f with ⟨_, hfok, n, u, hsp, hd1⟩ | ⟨ho, _⟩ | ⟨ho, _⟩ |
          ⟨_, msg, hd1⟩
      · rw [hd1] at hd
        cases hd
        refine ⟨hv, ?_, ?_, ?_, ?_, ?_⟩
        · simpa [r3] using ha
        · simpa [r2] using hfl
        · simpa [hfok] using hok
        · intro hall
          have := hall f (List.mem_cons_self _ _)
          rw [r1] at this
          cases this
        · intro _
          by_cases hex : ∃ g ∈ fs, isHeader g = true
          · obtain ⟨g, hg, hgh, hres⟩ := hh hex
            exact ⟨g, List.mem_cons_of_mem _ hg, hgh, hres⟩
          · have hall : ∀ g ∈ fs, isHeader g = false := by
              intro g hg
              cases hgh : isHeader g
              · rfl
              · exact absurd ⟨g, hg, hgh⟩ hex
            obtain ⟨hn1, hu1⟩ := hnh hall
            exact ⟨f, List.mem_cons_self _ _, r1, n, u, hsp, hn1, hu1⟩
      · rw [r2] at ho; cases ho
      · rw [r3] at ho; cases ho
      · rw [hd1] at hd; cases hd
    · rcases deriveField_cases L cmd f with ⟨ho, _⟩ | ⟨_, hfok, hd1⟩ | ⟨ho, _⟩ | ⟨_, msg, hd1⟩
      · rw [r1] at ho; cases ho
      · rw [hd1] at hd
        cases hd
        refine ⟨hv, ?_, ?_, ?_, ?_, ?_⟩
        · simpa [r3] using ha
        · simpa [r2, optionMap] using hfl
        · simpa [hfok] using hok
        · intro hall
          exact hnh (fun g hg => hall g (List.mem_cons_of_mem _ hg))
        · rintro ⟨g, hg, hgh⟩
          rcases List.mem_cons.1 hg with rfl | hg
          · rw [r1] at hgh; cases hgh
          · obtain ⟨g1, hg1, hres⟩ := hh ⟨g, hg, hgh⟩
            exact ⟨g1, List.mem_cons_of_mem _ hg1, hres⟩
      · rw [r3] at ho; cases ho
      · rw [hd1] at hd; cases hd
    · rcases deriveField_cases L cmd f with ⟨ho, _⟩ | ⟨ho, _⟩ | ⟨_, hfok, hd1⟩ | ⟨_, msg, hd1⟩
      · rw [r1] at ho; cases ho
      · rw [r2] at ho; cases ho
      · rw [hd1] at hd
        cases hd
        refine ⟨hv, ?_, ?_, ?_, ?_, ?_⟩
        · simpa [r3, List.append_assoc] using ha
        · simpa [r2] using hfl
        · simpa [hfok] using hok
        · intro hall
          exact hnh (fun g hg => hall g (List.mem_cons_of_mem _ hg))
        · rintro ⟨g, hg, hgh⟩
          rcases List.mem_cons.1 hg with rfl | hg
          · rw [r1] at hgh; cases hgh
          · obtain ⟨g1, hg1, hres⟩ := hh ⟨g, hg, hgh⟩
            exact ⟨g1, List.mem_cons_of_mem _ hg1, hres⟩
      · rw [hd1] at hd; cases hd

/-! ## The option mapping -/

theorem get_set_self (m : FlagMap) (k : String) (v : flagDef) : (m.set k v).get k = some v := by
  induction m with
  | nil => simp [FlagMap.set, FlagMap.get, List.lookup]
  | cons e m ih =>
    simp only [FlagMap.set, FlagMap.get] at ih ⊢
    by_cases he : e.1 = k
    · simpa [List.filter_cons, he] using ih
    · have hk : (k == e.1) = false := by simpa using fun h => he h.symm
      simpa [List.filter_cons, he, List.lookup, hk] using ih

theorem get_set_other (m : FlagMap) {k k1 : String} (v : flagDef) (h : k1 ≠ k) :
    (m.set k v).get k1 = m.get k1 := by
  induction m with
  | nil =>
    have hk : (k1 == k) = false := by simpa using h
    simp [FlagMap.set, FlagMap.get, List.lookup, hk]
  | cons e m ih =>
    simp only [FlagMap.set, FlagMap.get] at ih ⊢
    by_cases he : e.1 = k
    · have hk : (k1 == e.1) = false := by simpa [he] using h
      have hk2 : (k1 == k) = false := by simpa using h
      simpa [List.filter_cons, he, List.lookup, hk, hk2] using ih
    · by_cases hk : k1 = e.1
      · simp [List.filter_cons, he, List.lookup, hk]
      · have hk1 : (k1 == e.1) = false := by simpa using hk
        simpa [List.filter_cons, he, List.lookup, hk1] using ih

/-- An entry of the mapping is what the mapping returns for its key, provided
no key occurs twice. -/
theorem get_of_mem {m : FlagMap} (hm : (m.map (·.1)).Nodup) {e : String × flagDef}
    (he : e ∈ m) : m.get e.1 = some e.2 := by
  induction m with
  | nil => cases he
  | cons e1 m ih =>
    simp only [List.map_cons, List.nodup_cons] at hm
    rcases List.mem_cons.1 he with rfl | he
    · simp [FlagMap.get, List.lookup]
    · have hne : (e.1 == e1.1) = false := by
        simp only [beq_eq_false_iff_ne, ne_eq]
        intro h
        exact hm.1 (h ▸ List.mem_map_of_mem (·.1) he)
      simpa [FlagMap.get, List.lookup, hne] using ih hm.2 he

theorem mem_of_get {m : FlagMap} {k : String} {v : flagDef} (h : m.get k = some v) :
    (k, v) ∈ m := by
  induction m with
  | nil => simp [FlagMap.get, List.lookup] at h
  | cons e m ih =>
    simp only [FlagMap.get, List.lookup] at h ih
    by_cases hk : k = e.1
    · subst hk
      simp only [beq_self_eq_true, Option.some.injEq] at h
      subst h
      exact List.mem_cons_self _ _
    · have hk1 : (k == e.1) = false := by simpa using hk
      simp only [hk1] at h
      exact List.mem_cons_of_mem _ (ih h)

theorem keys_set_nodup {m : FlagMap} (hm : (m.map (·.1)).Nodup) (k : String) (v : flagDef) :
    ((m.set k v).map (·.1)).Nodup := by
  simp only [FlagMap.set, List.map_append, List.map_cons, List.map_nil]
  refine List.Nodup.append ?_ (List.nodup_singleton k) ?_
  · exact (hm.sublist ((List.filter_sublist m).map _))
  · intro a ha hb
    simp only [List.mem_singleton] at hb
    subst hb
    obtain ⟨e, he, hea⟩ := List.mem_map.1 ha
    have := (List.mem_filter.1 he).2
    simp [hea] at this

theorem optionMap_cons (L : StdLib) (m : FlagMap) (f : Field) (opts : List Field) :
    optionMap L m (f :: opts) = optionMap L (m.set (toKebabCase L f.name) (flagOf f)) opts := rfl

theorem optionMap_append (L : StdLib) (m : FlagMap) (a b : List Field) :
    optionMap L m (a ++ b) = optionMap L (optionMap L m a) b := by
  simp [optionMap, List.foldl_append]

theorem keys_optionMap_nodup (L : StdLib) {m : FlagMap} (hm : (m.map (·.1)).Nodup)
    (opts : List Field) : ((optionMap L m opts).map (·.1)).Nodup := by
  induction opts generalizing m with
  | nil => exact hm
  | cons f opts ih => rw [optionMap_cons]; exact ih (keys_set_nodup hm _ _)

/-- Option fields whose derived name differs from `k` leave the entry of `k`. -/
theorem get_optionMap_other (L : StdLib) (m : FlagMap) (opts : List Field) (k : String)
    (h : ∀ g ∈ opts, toKebabCase L g.name ≠ k) : (optionMap L m opts).get k = m.get k := by
  induction opts generalizing m with
  | nil => rfl
  | cons f opts ih =>
    rw [optionMap_cons, ih _ (fun g hg => h g (List.mem_cons_of_mem _ hg)),
      get_set_other _ _ (fun e => h f (List.mem_cons_self _ _) e.symm)]

/-- The entry of a derived name is the definition of the last option field
that derives it. -/
theorem get_optionMap_last (L : StdLib) (m : FlagMap) (pre post : List Field) (f : Field)
    (h : ∀ g ∈ post, toKebabCase L g.name ≠ toKebabCase L f.name) :
    (optionMap L m (pre ++ f :: post)).get (toKebabCase L f.name) = some (flagOf f) := by
  rw [optionMap_append, optionMap_cons, get_optionMap_other L _ post _ h, get_set_self]

/-- Every entry comes from an option field, or was in the mapping before. -/
theorem get_optionMap_some {L : StdLib} {m : FlagMap} {opts : List Field} {k : String}
    {fd : flagDef} (h : (optionMap L m opts).get k = some fd) :
    (∃ f ∈ opts, toKebabCase L f.name = k ∧ fd = flagOf f) ∨ m.get k = some fd := by
  induction opts generalizing m with
  | nil => exact Or.inr h
  | cons f opts ih =>
    rw [optionMap_cons] at h
    rcases ih h with ⟨g, hg, hk, hfd⟩ | h1
    · exact Or.inl ⟨g, List.mem_cons_of_mem _ hg, hk, hfd⟩
    · by_cases hk : toKebabCase L f.name = k
      · subst hk
        rw [get_set_self] at h1
        cases h1
        exact Or.inl ⟨f, List.mem_cons_self _ _, rfl, rfl⟩
      · rw [get_set_other _ _ (fun e => hk e.symm)] at h1
        exact Or.inr h1

theorem flagOf_field (f : Field) : (flagOf f).field = f.name := by
  unfold flagOf
  split <;> rfl

/-- The default of the derived option: the first segment, when there are two. -/
theorem flagOf_default (f : Field) (dv : String) :
    (flagOf f).defaultValue = some dv ↔ ∃ u, Split f.tag '|' = [dv, u] := by
  unfold flagOf
  split
  · rename_i d u h
    simp [h]
  · rename_i u h
    simp [h]
  · rename_i h1 h2
    simp only [reduceCtorEq, false_iff, not_exists]
    intro u hu
    exact h1 dv u hu

/-! ## Lists -/

/-- The last element of a list that satisfies a condition. -/
theorem exists_last_split {α : Type} (p : α → Prop) (l : List α) (h : ∃ x ∈ l, p x) :
    ∃ l1 x l2, l = l1 ++ x :: l2 ∧ p x ∧ ∀ y ∈ l2, ¬ p y := by
  induction l with
  | nil => obtain ⟨x, hx, _⟩ := h; cases hx
  | cons a l ih =>
    by_cases hl : ∃ x ∈ l, p x
    · obtain ⟨l1, x, l2, hl1, hp, hn⟩ := ih hl
      exact ⟨a :: l1, x, l2, by rw [hl1]; rfl, hp, hn⟩
    · obtain ⟨x, hx, hp⟩ := h
      rcases List.mem_cons.1 hx with rfl | hx
      · exact ⟨[], x, l, rfl, hp, fun y hy hpy => hl ⟨y, hy, hpy⟩⟩
      · exact absurd ⟨x, hx, hp⟩ hl

/-! ## Struct types -/

theorem fieldByName_some {fields : List Field} {name : String} {f : Field}
    (h : fieldByName fields name = some f) : f ∈ fields ∧ f.name = name := by
  induction fields with
  | nil => cases h
  | cons g fs ih =>
    simp only [fieldByName] at h
    by_cases hg : g.name = name
    · rw [if_pos hg] at h
      cases h
      exact ⟨List.mem_cons_self _ _, hg⟩
    · rw [if_neg hg] at h
      exact ⟨List.mem_cons_of_mem _ (ih h).1, (ih h).2⟩

theorem fieldByName_of_mem {fields : List Field} {f : Field} (h : f ∈ fields) :
    ∃ g, fieldByName fields f.name = some g := by
  induction fields with
  | nil => cases h
  | cons g fs ih =>
    simp only [fieldByName]
    by_cases hg : g.name = f.name
    · exact ⟨g, by rw [if_pos hg]⟩
    · rw [if_neg hg]
      rcases List.mem_cons.1 h with rfl | h
      · exact absurd rfl hg
      · exact ih h

/-- In a struct type that Go accepts, an exported field is the only field of
its name. -/
theorem field_unique {fields : List Field} (hv : validStruct fields) {f g : Field}
    (hf : f ∈ fields) (hg : g ∈ fields) (hn : f.name = g.name) (he : f.exported = true) :
    f = g := by
  by_contra hne
  have hsym : Symmetric fun a b : Field =>
      a.name = b.name → a.exported = false ∧ b.exported = false := by
    intro a b hab hba
    exact (hab hba.symm).symm
  have := List.Pairwise.forall hsym hv hf hg hne hn
  rw [he] at this
  exact absurd this.1 (by simp)

/-! ## Schema derivation: templates and schemas -/

theorem deriveCommand_ok {L : StdLib} {t : Template} {d : commandDef}
    (h : deriveCommand L t = .ok d) : Derived L t d := by
  cases t with
  | pointer => simp [deriveCommand] at h
  | other kind => simp [deriveCommand] at h
  | struct fields =>
    simp only [deriveCommand] at h
    obtain ⟨cmd, hd, hc⟩ := bind_eq_ok h
    by_cases hn : cmd.name = none ∨ cmd.usage = none
    · rw [if_pos hn] at hc; cases hc
    · rw [if_neg hn] at hc
      cases hc
      obtain ⟨hv, ha, hfl, hok, hnh, hh⟩ := deriveFields_ok hd
      simp only at hv ha hfl hnh
      have hex : ∃ f ∈ fields, isHeader f = true := by
        by_contra hex
        have hall : ∀ g ∈ fields, isHeader g = false := by
          intro g hg
          cases hgh : isHeader g
          · rfl
          · exact absurd ⟨g, hg, hgh⟩ hex
        exact hn (Or.inl (hnh hall).1)
      refine ⟨by rw [hv], ?_, ?_, ?_, ?_⟩
      · rw [hv]; exact hh hex
      · rw [hv]; simpa using ha
      · rw [hv]; exact hfl
      · rw [hv]; exact hok

theorem deriveCommand_total (L : StdLib) (t : Template) :
    (wellFormed t = true → ∃ d, deriveCommand L t = .ok d) ∧
    (wellFormed t = false → ∃ msg, deriveCommand L t = .abort msg) := by
  cases t with
  | pointer => simp [deriveCommand, wellFormed]
  | other kind => simp [deriveCommand, wellFormed]
  | struct fields =>
    simp only [deriveCommand, wellFormed]
    by_cases hall : ∀ f ∈ fields, fieldOk f = true
    · obtain ⟨cmd, hd⟩ := (deriveFields_total L fields ⟨fields, none, none, [], []⟩).1 hall
      obtain ⟨_, _, _, _, hnh, hh⟩ := deriveFields_ok hd
      rw [hd]
      by_cases hex : ∃ f ∈ fields, isHeader f = true
      · obtain ⟨g, _, _, n, u, _, hn, hu⟩ := hh hex
        have hany : fields.any isHeader = true := by simpa using hex
        have hallb : fields.all fieldOk = true := by simpa using hall
        simp [hn, hu, hany, hallb]
      · have hno : ∀ g ∈ fields, isHeader g = false := by
          intro g hg
          cases hgh : isHeader g
          · rfl
          · exact absurd ⟨g, hg, hgh⟩ hex
        have hany : fields.any isHeader = false := by simpa using hno
        obtain ⟨hn, _⟩ := hnh hno
        simp only at hn
        simp [hn, hany]
    · have hbad : ∃ f ∈ fields, fieldOk f = false := by
        by_contra hb
        apply hall
        intro f hf
        cases hfo : fieldOk f
        · exact absurd ⟨f, hf, hfo⟩ hb
        · rfl
      obtain ⟨msg, hd⟩ := (deriveFields_total L fields ⟨fields, none, none, [], []⟩).2 hbad
      have hallb : fields.all fieldOk = false := by
        simp only [List.all_eq_false, Bool.not_eq_true]
        exact hbad
      rw [hd]
      simp [hallb]

/-- Schema derivation returns one schema per template, in the order of the
templates. -/
theorem parseCommandDefs_ok {L : StdLib} {commands : List Template} {defs : List commandDef}
    (h : parseCommandDefs L commands = .ok defs) : List.Forall₂ (Derived L) commands defs := by
  induction commands generalizing defs with
  | nil =>
    simp only [parseCommandDefs, Outcome.ok.injEq] at h
    subst h
    exact List.Forall₂.nil
  | cons c cs ih =>
    simp only [parseCommandDefs] at h
    obtain ⟨d, hd, h1⟩ := bind_eq_ok h
    obtain ⟨ds, hds, h2⟩ := bind_eq_ok h1
    cases h2
    exact List.Forall₂.cons (deriveCommand_ok hd) (ih hds)

/-- Schema derivation returns the schemas when every template is well formed,
and panics otherwise; it never returns an error. -/
theorem parseCommandDefs_total (L : StdLib) (commands : List Template) :
    ((∀ t ∈ commands, wellFormed t = true) → ∃ defs, parseCommandDefs L commands = .ok defs) ∧
    ((∃ t ∈ commands, wellFormed t = false) →
      ∃ msg, parseCommandDefs L commands = .abort msg) := by
  induction commands with
  | nil => simp [parseCommandDefs]
  | cons c cs ih =>
    simp only [parseCommandDefs, List.mem_cons, forall_eq_or_imp, exists_eq_or_imp]
    cases hw : wellFormed c
    · obtain ⟨msg, hd⟩ := (deriveCommand_total L c).2 hw
      rw [hd]
      simp
    · obtain ⟨d, hd⟩ := (deriveCommand_total L c).1 hw
      rw [hd]
      simp only [bind_ok, true_and, Bool.true_eq_false, false_or]
      constructor
      · intro hall
        obtain ⟨ds, hds⟩ := ih.1 hall
        rw [hds]
        exact ⟨_, rfl⟩
      · intro hex
        obtain ⟨msg, hds⟩ := ih.2 hex
        rw [hds]
        exact ⟨_, rfl⟩

theorem derived_mem {L : StdLib} {commands : List Template} {defs : List commandDef}
    (h : List.Forall₂ (Derived L) commands defs) {d : commandDef} (hd : d ∈ defs) :
    ∃ t ∈ commands, Derived L t d := by
  induction h with
  | nil => cases hd
  | cons h1 _ ih =>
    rcases List.mem_cons.1 hd with rfl | hd
    · exact ⟨_, List.mem_cons_self _ _, h1⟩
    · obtain ⟨t, ht, hdt⟩ := ih hd
      exact ⟨t, List.mem_cons_of_mem _ ht, hdt⟩

/-! ## The lookup of the selected command -/

theorem findCommand_first {defs pre post : List commandDef} {d : commandDef} {command : String}
    (hdefs : defs = pre ++ d :: post) (hd : d.name = some command)
    (hpre : ∀ p ∈ pre, ∃ n, p.name = some n ∧ n ≠ command) :
    findCommand defs command = .ok (some d) := by
  subst hdefs
  induction pre with
  | nil => simp [findCommand, hd, deref]
  | cons p pre ih =>
    obtain ⟨n, hn, hne⟩ := hpre p (List.mem_cons_self _ _)
    simp only [List.cons_append, findCommand, hn, deref, bind_ok, if_neg hne]
    exact ih (fun q hq => hpre q (List.mem_cons_of_mem _ hq))

theorem findCommand_none {defs : List commandDef} {command : String}
    (h : ∀ p ∈ defs, ∃ n, p.name = some n ∧ n ≠ command) :
    findCommand defs command = .ok none := by
  induction defs with
  | nil => rfl
  | cons p defs ih =>
    obtain ⟨n, hn, hne⟩ := h p (List.mem_cons_self _ _)
    simp only [findCommand, hn, deref, bind_ok, if_neg hne]
    exact ih (fun q hq => h q (List.mem_cons_of_mem _ hq))

theorem findCommand_some {defs : List commandDef} {d : commandDef} {command : String}
    (h : findCommand defs command = .ok (some d)) :
    ∃ pre post, defs = pre ++ d :: post ∧ d.name = some command ∧
      ∀ p ∈ pre, p.name ≠ some command := by
  induction defs with
  | nil => simp [findCommand] at h
  | cons p defs ih =>
    simp only [findCommand] at h
    obtain ⟨n, hn, h1⟩ := bind_eq_ok h
    cases hp : p.name with
    | none => rw [hp] at hn; simp [deref] at hn
    | some n1 =>
      rw [hp] at hn
      simp only [deref, Outcome.ok.injEq] at hn
      subst hn
      by_cases hc : n1 = command
      · rw [if_pos hc] at h1
        cases h1
        exact ⟨[], defs, rfl, by rw [hp, hc], by simp⟩
      · rw [if_neg hc] at h1
        obtain ⟨pre, post, hdefs, hd, hpre⟩ := ih h1
        refine ⟨p :: pre, post, by rw [hdefs]; rfl, hd, ?_⟩
        intro q hq
        rcases List.mem_cons.1 hq with rfl | hq
        · rw [hp]; simpa using hc
        · exact hpre q hq

/-! ## The arity check and the matching -/

theorem checkArguments_ok (L : StdLib) (o : MapOrder) (d : commandDef) (n : Nat)
    (args : List argumentDef) (i : Nat) (h : i + args.length ≤ n) :
    checkArguments L o d n i args = .ok () := by
  induction args generalizing i with
  | nil => rfl
  | cons a rest ih =>
    simp only [List.length_cons] at h
    have hi : ¬ n ≤ i := by omega
    simp only [checkArguments, if_neg hi]
    exact ih (i + 1) (by omega)

/-- The arity check with too few positional tokens: the failure names the
first argument without a token, unless no token was given at all. -/
theorem checkArguments_missing (L : StdLib) (o : MapOrder) (d : commandDef) (n : Nat)
    (args : List argumentDef) (i : Nat) (hi : i ≤ n) (h : n < i + args.length) :
    ∃ arg, args[n - i]? = some arg ∧
      checkArguments L o d n i args =
        (helpCommandDetails L o d).bind fun help =>
          if n = 0 then .error help
          else .error (help ++ "\n" ++ ("[fail] missing argument <" ++ arg.name ++ ">\n")) := by
  induction args generalizing i with
  | nil => simp at h; omega
  | cons a rest ih =>
    simp only [List.length_cons] at h
    by_cases hn : n ≤ i
    · have hin : i = n := by omega
      subst hin
      refine ⟨a, by simp, ?_⟩
      simp only [checkArguments, le_refl, if_true, lt_irrefl, if_false]
      by_cases h0 : 0 < i
      · have : ¬ i = 0 := by omega
        simp [if_pos h0, if_neg this]
      · have : i = 0 := by omega
        simp [if_neg h0, if_pos this]
    · obtain ⟨arg, harg, hc⟩ := ih (i + 1) (by omega) (by omega)
      refine ⟨arg, ?_, ?_⟩
      · have : n - i = (n - (i + 1)) + 1 := by omega
        rw [this, List.getElem?_cons_succ]
        exact harg
      · simp only [checkArguments, if_neg hn]
        exact hc

theorem fillCommand_too_many {L : StdLib} {o : MapOrder} {d : commandDef} {input : userInput}
    (h : d.arguments.length < input.arguments.length) :
    fillCommand L o d input =
      (helpCommandDetails L o d).bind fun help =>
        .error (help ++ "\ntoo many arguments given\n") := by
  simp only [fillCommand, if_pos h]

theorem fillCommand_too_few {L : StdLib} {o : MapOrder} {d : commandDef} {input : userInput}
    (h : input.arguments.length < d.arguments.length) :
    ∃ arg, d.arguments[input.arguments.length]? = some arg ∧
      fillCommand L o d input =
        (helpCommandDetails L o d).bind fun help =>
          if input.arguments.length = 0 then .error help
          else .error (help ++ "\n" ++ ("[fail] missing argument <" ++ arg.name ++ ">\n")) := by
  obtain ⟨arg, harg, hc⟩ :=
    checkArguments_missing L o d input.arguments.length d.arguments 0 (Nat.zero_le _)
      (by omega)
  refine ⟨arg, by simpa using harg, ?_⟩
  have hn : ¬ d.arguments.length < input.arguments.length := by omega
  simp only [fillCommand, if_neg hn, hc]
  cases helpCommandDetails L o d with
  | abort m => rfl
  | error m => rfl
  | ok help =>
    simp only [bind_ok]
    split <;> rfl

/-- With as many positional tokens as arguments, the matching is the three
loops one after the other. -/
theorem fillCommand_equal {L : StdLib} {o : MapOrder} {d : commandDef} {input : userInput}
    (h : input.arguments.length = d.arguments.length) :
    fillCommand L o d input =
      (setArguments L input.arguments 0 d.arguments (New d.value)).bind fun inst1 =>
        (applyDefaults L (o.enum d.flags) inst1).bind fun inst2 =>
          setFlags L d.flags input.flags inst2 := by
  have hn : ¬ d.arguments.length < input.arguments.length := by omega
  simp only [fillCommand, if_neg hn,
    checkArguments_ok L o d input.arguments.length d.arguments 0 (by omega), bind_ok]

/-- The matching returns a record exactly when there are as many positional
tokens as arguments, every option of the user is declared, and every call of
`setField` succeeds. -/
theorem fillCommand_ok_iff (L : StdLib) (o : MapOrder) (d : commandDef) (input : userInput)
    (r : Instance) :
    fillCommand L o d input = .ok r ↔
      input.arguments.length = d.arguments.length ∧
      (∀ fl ∈ input.flags, ∃ fd, d.flags.get fl.name = some fd) ∧
      runCalls L (parseCalls o d input) (New d.value) = some r := by
  rcases Nat.lt_trichotomy input.arguments.length d.arguments.length with hlt | heq | hgt
  · obtain ⟨arg, _, hc⟩ := fillCommand_too_few (L := L) (o := o) hlt
    rw [hc]
    constructor
    · intro h
      obtain ⟨help, _, h2⟩ := bind_eq_ok h
      split at h2 <;> cases h2
    · rintro ⟨h, _⟩; omega
  · rw [fillCommand_equal heq]
    have hA := @setArguments_eq L input.arguments d.arguments 0 (New d.value) (by omega)
    simp only [List.drop_zero] at hA
    constructor
    · intro h
      obtain ⟨inst1, h1, h⟩ := bind_eq_ok h
      obtain ⟨inst2, h2, h3⟩ := bind_eq_ok h
      obtain ⟨hdecl, h3⟩ := (setFlags_ok_iff L d.flags input.flags inst2 r).1 h3
      refine ⟨heq, hdecl, ?_⟩
      simp only [parseCalls, runCalls_append, (hA.1 inst1).1 h1, Option.bind,
        ((applyDefaults_eq L (o.enum d.flags) inst1).1 inst2).1 h2, h3]
    · rintro ⟨_, hdecl, h⟩
      simp only [parseCalls, runCalls_append] at h
      cases h1 : runCalls L (argumentCalls d.arguments input.arguments) (New d.value) with
      | none => rw [h1] at h; cases h
      | some inst1 =>
        rw [h1] at h
        simp only [Option.bind] at h
        cases h2 : runCalls L (defaultCalls (o.enum d.flags)) inst1 with
        | none => rw [h2] at h; cases h
        | some inst2 =>
          rw [h2] at h
          simp only at h
          rw [(hA.1 inst1).2 h1, bind_ok,
            ((applyDefaults_eq L (o.enum d.flags) inst1).1 inst2).2 h2, bind_ok]
          exact (setFlags_ok_iff L d.flags input.flags inst2 r).2 ⟨hdecl, h⟩
  · rw [fillCommand_too_many hgt]
    constructor
    · intro h
      obtain ⟨help, _, h2⟩ := bind_eq_ok h
      cases h2
    · rintro ⟨h, _⟩; omega

/-! ## `Parse` step by step -/

/-- Once the schemas are derived, the arguments tokenized and the schema of
the selected command found, `Parse` is the matching. -/
theorem Parse_eq_fill {L : StdLib} {o : MapOrder} {commands : List Template}
    {args : List String} {defs : List commandDef} {input : userInput} {command : String}
    {d : commandDef} (hdefs : parseCommandDefs L commands = .ok defs)
    (hinput : parseUserInput args = .ok input) (hcmd : input.command = some command)
    (hfind : findCommand defs command = .ok (some d)) :
    Parse L o commands args = fillCommand L o d input := by
  simp only [Parse, hdefs, hinput, bind_ok, hcmd, hfind]

/-- A record is returned only along the path through the matching. -/
theorem Parse_ok {L : StdLib} {o : MapOrder} {commands : List Template} {args : List String}
    {r : Instance} (h : Parse L o commands args = .ok r) :
    ∃ defs input command d, parseCommandDefs L commands = .ok defs ∧
      parseUserInput args = .ok input ∧ input.command = some command ∧
      findCommand defs command = .ok (some d) ∧ fillCommand L o d input = .ok r := by
  simp only [Parse] at h
  obtain ⟨defs, hdefs, h⟩ := bind_eq_ok h
  obtain ⟨input, hinput, h⟩ := bind_eq_ok h
  cases hc : input.command with
  | none =>
    rw [hc] at h
    obtain ⟨_, _, h⟩ := bind_eq_ok h
    cases h
  | some command =>
    rw [hc] at h
    simp only at h
    obtain ⟨found, hfind, h⟩ := bind_eq_ok h
    cases found with
    | none =>
      simp only at h
      obtain ⟨_, _, h⟩ := bind_eq_ok h
      cases h
    | some d => exact ⟨defs, input, command, d, hdefs, hinput, hc, hfind, h⟩

/-! ## The tokenizer: where the tokens go -/

/-- What the loop of the tokenizer adds to the input collected so far: the
positional tokens are tokens of the vector in their order, none of them starts
an option, and every option name is a token without its leading `-`. -/
theorem scanArgs_ok {args : List String} {acc r : userInput} (h : scanArgs args acc = .ok r) :
    ∃ pos fls, r.arguments = acc.arguments ++ pos ∧ r.flags = acc.flags ++ fls ∧
      r.binName = acc.binName ∧ r.command = acc.command ∧ pos.Sublist args ∧
      (∀ p ∈ pos, startsOption p = false) ∧
      ∀ fl ∈ fls, ∃ a ∈ args, HasPrefix a "-" = true ∧ isHelpAlias a = false ∧
        fl.name = TrimPrefix a "-" := by
  induction args, acc using scanArgs.induct generalizing r with
  | case1 input =>
    simp only [scanArgs, Outcome.ok.injEq] at h
    subst h
    exact ⟨[], [], by simp⟩
  | case2 a input hs ha =>
    simp only [scanArgs, hs, ha, if_true, Outcome.ok.injEq] at h
    subst h
    exact ⟨[], [], by simp⟩
  | case3 a input hs ha =>
    simp [scanArgs, hs, ha] at h
  | case4 a input hs =>
    simp only [scanArgs, hs, Bool.false_eq_true, if_false, Outcome.ok.injEq] at h
    subst h
    refine ⟨[a], [], by simp, by simp, rfl, rfl, List.Sublist.refl _, ?_, by simp⟩
    intro p hp
    simp only [List.mem_singleton] at hp
    subst hp
    simpa using hs
  | case5 a v rest input hs ha ih =>
    simp only [scanArgs, hs, ha, if_true] at h
    obtain ⟨pos, fls, h1, h2, h3, h4, h5, h6, h7⟩ := ih h
    refine ⟨pos, fls, h1, h2, h3, h4, h5.cons _, h6, ?_⟩
    intro fl hfl
    obtain ⟨b, hb, hrest⟩ := h7 fl hfl
    exact ⟨b, List.mem_cons_of_mem _ hb, hrest⟩
  | case6 a v rest input hs ha ih =>
    simp only [scanArgs, hs, ha, if_true, Bool.false_eq_true, if_false] at h
    obtain ⟨pos, fls, h1, h2, h3, h4, h5, h6, h7⟩ := ih h
    simp only at h1 h2 h3 h4
    refine ⟨pos, ⟨TrimPrefix a "-", v⟩ :: fls, h1, by rw [h2]; simp, h3, h4,
      (h5.cons _).cons _, h6, ?_⟩
    intro fl hfl
    rcases List.mem_cons.1 hfl with rfl | hfl
    · refine ⟨a, List.mem_cons_self _ _, ?_, by simpa using ha, rfl⟩
      simp only [startsOption, Bool.or_eq_true, beq_iff_eq] at hs
      rcases hs with hs | hs
      · exact hs
      · subst hs
        exact absurd (by decide : isHelpAlias "help" = true) ha
    · obtain ⟨b, hb, hrest⟩ := h7 fl hfl
      exact ⟨b, List.mem_cons_of_mem _ (List.mem_cons_of_mem _ hb), hrest⟩
  | case7 a v rest input hs ih =>
    simp only [scanArgs, hs, Bool.false_eq_true, if_false] at h
    obtain ⟨pos, fls, h1, h2, h3, h4, h5, h6, h7⟩ := ih h
    simp only at h1 h2 h3 h4
    refine ⟨a :: pos, fls, by rw [h1]; simp, h2, h3, h4, h5.cons₂ _, ?_, ?_⟩
    · intro p hp
      rcases List.mem_cons.1 hp with rfl | hp
      · simpa using hs
      · exact h6 p hp
    · intro fl hfl
      obtain ⟨b, hb, hrest⟩ := h7 fl hfl
      exact ⟨b, List.mem_cons_of_mem _ hb, hrest⟩

/-- The tokenizer never panics. -/
theorem scanArgs_ne_abort (args : List String) (acc : userInput) (m : String) :
    scanArgs args acc ≠ .abort m := by
  induction args, acc using scanArgs.induct with
  | case1 input => simp [scanArgs]
  | case2 a input hs ha => simp [scanArgs, hs, ha]
  | case3 a input hs ha => simp [scanArgs, hs, ha]
  | case4 a input hs => simp [scanArgs, hs]
  | case5 a v rest input hs ha ih => simpa [scanArgs, hs, ha] using ih
  | case6 a v rest input hs ha ih => simpa [scanArgs, hs, ha] using ih
  | case7 a v rest input hs ih => simpa [scanArgs, hs] using ih

/-- The tokenized input: the positional tokens of the result follow the binary
name and the command name among the tokens that start no option. -/
theorem parseUserInput_ok {args : List String} {input : userInput}
    (h : parseUserInput args = .ok input) :
    ∃ raw, scanArgs args ⟨none, none, [], []⟩ = .ok raw ∧ input = splitCommand raw ∧
      input.flags = raw.flags ∧ raw.arguments.Sublist args ∧
      (∀ p ∈ raw.arguments, startsOption p = false) ∧
      (∀ fl ∈ input.flags, ∃ a ∈ args, HasPrefix a "-" = true ∧ isHelpAlias a = false ∧
        fl.name = TrimPrefix a "-") ∧
      (∀ c, input.command = some c →
        ∃ b, raw.arguments = b :: c :: input.arguments) ∧
      (input.command = none ↔ raw.arguments.length < 2) := by
  simp only [parseUserInput] at h
  obtain ⟨raw, hraw, h1⟩ := bind_eq_ok h
  simp only [Outcome.ok.injEq] at h1
  obtain ⟨pos, fls, h2, h3, h4, h5, h6, h7, h8⟩ := scanArgs_ok hraw
  simp only [List.nil_append] at h2 h3 h4 h5
  have hfl : input.flags = raw.flags := by
    rw [← h1]
    unfold splitCommand
    split <;> rfl
  refine ⟨raw, hraw, h1.symm, hfl, by rw [h2]; exact h6, by rw [h2]; exact h7,
    by rw [hfl, h3]; exact h8, ?_, ?_⟩
  · intro c hc
    rw [← h1] at hc ⊢
    unfold splitCommand at hc ⊢
    split at hc
    · simp [h5] at hc
    · simp [h5] at hc
    · rename_i b c1 rest hr
      simp only [Option.some.injEq] at hc
      subst hc
      exact ⟨b, by rw [hr]⟩
  · rw [← h1]
    unfold splitCommand
    split
    · rename_i hr; simp [h5, hr]
    · rename_i b hr; simp [h5, hr]
    · rename_i b c1 rest hr; simp [hr]

/-! ## Where the calls of `setField` come from -/

theorem zip_mem_index {α β : Type} {l1 : List α} {l2 : List β} {x : α} {y : β}
    (h : (x, y) ∈ List.zip l1 l2) : ∃ i : Nat, l1[i]? = some x ∧ l2[i]? = some y := by
  induction l1 generalizing l2 with
  | nil => simp at h
  | cons a l1 ih =>
    cases l2 with
    | nil => simp at h
    | cons b l2 =>
      simp only [List.zip_cons_cons, List.mem_cons, Prod.mk.injEq] at h
      rcases h with ⟨rfl, rfl⟩ | h
      · exact ⟨0, by simp, by simp⟩
      · obtain ⟨i, h1, h2⟩ := ih h
        exact ⟨i + 1, by simpa using h1, by simpa using h2⟩

theorem zip_mem_of_left {α β : Type} {l1 : List α} {l2 : List β} {x : α}
    (hlen : l1.length ≤ l2.length) (h : x ∈ l1) : ∃ y, (x, y) ∈ List.zip l1 l2 := by
  induction l1 generalizing l2 with
  | nil => cases h
  | cons a l1 ih =>
    cases l2 with
    | nil => simp at hlen
    | cons b l2 =>
      simp only [List.length_cons, Nat.add_le_add_iff_right] at hlen
      rcases List.mem_cons.1 h with rfl | h
      · exact ⟨b, by simp⟩
      · obtain ⟨y, hy⟩ := ih hlen h
        exact ⟨y, by simp [hy]⟩

theorem argumentCalls_names (L : StdLib) (fs : List Field) (tokens : List String) :
    argumentCalls (fs.map (argOf L)) tokens = List.zip (fs.map (·.name)) tokens := by
  simp only [argumentCalls, List.map_map]
  rfl

/-- A call of the first loop names an argument field. -/
theorem argumentCalls_mem {L : StdLib} {fields : List Field} {tokens : List String}
    {c : String × String}
    (hc : c ∈ argumentCalls ((fields.filter isArgument).map (argOf L)) tokens) :
    ∃ a ∈ fields, isArgument a = true ∧ c.1 = a.name := by
  rw [argumentCalls_names] at hc
  have h1 := (List.of_mem_zip (a := c.1) (b := c.2) hc).1
  obtain ⟨a, ha, hn⟩ := List.mem_map.1 h1
  obtain ⟨ha1, ha2⟩ := List.mem_filter.1 ha
  exact ⟨a, ha1, ha2, hn.symm⟩

/-- A call of the second loop names an option field and carries its default. -/
theorem defaultCalls_mem {L : StdLib} {o : MapOrder} {fields : List Field}
    {c : String × String}
    (hc : c ∈ defaultCalls (o.enum (optionMap L [] (fields.filter isOption)))) :
    ∃ g ∈ fields, isOption g = true ∧ c.1 = g.name ∧ ∃ u, Split g.tag '|' = [c.2, u] := by
  simp only [defaultCalls, List.mem_filterMap, Option.map_eq_some'] at hc
  obtain ⟨e, he, dv, hdv, hcd⟩ := hc
  have hmem := (o.perm _).mem_iff.1 he
  have hget := get_of_mem (keys_optionMap_nodup L (m := []) (by simp) _) hmem
  rcases get_optionMap_some hget with ⟨g, hg, _, hfd⟩ | hnil
  · obtain ⟨hg1, hg2⟩ := List.mem_filter.1 hg
    subst hcd
    refine ⟨g, hg1, hg2, by rw [hfd, flagOf_field], ?_⟩
    rw [hfd] at hdv
    exact (flagOf_default g dv).1 hdv
  · simp [FlagMap.get, List.lookup] at hnil

/-- A call of the third loop names an option field whose derived name the
user gave, and carries the value the user gave. -/
theorem flagCalls_mem {L : StdLib} {fields : List Field} {flags : List flag}
    {c : String × String}
    (hc : c ∈ flagCalls (optionMap L [] (fields.filter isOption)) flags) :
    ∃ fl ∈ flags, ∃ g ∈ fields, isOption g = true ∧ toKebabCase L g.name = fl.name ∧
      c = (g.name, fl.value) := by
  simp only [flagCalls, List.mem_filterMap, Option.map_eq_some'] at hc
  obtain ⟨fl, hfl, fd, hget, hcd⟩ := hc
  rcases get_optionMap_some hget with ⟨g, hg, hk, hfd⟩ | hnil
  · obtain ⟨hg1, hg2⟩ := List.mem_filter.1 hg
    refine ⟨fl, hfl, g, hg1, hg2, hk, ?_⟩
    rw [← hcd, hfd, flagOf_field]
  · simp [FlagMap.get, List.lookup] at hnil

/-- An option field has an entry under its derived name. -/
theorem get_optionMap_of_mem (L : StdLib) {opts : List Field} {f : Field} (hf : f ∈ opts) :
    ∃ g ∈ opts, toKebabCase L g.name = toKebabCase L f.name ∧
      (optionMap L [] opts).get (toKebabCase L f.name) = some (flagOf g) := by
  obtain ⟨pre, g, post, hsplit, hk, hpost⟩ :=
    exists_last_split (fun g => toKebabCase L g.name = toKebabCase L f.name) opts ⟨f, hf, rfl⟩
  refine ⟨g, by rw [hsplit]; simp, hk, ?_⟩
  rw [hsplit, ← hk]
  exact get_optionMap_last L [] pre post g (fun y hy => by rw [hk]; exact hpost y hy)

/-- A name that no option field derives has no entry. -/
theorem get_optionMap_none (L : StdLib) {opts : List Field} {k : String}
    (h : ∀ g ∈ opts, toKebabCase L g.name ≠ k) : (optionMap L [] opts).get k = none := by
  rw [get_optionMap_other L [] opts k h]
  rfl

/-! ## The record that a run of `Parse` returns -/

namespace Run

variable {L : StdLib} {o : MapOrder} {d : commandDef} {input : userInput} {r : Instance}

/-- A field named by a call is exported, and is the field of that name. -/
theorem target (run : Run L o d input r) {c : String × String} (hc : c ∈ parseCalls o d input)
    {g : Field} (hg : g ∈ d.value) (hn : g.name = c.1) :
    g.exported = true ∧ fieldByName d.value c.1 = some g := by
  obtain ⟨f, x, hf, he, _⟩ := runCalls_target run.calls hc
  rw [fieldsOf_New] at hf
  obtain ⟨hf1, hf2⟩ := fieldByName_some hf
  have : f = g := field_unique run.valid hf1 hg (by rw [hf2, hn]) he
  subst this
  exact ⟨he, hf⟩

/-- An exported field named by a call is the only field of that name. -/
theorem same_field (run : Run L o d input r) {c : String × String}
    (hc : c ∈ parseCalls o d input) {g f : Field} (hg : g ∈ d.value) (hn : g.name = c.1)
    (hf : f ∈ d.value) (hfn : f.name = c.1) : g = f :=
  field_unique run.valid hg hf (by rw [hn, hfn]) (run.target hc hg hn).1

theorem mem_calls_of_argument {c : String × String}
    (hc : c ∈ argumentCalls d.arguments input.arguments) : c ∈ parseCalls o d input := by
  simp only [parseCalls, List.mem_append]
  exact Or.inl (Or.inl hc)

theorem mem_calls_of_default {c : String × String}
    (hc : c ∈ defaultCalls (o.enum d.flags)) : c ∈ parseCalls o d input := by
  simp only [parseCalls, List.mem_append]
  exact Or.inl (Or.inr hc)

theorem mem_calls_of_flag {c : String × String}
    (hc : c ∈ flagCalls d.flags input.flags) : c ∈ parseCalls o d input := by
  simp only [parseCalls, List.mem_append]
  exact Or.inr hc

/-- No call of the second or the third loop names an argument field. -/
theorem option_call_ne (run : Run L o d input r) {c : String × String}
    (hc : c ∈ defaultCalls (o.enum d.flags) ∨ c ∈ flagCalls d.flags input.flags)
    {f : Field} (hf : f ∈ d.value) (ha : isArgument f = true) : c.1 ≠ f.name := by
  intro heq
  have hmem : c ∈ parseCalls o d input := by
    rcases hc with hc | hc
    · exact mem_calls_of_default hc
    · exact mem_calls_of_flag hc
  obtain ⟨g, hg, ho, hgn⟩ : ∃ g ∈ d.value, isOption g = true ∧ c.1 = g.name := by
    rcases hc with hc | hc
    · rw [run.flags] at hc
      obtain ⟨g, hg, ho, hn, _⟩ := defaultCalls_mem hc
      exact ⟨g, hg, ho, hn⟩
    · rw [run.flags] at hc
      obtain ⟨fl, _, g, hg, ho, _, hcd⟩ := flagCalls_mem hc
      exact ⟨g, hg, ho, by rw [hcd]⟩
  have := run.same_field hmem hg hgn.symm hf heq.symm
  subst this
  rcases role_cases g with ⟨_, h2, h3⟩ | ⟨_, h2, h3⟩ | ⟨_, h2, h3⟩ <;> simp_all

/-- No call of the first loop names an option field. -/
theorem argument_call_ne (run : Run L o d input r) {c : String × String}
    (hc : c ∈ argumentCalls d.arguments input.arguments)
    {f : Field} (hf : f ∈ d.value) (ho : isOption f = true) : c.1 ≠ f.name := by
  intro heq
  have hc1 := hc
  rw [run.arguments] at hc1
  obtain ⟨a, ha, haa, han⟩ := argumentCalls_mem hc1
  have := run.same_field (mem_calls_of_argument hc) ha han.symm hf heq.symm
  subst this
  rcases role_cases a with ⟨_, h2, h3⟩ | ⟨_, h2, h3⟩ | ⟨_, h2, h3⟩ <;> simp_all

/-- The field of a positional argument holds the conversion of its token. -/
theorem final_argument (run : Run L o d input r) {pre post : List Field} {f : Field}
    {tpre tpost : List String} {tok : String}
    (hargs : d.value.filter isArgument = pre ++ f :: post)
    (htok : input.arguments = tpre ++ tok :: tpost) (hlen : pre.length = tpre.length) :
    ∃ x, fieldValue L f.type tok = .ok x ∧ r.get f.name = some x := by
  have hfm : f ∈ d.value.filter isArgument := by rw [hargs]; simp
  obtain ⟨hf, hfa⟩ := List.mem_filter.1 hfm
  have hA : argumentCalls d.arguments input.arguments =
      List.zip (pre.map (·.name)) tpre ++
        (f.name, tok) :: List.zip (post.map (·.name)) tpost := by
    rw [run.arguments, hargs, argumentCalls_names, htok, List.map_append,
      List.zip_append (by simpa using hlen)]
    rfl
  have hcalls : parseCalls o d input =
      List.zip (pre.map (·.name)) tpre ++ (f.name, tok) ::
        (List.zip (post.map (·.name)) tpost ++ defaultCalls (o.enum d.flags) ++
          flagCalls d.flags input.flags) := by
    simp only [parseCalls, hA, List.append_assoc, List.cons_append]
  have hmem : (f.name, tok) ∈ parseCalls o d input := by rw [hcalls]; simp
  obtain ⟨hexp, hby⟩ := run.target hmem hf rfl
  have hlater : ∀ c ∈ List.zip (post.map (·.name)) tpost ++ defaultCalls (o.enum d.flags) ++
      flagCalls d.flags input.flags, c.1 ≠ f.name := by
    intro c hc
    simp only [List.mem_append] at hc
    rcases hc with (hc | hc) | hc
    · intro heq
      have h1 := (List.of_mem_zip (a := c.1) (b := c.2) hc).1
      obtain ⟨a, ha, han⟩ := List.mem_map.1 h1
      have hp : (pre ++ f :: post).Pairwise fun f g =>
          f.name = g.name → f.exported = false ∧ g.exported = false := by
        rw [← hargs]
        exact List.Pairwise.sublist (List.filter_sublist _) run.valid
      have h2 := (List.pairwise_cons.1 (List.pairwise_append.1 hp).2.1).1 a ha
      have h3 := (h2 (han.trans heq).symm).1
      rw [hexp] at h3
      cases h3
    · exact run.option_call_ne (Or.inl hc) hf hfa
    · exact run.option_call_ne (Or.inr hc) hf hfa
  have hrun := run.calls
  rw [hcalls] at hrun
  obtain ⟨f1, x, hf1, _, hx, hget⟩ := runCalls_get_last hrun hlater
  rw [fieldsOf_New, hby] at hf1
  cases hf1
  exact ⟨x, hx, hget⟩

/-- The entry of the derived name of an option field that no later option
field shadows is the definition of the field. -/
theorem get_unshadowed (run : Run L o d input r) {pre post : List Field} {f : Field}
    (hfields : d.value = pre ++ f :: post) (ho : isOption f = true)
    (hun : ∀ g ∈ post, isOption g = true → toKebabCase L g.name ≠ toKebabCase L f.name) :
    d.flags.get (toKebabCase L f.name) = some (flagOf f) := by
  rw [run.flags, hfields, List.filter_append, List.filter_cons, ho, if_pos rfl]
  exact get_optionMap_last L [] _ _ f (fun g hg => hun g (List.mem_filter.1 hg).1
    (List.mem_filter.1 hg).2)

/-- A call of the second or the third loop that names the option field `f`:
it carries the default of `f`, respectively a value given under the derived
name of `f`. -/
theorem option_call (run : Run L o d input r) {f : Field} (hf : f ∈ d.value)
    {c : String × String} (hn : c.1 = f.name) :
    (c ∈ defaultCalls (o.enum d.flags) → ∃ u, Split f.tag '|' = [c.2, u]) ∧
    (∀ flags, flags.Sublist input.flags → c ∈ flagCalls d.flags flags →
      ∃ fl ∈ flags, fl.name = toKebabCase L f.name ∧ c.2 = fl.value) := by
  constructor
  · intro hc
    have hc1 := hc
    rw [run.flags] at hc1
    obtain ⟨g, hg, _, hgn, u, hu⟩ := defaultCalls_mem hc1
    have := run.same_field (mem_calls_of_default hc) hg hgn.symm hf hn.symm
    subst this
    exact ⟨u, hu⟩
  · intro flags hsub hc
    have hc1 := hc
    rw [run.flags] at hc1
    obtain ⟨fl, hfl, g, hg, _, hk, hcd⟩ := flagCalls_mem hc1
    have hc2 : c ∈ flagCalls d.flags input.flags := by
      simp only [flagCalls] at hc ⊢
      exact (List.Sublist.filterMap _ hsub).subset hc
    have := run.same_field (mem_calls_of_flag hc2) hg (by rw [hcd]) hf hn.symm
    subst this
    exact ⟨fl, hfl, hk.symm, by rw [hcd]⟩

/-- An option that the user gave: the field holds the conversion of the last
value given under the derived name. -/
theorem final_option_supplied (run : Run L o d input r) {pre post : List Field} {f : Field}
    (hfields : d.value = pre ++ f :: post) (ho : isOption f = true)
    (hun : ∀ g ∈ post, isOption g = true → toKebabCase L g.name ≠ toKebabCase L f.name)
    {fl1 fl2 : List flag} {fl : flag} (hflags : input.flags = fl1 ++ fl :: fl2)
    (hfl : fl.name = toKebabCase L f.name)
    (hlast : ∀ y ∈ fl2, y.name ≠ toKebabCase L f.name) :
    ∃ x, fieldValue L f.type fl.value = .ok x ∧ r.get f.name = some x := by
  have hf : f ∈ d.value := by rw [hfields]; simp
  have hget := run.get_unshadowed hfields ho hun
  have hF : flagCalls d.flags input.flags =
      flagCalls d.flags fl1 ++ (f.name, fl.value) :: flagCalls d.flags fl2 := by
    simp only [flagCalls, hflags, List.filterMap_append, List.filterMap_cons, hfl, hget,
      Option.map_some', flagOf_field]
  have hcalls : parseCalls o d input =
      (argumentCalls d.arguments input.arguments ++ defaultCalls (o.enum d.flags) ++
        flagCalls d.flags fl1) ++ (f.name, fl.value) :: flagCalls d.flags fl2 := by
    simp only [parseCalls, hF, List.append_assoc]
  have hmem : (f.name, fl.value) ∈ parseCalls o d input := by rw [hcalls]; simp
  obtain ⟨_, hby⟩ := run.target hmem hf rfl
  have hlater : ∀ c ∈ flagCalls d.flags fl2, c.1 ≠ f.name := by
    intro c hc heq
    have hsub : fl2.Sublist input.flags := by
      rw [hflags]
      exact (List.sublist_cons_self fl fl2).trans (List.sublist_append_right _ _)
    obtain ⟨y, hy, hyk, _⟩ := (run.option_call hf heq).2 fl2 hsub hc
    exact hlast y hy hyk
  have hrun := run.calls
  rw [hcalls] at hrun
  obtain ⟨f1, x, hf1, _, hx, hgetr⟩ := runCalls_get_last hrun hlater
  rw [fieldsOf_New, hby] at hf1
  cases hf1
  exact ⟨x, hx, hgetr⟩

/-- An option that the user did not give and that declares a default: the
field holds the conversion of the default. -/
theorem final_option_default (run : Run L o d input r) {pre post : List Field} {f : Field}
    (hfields : d.value = pre ++ f :: post) (ho : isOption f = true)
    (hun : ∀ g ∈ post, isOption g = true → toKebabCase L g.name ≠ toKebabCase L f.name)
    (hnot : ∀ fl ∈ input.flags, fl.name ≠ toKebabCase L f.name)
    {dv u : String} (hdv : Split f.tag '|' = [dv, u]) :
    ∃ x, fieldValue L f.type dv = .ok x ∧ r.get f.name = some x := by
  have hf : f ∈ d.value := by rw [hfields]; simp
  have hget := run.get_unshadowed hfields ho hun
  have hin : (f.name, dv) ∈ defaultCalls (o.enum d.flags) := by
    simp only [defaultCalls, List.mem_filterMap, Option.map_eq_some']
    refine ⟨(toKebabCase L f.name, flagOf f), (o.perm _).mem_iff.2 (mem_of_get hget), dv,
      (flagOf_default f dv).2 ⟨u, hdv⟩, by rw [flagOf_field]⟩
  obtain ⟨D1, c, D2, hD, hc, hD2⟩ :=
    exists_last_split (fun c : String × String => c.1 = f.name) _ ⟨_, hin, rfl⟩
  have hcD : c ∈ defaultCalls (o.enum d.flags) := by rw [hD]; simp
  obtain ⟨u1, hu1⟩ := (run.option_call hf hc).1 hcD
  rw [hdv] at hu1
  simp only [List.cons.injEq, and_true] at hu1
  have hceq : c = (f.name, dv) := by
    rcases c with ⟨c1, c2⟩
    simp only at hc hu1
    rw [hc, ← hu1.1]
  subst hceq
  have hcalls : parseCalls o d input =
      (argumentCalls d.arguments input.arguments ++ D1) ++ (f.name, dv) ::
        (D2 ++ flagCalls d.flags input.flags) := by
    simp only [parseCalls, hD, List.append_assoc, List.cons_append]
  have hmem : (f.name, dv) ∈ parseCalls o d input := by rw [hcalls]; simp
  obtain ⟨_, hby⟩ := run.target hmem hf rfl
  have hlater : ∀ c ∈ D2 ++ flagCalls d.flags input.flags, c.1 ≠ f.name := by
    intro c hc
    rcases List.mem_append.1 hc with hc | hc
    · exact hD2 c hc
    · intro heq
      obtain ⟨y, hy, hyk, _⟩ := (run.option_call hf heq).2 _ (List.Sublist.refl _) hc
      exact hnot y hy hyk
  have hrun := run.calls
  rw [hcalls] at hrun
  obtain ⟨f1, x, hf1, _, hx, hgetr⟩ := runCalls_get_last hrun hlater
  rw [fieldsOf_New, hby] at hf1
  cases hf1
  exact ⟨x, hx, hgetr⟩

/-- An option that the user did not give and that declares no default: the
field stays nil. -/
theorem final_option_absent (run : Run L o d input r) {f : Field} (hf : f ∈ d.value)
    (ho : isOption f = true)
    (hnot : ∀ fl ∈ input.flags, fl.name ≠ toKebabCase L f.name)
    (hdv : ∀ dv u, Split f.tag '|' ≠ [dv, u]) :
    r.get f.name = some .nil := by
  have hnone : ∀ c ∈ parseCalls o d input, c.1 ≠ f.name := by
    intro c hc heq
    simp only [parseCalls, List.mem_append] at hc
    rcases hc with (hc | hc) | hc
    · exact run.argument_call_ne hc hf ho heq
    · obtain ⟨u, hu⟩ := (run.option_call hf heq).1 hc
      exact hdv _ _ hu
    · obtain ⟨y, hy, hyk, _⟩ := (run.option_call hf heq).2 _ (List.Sublist.refl _) hc
      exact hnot y hy hyk
  rw [runCalls_get_other run.calls hnone, get_New]
  obtain ⟨g, hg⟩ := fieldByName_of_mem hf
  rw [hg]
  obtain ⟨hg1, hg2⟩ := fieldByName_some hg
  have hptr : g.type.isPtr = true := by
    rcases role_cases g with ⟨h1, _, _⟩ | ⟨_, h2, _⟩ | ⟨_, _, h3⟩
    · exfalso
      simp only [isHeader, decide_eq_true_eq] at h1
      have : isHeader f = true := by simp [isHeader, ← hg2, h1]
      rcases role_cases f with ⟨_, q2, _⟩ | ⟨q1, _, _⟩ | ⟨q1, _, _⟩ <;> simp_all
    · simp only [isOption, Bool.and_eq_true] at h2
      exact h2.2
    · exfalso
      have hgm : g ∈ d.value.filter isArgument := List.mem_filter.2 ⟨hg1, h3⟩
      have hlen : ((d.value.filter isArgument).map (·.name)).length ≤
          input.arguments.length := by
        rw [run.arity, run.arguments]
        simp
      obtain ⟨y, hy⟩ := zip_mem_of_left hlen (List.mem_map_of_mem (·.name) hgm)
      have hc : (g.name, y) ∈ argumentCalls d.arguments input.arguments := by
        rw [run.arguments, argumentCalls_names]
        exact hy
      exact hnone _ (mem_calls_of_argument hc) hg2
  cases hgt : g.type <;> simp_all [GoType.isPtr, zeroValue]

end Run

/-! ## Annotations and segments -/

theorem splitRunes_ne_nil (sep : Char) (cs : List Char) : splitRunes sep cs ≠ [] := by
  induction cs with
  | nil => simp [splitRunes]
  | cons c cs ih =>
    simp only [splitRunes]
    split
    · simp
    · split <;> simp

/-- An annotation always has at least one segment. -/
theorem segments_pos (f : Field) : 0 < segments f := by
  simp only [segments, Split, List.length_map]
  exact List.length_pos.2 (splitRunes_ne_nil _ _)

/-- The annotation of a field has a wrong number of segments: in the words of
the specification, by the role of the field. -/
theorem fieldOk_false_iff (f : Field) :
    fieldOk f = false ↔
      (isHeader f = true ∧ segments f ≠ 2) ∨
      (isOption f = true ∧ (segments f = 0 ∨ 2 < segments f)) ∨
      (isArgument f = true ∧ segments f ≠ 1) := by
  have hpos := segments_pos f
  cases hh : isHeader f <;> cases hp : f.type.isPtr <;>
    simp only [fieldOk, isOption, isArgument, hh, hp, Bool.false_eq_true, if_false, if_true,
      Bool.not_false, Bool.not_true, Bool.and_true, Bool.and_false, Bool.and_self,
      false_and, true_and, false_or, or_false, beq_eq_false_iff_ne, ne_eq, Bool.or_eq_false_iff]
  all_goals omega

/-! ## The command overview -/

theorem foldl_longest_le (g : row → Nat) (rows : List row) (m0 : Nat) :
    m0 ≤ rows.foldl (fun m r => if m < g r then g r else m) m0 ∧
    ∀ r ∈ rows, g r ≤ rows.foldl (fun m r => if m < g r then g r else m) m0 := by
  induction rows generalizing m0 with
  | nil => simp
  | cons a rows ih =>
    simp only [List.foldl_cons, List.mem_cons, forall_eq_or_imp]
    obtain ⟨h1, h2⟩ := ih (if m0 < g a then g a else m0)
    refine ⟨?_, ?_, h2⟩
    · refine Nat.le_trans ?_ h1
      split <;> omega
    · refine Nat.le_trans ?_ h1
      split <;> omega

theorem len_key_le_longestKey {rows : List row} {r : row} (h : r ∈ rows) :
    len r.key ≤ longestKey rows :=
  (foldl_longest_le (fun r => len r.key) rows 0).2 r h

theorem flatten_replicate_space (n : Nat) :
    (List.replicate n " ".data).flatten = List.replicate n ' ' := by
  induction n with
  | zero => rfl
  | succ n ih =>
    simp only [List.replicate_succ, List.flatten_cons, ih]
    rfl

theorem Repeat_space (n : Nat) :
    Repeat " " (n : Int) = .ok ⟨List.replicate n ' '⟩ := by
  have hn : ¬ ((n : Int) < 0) := by omega
  simp only [Repeat, if_neg hn, Int.toNat_ofNat]
  rw [flatten_replicate_space]

theorem forall₂_mem_right {α β : Type} {R : α → β → Prop} {l1 : List α} {l2 : List β}
    (h : List.Forall₂ R l1 l2) {b : β} (hb : b ∈ l2) : ∃ a ∈ l1, R a b := by
  induction h with
  | nil => cases hb
  | cons h1 _ ih =>
    rcases List.mem_cons.1 hb with rfl | hb
    · exact ⟨_, List.mem_cons_self _ _, h1⟩
    · obtain ⟨a, ha, hr⟩ := ih hb
      exact ⟨a, List.mem_cons_of_mem _ ha, hr⟩

/-- A row without a type: the text of the row. -/
theorem formatRow_overview (L : StdLib) (lk lv ld : Nat) (r : row) (hd : r.datatype = none)
    (hk : len r.key ≤ lk) :
    formatRow L lk lv ld r = .ok (overviewLine lk lv r.key r.value) := by
  have hint : (4 + (lk : Int) - (len r.key : Int)) = ((4 + lk - len r.key : Nat) : Int) := by
    omega
  simp only [formatRow, hint, Repeat_space, bind_ok, hd, overviewLine]

theorem formatRows_overview (L : StdLib) (lk lv ld : Nat) (rows : List row)
    (h : ∀ r ∈ rows, r.datatype = none ∧ len r.key ≤ lk) :
    formatRows L lk lv ld rows =
      .ok (joinLines (rows.map fun r => overviewLine lk lv r.key r.value)) := by
  induction rows with
  | nil => rfl
  | cons r rows ih =>
    simp only [formatRows, formatRow_overview L lk lv ld r (h r (List.mem_cons_self _ _)).1
      (h r (List.mem_cons_self _ _)).2, bind_ok,
      ih (fun q hq => h q (List.mem_cons_of_mem _ hq)), List.map_cons, joinLines]

theorem overviewRows_ok {L : StdLib} {commands : List Template} {defs : List commandDef}
    (h : List.Forall₂ (Derived L) commands defs) :
    ∃ rows, overviewRows defs = .ok rows ∧
      List.Forall₂ (fun t r => ∃ fields f, t = Template.struct fields ∧ f ∈ fields ∧
        isHeader f = true ∧ Split f.tag '|' = [r.key, r.value] ∧ r.datatype = none ∧
        r.defaultValue = none) commands rows := by
  induction h with
  | nil => exact ⟨[], rfl, List.Forall₂.nil⟩
  | cons h1 _ ih =>
    obtain ⟨rows, hrows, hrel⟩ := ih
    obtain ⟨f, hf, hh, n, u, hsp, hn, hu⟩ := h1.header
    refine ⟨⟨n, u, none, none⟩ :: rows, ?_, List.Forall₂.cons ?_ hrel⟩
    · simp only [overviewRows, hn, hu, deref, bind_ok, hrows]
    · exact ⟨_, f, h1.struct, hf, hh, hsp, rfl, rfl⟩

/-- The command overview of derived schemas: it is always rendered, one row
per template in the order of the templates. -/
theorem helpOverview_ok {L : StdLib} {commands : List Template} {defs : List commandDef}
    (h : List.Forall₂ (Derived L) commands defs) :
    ∃ rows, List.Forall₂ (fun t r => ∃ fields f, t = Template.struct fields ∧ f ∈ fields ∧
        isHeader f = true ∧ Split f.tag '|' = [r.key, r.value] ∧ r.datatype = none ∧
        r.defaultValue = none) commands rows ∧
      helpOverview L defs = .ok ("\n" ++ (joinLines (rows.map fun r =>
        overviewLine (longestKey rows) (longestValue rows) r.key r.value) ++ "\n")) := by
  obtain ⟨rows, hrows, hrel⟩ := overviewRows_ok h
  refine ⟨rows, hrel, ?_⟩
  have hnone : ∀ r ∈ rows, r.datatype = none ∧ len r.key ≤ longestKey rows := by
    intro r hr
    refine ⟨?_, len_key_le_longestKey hr⟩
    obtain ⟨t, _, _, _, _, _, _, _, hd, _⟩ := forall₂_mem_right hrel hr
    exact hd
  simp only [helpOverview, hrows, bind_ok, formatTable,
    formatRows_overview L _ _ _ rows hnone]

/-! ## Schemas of a list of templates -/

theorem parseCommandDefs_append (L : StdLib) (a b : List Template) :
    parseCommandDefs L (a ++ b) =
      (parseCommandDefs L a).bind fun da =>
        (parseCommandDefs L b).bind fun db => .ok (da ++ db) := by
  induction a with
  | nil =>
    simp only [List.nil_append, parseCommandDefs, bind_ok]
    cases parseCommandDefs L b <;> rfl
  | cons c cs ih =>
    have hc : parseCommandDefs L (c :: (cs ++ b)) =
        (deriveCommand L c).bind fun cmd =>
          (parseCommandDefs L (cs ++ b)).bind fun cmds => .ok (cmd :: cmds) := rfl
    rw [List.cons_append, hc, ih]
    simp only [parseCommandDefs]
    cases deriveCommand L c with
    | abort m => rfl
    | error m => rfl
    | ok d =>
      simp only [bind_ok]
      cases parseCommandDefs L cs with
      | abort m => rfl
      | error m => rfl
      | ok ds =>
        simp only [bind_ok]
        cases parseCommandDefs L b <;> rfl

theorem parseCommandDefs_mem {L : StdLib} {commands : List Template} {defs : List commandDef}
    (h : parseCommandDefs L commands = .ok defs) {d : commandDef} (hd : d ∈ defs) :
    ∃ t ∈ commands, deriveCommand L t = .ok d := by
  induction commands generalizing defs with
  | nil =>
    simp only [parseCommandDefs, Outcome.ok.injEq] at h
    subst h
    cases hd
  | cons c cs ih =>
    simp only [parseCommandDefs] at h
    obtain ⟨d1, hd1, h1⟩ := bind_eq_ok h
    obtain ⟨ds, hds, h2⟩ := bind_eq_ok h1
    cases h2
    rcases List.mem_cons.1 hd with rfl | hd
    · exact ⟨c, List.mem_cons_self _ _, hd1⟩
    · obtain ⟨t, ht, hdt⟩ := ih hds hd
      exact ⟨t, List.mem_cons_of_mem _ ht, hdt⟩

/-- The schemas of a list of templates around one of its templates. -/
theorem parseCommandDefs_split {L : StdLib} {tpre tpost : List Template} {t : Template}
    {defs : List commandDef} (h : parseCommandDefs L (tpre ++ t :: tpost) = .ok defs) :
    ∃ dpre d dpost, defs = dpre ++ d :: dpost ∧ parseCommandDefs L tpre = .ok dpre ∧
      deriveCommand L t = .ok d := by
  rw [parseCommandDefs_append] at h
  obtain ⟨dpre, hpre, h1⟩ := bind_eq_ok h
  obtain ⟨db, hb, h2⟩ := bind_eq_ok h1
  simp only [parseCommandDefs] at hb
  obtain ⟨d, hd, h3⟩ := bind_eq_ok hb
  obtain ⟨dpost, _, h4⟩ := bind_eq_ok h3
  cases h4
  cases h2
  exact ⟨dpre, d, dpost, rfl, hpre, hd⟩

/-! ## Successful runs of `Parse` -/

theorem getElem?_split {α : Type} {l : List α} {i : Nat} {x : α} (h : l[i]? = some x) :
    ∃ pre post, l = pre ++ x :: post ∧ pre.length = i := by
  induction l generalizing i with
  | nil => simp at h
  | cons a l ih =>
    cases i with
    | zero =>
      simp only [List.getElem?_cons_zero, Option.some.injEq] at h
      subst h
      exact ⟨[], l, rfl, rfl⟩
    | succ i =>
      simp only [List.getElem?_cons_succ] at h
      obtain ⟨pre, post, hl, hlen⟩ := ih h
      exact ⟨a :: pre, post, by rw [hl]; rfl, by simp [hlen]⟩

theorem fieldValue_of_argument (L : StdLib) {f : Field} (ha : isArgument f = true)
    (text : String) : fieldValue L f.type text = convert L f.type text := by
  have hp : f.type.isPtr = false := by
    simp only [isArgument, Bool.and_eq_true, Bool.not_eq_true'] at ha
    exact ha.2
  unfold fieldValue
  split
  · rename_i n elem heq
    rw [heq] at hp
    cases hp
  · rfl

theorem option_type {f : Field} (ho : isOption f = true) : ∃ n elem, f.type = .ptr n elem := by
  simp only [isOption, Bool.and_eq_true] at ho
  cases ht : f.type <;> simp_all [GoType.isPtr]

theorem fieldValue_ptr {L : StdLib} {n : String} {elem : GoType} {text : String} {x : Value}
    (h : fieldValue L (.ptr n elem) text = .ok x) :
    ∃ v, convert L elem text = .ok v ∧ x = .ref v := by
  simp only [fieldValue] at h
  obtain ⟨v, hv, hx⟩ := bind_eq_ok h
  cases hx
  exact ⟨v, hv, rfl⟩

/-- A returned record comes from a run of the matching on the schema of a
template of the list whose header carries the selected name. -/
theorem Parse_run {L : StdLib} {o : MapOrder} {commands : List Template} {args : List String}
    {r : Instance} (hvalid : ∀ fields, Template.struct fields ∈ commands → validStruct fields)
    (h : Parse L o commands args = .ok r) :
    ∃ input command d, Template.struct d.value ∈ commands ∧
      (∃ hd ∈ d.value, isHeader hd = true ∧ ∃ u, Split hd.tag '|' = [command, u]) ∧
      parseUserInput args = .ok input ∧ input.command = some command ∧
      Run L o d input r := by
  obtain ⟨defs, input, command, d, hdefs, hinput, hcmd, hfind, hfill⟩ := Parse_ok h
  obtain ⟨pre, post, hsplit, hname, _⟩ := findCommand_some hfind
  obtain ⟨t, ht, hd⟩ := derived_mem (parseCommandDefs_ok hdefs)
    (show d ∈ defs by rw [hsplit]; simp)
  have hts := hd.struct
  subst hts
  obtain ⟨harity, _, hcalls⟩ := (fillCommand_ok_iff L o d input r).1 hfill
  refine ⟨input, command, d, ht, ?_, hinput, hcmd,
    ⟨hvalid _ ht, hd.arguments, hd.flags, harity, hcalls⟩⟩
  obtain ⟨f, hf, hh, n, u, hsp, hn, _⟩ := hd.header
  rw [hname] at hn
  cases hn
  exact ⟨f, hf, hh, u, hsp⟩

namespace Run

variable {L : StdLib} {o : MapOrder} {d : commandDef} {input : userInput} {r : Instance}

theorem fields (run : Run L o d input r) : fieldsOf r = d.value := by
  rw [runCalls_fields run.calls, fieldsOf_New]

theorem arity_fields (run : Run L o d input r) :
    input.arguments.length = (d.value.filter isArgument).length := by
  rw [run.arity, run.arguments, List.length_map]

/-- The i-th argument field holds the conversion of the i-th positional token;
a string field holds the token itself. -/
theorem argument_holds (run : Run L o d input r) {i : Nat} {f : Field} {tok : String}
    (hf : (d.value.filter isArgument)[i]? = some f) (htok : input.arguments[i]? = some tok) :
    (∃ x, convert L f.type tok = .ok x ∧ r.get f.name = some x) ∧
    (∀ n, f.type = GoType.string n → r.get f.name = some (Value.str tok)) := by
  obtain ⟨pre, post, hargs, hlen⟩ := getElem?_split hf
  obtain ⟨tpre, tpost, htoks, htlen⟩ := getElem?_split htok
  obtain ⟨x, hx, hget⟩ := run.final_argument hargs htoks (by rw [hlen, htlen])
  have hfa : isArgument f = true :=
    (List.mem_filter.1 (show f ∈ d.value.filter isArgument by rw [hargs]; simp)).2
  rw [fieldValue_of_argument L hfa] at hx
  refine ⟨⟨x, hx, hget⟩, ?_⟩
  intro n hn
  rw [hn] at hx
  simp only [convert, Outcome.ok.injEq] at hx
  rw [hget, ← hx]

/-- An option field that no later option field shadows: it holds the
conversion of the last value the user gave, else of its default, else nil. -/
theorem option_holds (run : Run L o d input r) {pre post : List Field} {f : Field}
    (hfields : d.value = pre ++ f :: post) (ho : isOption f = true)
    (hun : ∀ g ∈ post, isOption g = true → toKebabCase L g.name ≠ toKebabCase L f.name) :
    ∃ n elem, f.type = GoType.ptr n elem ∧
      (∀ fl1 fl fl2, input.flags = fl1 ++ fl :: fl2 → fl.name = toKebabCase L f.name →
        (∀ y ∈ fl2, y.name ≠ toKebabCase L f.name) →
        ∃ v, convert L elem fl.value = .ok v ∧ r.get f.name = some (Value.ref v)) ∧
      ((∀ fl ∈ input.flags, fl.name ≠ toKebabCase L f.name) →
        ∀ dv u, Split f.tag '|' = [dv, u] →
        ∃ v, convert L elem dv = .ok v ∧ r.get f.name = some (Value.ref v)) ∧
      ((∀ fl ∈ input.flags, fl.name ≠ toKebabCase L f.name) →
        (∀ dv u, Split f.tag '|' ≠ [dv, u]) → r.get f.name = some Value.nil) := by
  obtain ⟨n, elem, ht⟩ := option_type ho
  refine ⟨n, elem, ht, ?_, ?_, ?_⟩
  · intro fl1 fl fl2 hflags hfl hlast
    obtain ⟨x, hx, hget⟩ := run.final_option_supplied hfields ho hun hflags hfl hlast
    rw [ht] at hx
    obtain ⟨v, hv, rfl⟩ := fieldValue_ptr hx
    exact ⟨v, hv, hget⟩
  · intro hnot dv u hdv
    obtain ⟨x, hx, hget⟩ := run.final_option_default hfields ho hun hnot hdv
    rw [ht] at hx
    obtain ⟨v, hv, rfl⟩ := fieldValue_ptr hx
    exact ⟨v, hv, hget⟩
  · intro hnot hdv
    exact run.final_option_absent (by rw [hfields]; simp) ho hnot hdv

end Run

/-- The first two loops succeed when every positional token can be stored in
its argument field and every declared default in its option field: the
matching is then the loop over the options of the user. -/
theorem fillCommand_to_flags {L : StdLib} {o : MapOrder} {d : commandDef} {input : userInput}
    (harguments : d.arguments = (d.value.filter isArgument).map (argOf L))
    (hflagmap : d.flags = optionMap L [] (d.value.filter isOption))
    (harity : input.arguments.length = (d.value.filter isArgument).length)
    (hargs : ∀ (i : Nat) (f : Field) (tok : String),
      (d.value.filter isArgument)[i]? = some f → input.arguments[i]? = some tok →
      canSet L d.value f.name tok)
    (hdefaults : ∀ f ∈ d.value, isOption f = true → ∀ dv u, Split f.tag '|' = [dv, u] →
      canSet L d.value f.name dv) :
    ∃ inst2, fieldsOf inst2 = d.value ∧
      runCalls L (argumentCalls d.arguments input.arguments ++ defaultCalls (o.enum d.flags))
        (New d.value) = some inst2 ∧
      fillCommand L o d input = setFlags L d.flags input.flags inst2 := by
  have hlen : input.arguments.length = d.arguments.length := by
    rw [harity, harguments, List.length_map]
  have hA : ∀ c ∈ argumentCalls d.arguments input.arguments,
      canSet L (fieldsOf (New d.value)) c.1 c.2 := by
    intro c hc
    rw [fieldsOf_New]
    rw [harguments, argumentCalls_names] at hc
    obtain ⟨i, h1, h2⟩ := zip_mem_index (x := c.1) (y := c.2) hc
    rw [List.getElem?_map] at h1
    cases hf : (d.value.filter isArgument)[i]? with
    | none => rw [hf] at h1; cases h1
    | some f =>
      rw [hf] at h1
      simp only [Option.map_some', Option.some.injEq] at h1
      rw [← h1]
      exact hargs i f c.2 hf h2
  obtain ⟨inst1, h1⟩ := runCalls_isSome hA
  have hf1 : fieldsOf inst1 = d.value := by rw [runCalls_fields h1, fieldsOf_New]
  have hD : ∀ c ∈ defaultCalls (o.enum d.flags), canSet L (fieldsOf inst1) c.1 c.2 := by
    intro c hc
    rw [hf1]
    rw [hflagmap] at hc
    obtain ⟨g, hg, ho, hn, u, hu⟩ := defaultCalls_mem hc
    rw [hn]
    exact hdefaults g hg ho c.2 u hu
  obtain ⟨inst2, h2⟩ := runCalls_isSome hD
  refine ⟨inst2, by rw [runCalls_fields h2, hf1], ?_, ?_⟩
  · rw [runCalls_append, h1]
    exact h2
  · have hsa := (@setArguments_eq L input.arguments d.arguments 0 (New d.value)
      (by omega)).1 inst1
    simp only [List.drop_zero] at hsa
    rw [fillCommand_equal hlen, hsa.2 h1, bind_ok,
      ((applyDefaults_eq L (o.enum d.flags) inst1).1 inst2).2 h2, bind_ok]

/-- The loop over the options of the user succeeds on options that are
declared and whose values can be stored. -/
theorem setFlags_succeeds {L : StdLib} {d : commandDef} {flags : List flag} {inst : Instance}
    (hflagmap : d.flags = optionMap L [] (d.value.filter isOption))
    (hfields : fieldsOf inst = d.value)
    (hdecl : ∀ fl ∈ flags, ∃ f ∈ d.value, isOption f = true ∧ toKebabCase L f.name = fl.name)
    (hset : ∀ fl ∈ flags, ∀ f ∈ d.value, isOption f = true →
      toKebabCase L f.name = fl.name → canSet L d.value f.name fl.value) :
    ∃ r, setFlags L d.flags flags inst = .ok r ∧
      runCalls L (flagCalls d.flags flags) inst = some r := by
  have hF : ∀ c ∈ flagCalls d.flags flags, canSet L (fieldsOf inst) c.1 c.2 := by
    intro c hc
    rw [hfields]
    rw [hflagmap] at hc
    obtain ⟨fl, hfl, g, hg, ho, hk, hcd⟩ := flagCalls_mem hc
    rw [hcd]
    exact hset fl hfl g hg ho hk
  obtain ⟨r, hr⟩ := runCalls_isSome hF
  refine ⟨r, (setFlags_ok_iff L d.flags flags inst r).2 ⟨?_, hr⟩, hr⟩
  intro fl hfl
  obtain ⟨f, hf, ho, hk⟩ := hdecl fl hfl
  obtain ⟨g, _, _, hget⟩ := get_optionMap_of_mem L (List.mem_filter.2 ⟨hf, ho⟩)
  rw [hflagmap, ← hk]
  exact ⟨_, hget⟩

/-- What `Parse` does on the first template that carries the selected name: the
matching against its schema. -/
theorem Parse_selected {L : StdLib} {o : MapOrder} {commands tpre tpost : List Template}
    {args : List String} {input : userInput} {command : String} {t : Template}
    {d : commandDef} (hwf : ∀ t ∈ commands, wellFormed t = true)
    (hinput : parseUserInput args = .ok input) (hcmd : input.command = some command)
    (hcommands : commands = tpre ++ t :: tpost) (hd : deriveCommand L t = .ok d)
    (hname : d.name = some command)
    (hfirst : ∀ q ∈ tpre, ∀ dq, deriveCommand L q = .ok dq → dq.name ≠ some command) :
    Parse L o commands args = fillCommand L o d input := by
  obtain ⟨defs, hdefs⟩ := (parseCommandDefs_total L commands).1 hwf
  subst hcommands
  obtain ⟨dpre, d1, dpost, hdefs1, hdpre, hd1⟩ := parseCommandDefs_split hdefs
  rw [hd] at hd1
  cases hd1
  have hfind : findCommand defs command = .ok (some d) := by
    apply findCommand_first hdefs1 hname
    intro p hp
    obtain ⟨q, hq, hdq⟩ := parseCommandDefs_mem hdpre hp
    obtain ⟨_, _, _, n, _, _, hn, _⟩ := (deriveCommand_ok hdq).header
    refine ⟨n, hn, ?_⟩
    intro hc
    exact hfirst q hq p hdq (by rw [hn, hc])
  exact Parse_eq_fill hdefs hinput hcmd hfind

/-! ## Checks on concrete inputs -/

theorem canSet_of_isOk {L : StdLib} {fields : List Field} {name text : String}
    (h : (setField L (New fields) name text).isOk = true) : canSet L fields name text := by
  unfold canSet
  cases hs : setField L (New fields) name text with
  | abort m => rw [hs] at h; cases h
  | error m => rw [hs] at h; cases h
  | ok inst => exact ⟨inst, rfl⟩

/-- A condition on the pairs of a zip holds at every index. -/
theorem index_of_zip {α β : Type} {l1 : List α} {l2 : List β} {Q : α → β → Prop}
    (h : ∀ p ∈ List.zip l1 l2, Q p.1 p.2) (i : Nat) (a : α) (b : β)
    (ha : l1[i]? = some a) (hb : l2[i]? = some b) : Q a b := by
  induction l1 generalizing l2 i with
  | nil => simp at ha
  | cons x l1 ih =>
    cases l2 with
    | nil => simp at hb
    | cons y l2 =>
      cases i with
      | zero =>
        simp only [List.getElem?_cons_zero, Option.some.injEq] at ha hb
        subst ha hb
        exact h (x, y) (by simp)
      | succ i =>
        simp only [List.getElem?_cons_succ] at ha hb
        exact ih (fun p hp => h p (by simp [hp])) i ha hb

/-- The declared defaults are storable when each annotation of two segments
passes the check. -/
theorem defaults_of_check {L : StdLib} {fields : List Field}
    (h : ∀ f ∈ fields, isOption f = true →
      (setField L (New fields) f.name ((Split f.tag '|').headD "")).isOk = true ∨
        (Split f.tag '|').length ≠ 2) :
    ∀ f ∈ fields, isOption f = true → ∀ dv u, Split f.tag '|' = [dv, u] →
      canSet L fields f.name dv := by
  intro f hf ho dv u hsp
  rcases h f hf ho with hok | hlen
  · rw [hsp] at hok
    exact canSet_of_isOk hok
  · rw [hsp] at hlen
    exact absurd rfl hlen

/-! ## The messages of the failures -/

theorem scanArgs_error {args : List String} {acc : userInput} {msg : String}
    (h : scanArgs args acc = .error msg) :
    ∃ a ∈ args, msg = "missing value for flag \"" ++ TrimPrefix a "-" ++ "\"" := by
  induction args, acc using scanArgs.induct with
  | case1 input => simp [scanArgs] at h
  | case2 a input hs ha => simp [scanArgs, hs, ha] at h
  | case3 a input hs ha =>
    simp only [scanArgs, hs, ha, if_true, Bool.false_eq_true, if_false,
      Outcome.error.injEq] at h
    exact ⟨a, List.mem_singleton_self a, h.symm⟩
  | case4 a input hs => simp [scanArgs, hs] at h
  | case5 a v rest input hs ha ih =>
    simp only [scanArgs, hs, ha, if_true] at h
    obtain ⟨b, hb, hm⟩ := ih h
    exact ⟨b, List.mem_cons_of_mem _ hb, hm⟩
  | case6 a v rest input hs ha ih =>
    simp only [scanArgs, hs, ha, if_true, Bool.false_eq_true, if_false] at h
    obtain ⟨b, hb, hm⟩ := ih h
    exact ⟨b, List.mem_cons_of_mem _ (List.mem_cons_of_mem _ hb), hm⟩
  | case7 a v rest input hs ih =>
    simp only [scanArgs, hs, Bool.false_eq_true, if_false] at h
    obtain ⟨b, hb, hm⟩ := ih h
    exact ⟨b, List.mem_cons_of_mem _ hb, hm⟩

theorem parseUserInput_error {args : List String} {msg : String}
    (h : parseUserInput args = .error msg) :
    ∃ a ∈ args, msg = "missing value for flag \"" ++ TrimPrefix a "-" ++ "\"" := by
  simp only [parseUserInput] at h
  cases hs : scanArgs args ⟨none, none, [], []⟩ with
  | abort m => rw [hs] at h; cases h
  | error m =>
    rw [hs] at h
    simp only [bind_error, Outcome.error.injEq] at h
    subst h
    exact scanArgs_error hs
  | ok raw => rw [hs] at h; cases h

theorem setArguments_error {L : StdLib} {tokens : List String} {args : List argumentDef}
    {i : Nat} {inst : Instance} {msg : String}
    (h : setArguments L tokens i args inst = .error msg) :
    ∃ a ∈ args, ∃ tok ∈ tokens,
      msg = "unable to set argument field \"" ++ a.field ++ "\" to \"" ++ tok ++ "\"" := by
  induction args generalizing i inst with
  | nil => simp [setArguments] at h
  | cons a rest ih =>
    simp only [setArguments] at h
    cases ht : tokens[i]? with
    | none => rw [ht] at h; cases h
    | some tok =>
      rw [ht] at h
      simp only at h
      cases hs : setField L inst a.field tok with
      | abort m => rw [hs] at h; cases h
      | error m =>
        rw [hs] at h
        simp only [Outcome.error.injEq] at h
        exact ⟨a, List.mem_cons_self _ _, tok, List.getElem?_mem ht, h.symm⟩
      | ok inst1 =>
        rw [hs] at h
        obtain ⟨b, hb, hrest⟩ := ih h
        exact ⟨b, List.mem_cons_of_mem _ hb, hrest⟩

theorem applyDefaults_error {L : StdLib} {entries : FlagMap} {inst : Instance} {msg : String}
    (h : applyDefaults L entries inst = .error msg) :
    ∃ e ∈ entries, ∃ dv, e.2.defaultValue = some dv ∧
      msg = "unable to set default flag field \"" ++ e.2.field ++ "\" to \"" ++ dv ++ "\"" := by
  induction entries generalizing inst with
  | nil => simp [applyDefaults] at h
  | cons e rest ih =>
    simp only [applyDefaults] at h
    cases hd : e.2.defaultValue with
    | none =>
      rw [hd] at h
      obtain ⟨b, hb, hrest⟩ := ih h
      exact ⟨b, List.mem_cons_of_mem _ hb, hrest⟩
    | some dv =>
      rw [hd] at h
      simp only at h
      cases hs : setField L inst e.2.field dv with
      | abort m => rw [hs] at h; cases h
      | error m =>
        rw [hs] at h
        simp only [Outcome.error.injEq] at h
        exact ⟨e, List.mem_cons_self _ _, dv, hd, h.symm⟩
      | ok inst1 =>
        rw [hs] at h
        obtain ⟨b, hb, hrest⟩ := ih h
        exact ⟨b, List.mem_cons_of_mem _ hb, hrest⟩

theorem setFlags_error {L : StdLib} {m : FlagMap} {flags : List flag} {inst : Instance}
    {msg : String} (h : setFlags L m flags inst = .error msg) :
    ∃ fl ∈ flags, (m.get fl.name = none ∧ msg = "unrecognized flag \"" ++ fl.name ++ "\"") ∨
      ∃ fd, m.get fl.name = some fd ∧
        msg = "unable to set flag field \"" ++ fd.field ++ "\" to \"" ++ fl.value ++ "\"" := by
  induction flags generalizing inst with
  | nil => simp [setFlags] at h
  | cons fl rest ih =>
    simp only [setFlags] at h
    cases hg : m.get fl.name with
    | none =>
      rw [hg] at h
      simp only [Outcome.error.injEq] at h
      exact ⟨fl, List.mem_cons_self _ _, Or.inl ⟨hg, h.symm⟩⟩
    | some fd =>
      rw [hg] at h
      simp only at h
      cases hs : setField L inst fd.field fl.value with
      | abort m1 => rw [hs] at h; cases h
      | error m1 =>
        rw [hs] at h
        simp only [Outcome.error.injEq] at h
        exact ⟨fl, List.mem_cons_self _ _, Or.inr ⟨fd, hg, h.symm⟩⟩
      | ok inst1 =>
        rw [hs] at h
        obtain ⟨b, hb, hrest⟩ := ih h
        exact ⟨b, List.mem_cons_of_mem _ hb, hrest⟩

theorem bind_eq_error {α β : Type} {x : Outcome α} {f : α → Outcome β} {msg : String}
    (h : x.bind f = .error msg) : x = .error msg ∨ ∃ a, x = .ok a ∧ f a = .error msg := by
  cases x with
  | abort m => simp at h
  | error m => left; simpa using h
  | ok a => exact Or.inr ⟨a, rfl, h⟩

theorem parseCommandDefs_ne_error (L : StdLib) (commands : List Template) (msg : String) :
    parseCommandDefs L commands ≠ .error msg := by
  intro h
  by_cases hex : ∃ t ∈ commands, wellFormed t = false
  · obtain ⟨m, hm⟩ := (parseCommandDefs_total L commands).2 hex
    rw [hm] at h
    cases h
  · have hall : ∀ t ∈ commands, wellFormed t = true := by
      intro t ht
      cases hw : wellFormed t
      · exact absurd ⟨t, ht, hw⟩ hex
      · rfl
    obtain ⟨defs, hdefs⟩ := (parseCommandDefs_total L commands).1 hall
    rw [hdefs] at h
    cases h

theorem Repeat_ne_error (t : String) (n : Int) (msg : String) : Repeat t n ≠ .error msg := by
  unfold Repeat
  split <;> simp

theorem formatRow_ne_error (L : StdLib) (lk lv ld : Nat) (r : row) (msg : String) :
    formatRow L lk lv ld r ≠ .error msg := by
  intro h
  simp only [formatRow] at h
  rcases bind_eq_error h with h1 | ⟨tabs, _, h2⟩
  · exact Repeat_ne_error _ _ _ h1
  · cases hd : r.datatype with
    | none => rw [hd] at h2; cases h2
    | some dt =>
      rw [hd] at h2
      simp only at h2
      rcases bind_eq_error h2 with h3 | ⟨pad, _, h4⟩
      · exact Repeat_ne_error _ _ _ h3
      · cases hv : r.defaultValue <;> rw [hv] at h4 <;> cases h4

theorem formatRows_ne_error (L : StdLib) (lk lv ld : Nat) (rows : List row) (msg : String) :
    formatRows L lk lv ld rows ≠ .error msg := by
  induction rows with
  | nil => simp [formatRows]
  | cons r rows ih =>
    intro h
    simp only [formatRows] at h
    rcases bind_eq_error h with h1 | ⟨line, _, h2⟩
    · exact formatRow_ne_error L lk lv ld r msg h1
    · rcases bind_eq_error h2 with h3 | ⟨lines, _, h4⟩
      · exact ih h3
      · cases h4

/-- The help renderer returns a text or panics; it returns no error. -/
theorem formatTable_ne_error (L : StdLib) (rows : List row) (msg : String) :
    formatTable L rows ≠ .error msg := by
  intro h
  simp only [formatTable] at h
  rcases bind_eq_error h with h1 | ⟨lines, _, h2⟩
  · exact formatRows_ne_error L _ _ _ rows msg h1
  · cases h2

theorem deref_ne_error (p : Option String) (msg : String) : deref p ≠ .error msg := by
  cases p <;> simp [deref]

theorem helpCommandDetails_ne_error (L : StdLib) (o : MapOrder) (d : commandDef)
    (msg : String) : helpCommandDetails L o d ≠ .error msg := by
  intro h
  simp only [helpCommandDetails] at h
  rcases bind_eq_error h with h1 | ⟨name, _, h2⟩
  · exact deref_ne_error _ _ h1
  · rcases bind_eq_error h2 with h3 | ⟨table, _, h4⟩
    · exact formatTable_ne_error L _ msg h3
    · cases h4

theorem overviewRows_ne_error (defs : List commandDef) (msg : String) :
    overviewRows defs ≠ .error msg := by
  induction defs with
  | nil => simp [overviewRows]
  | cons d ds ih =>
    intro h
    simp only [overviewRows] at h
    rcases bind_eq_error h with h1 | ⟨name, _, h2⟩
    · exact deref_ne_error _ _ h1
    · rcases bind_eq_error h2 with h3 | ⟨usage, _, h4⟩
      · exact deref_ne_error _ _ h3
      · rcases bind_eq_error h4 with h5 | ⟨rows, _, h6⟩
        · exact ih h5
        · cases h6

theorem helpOverview_ne_error (L : StdLib) (defs : List commandDef) (msg : String) :
    helpOverview L defs ≠ .error msg := by
  intro h
  simp only [helpOverview] at h
  rcases bind_eq_error h with h1 | ⟨rows, _, h2⟩
  · exact overviewRows_ne_error defs msg h1
  · rcases bind_eq_error h2 with h3 | ⟨table, _, h4⟩
    · exact formatTable_ne_error L _ msg h3
    · cases h4

/-- The failures of the matching, by their cause. -/
theorem fillCommand_error {L : StdLib} {o : MapOrder} {d : commandDef} {input : userInput}
    {msg : String} (h : fillCommand L o d input = .error msg) :
    (d.arguments.length < input.arguments.length ∧
      ∃ details, helpCommandDetails L o d = .ok details ∧
        msg = details ++ "\ntoo many arguments given\n") ∨
    (input.arguments.length < d.arguments.length ∧
      ∃ details, helpCommandDetails L o d = .ok details ∧
        ((input.arguments.length = 0 ∧ msg = details) ∨
          (0 < input.arguments.length ∧ ∃ arg,
            d.arguments[input.arguments.length]? = some arg ∧
            msg = details ++ "\n" ++ ("[fail] missing argument <" ++ arg.name ++ ">\n")))) ∨
    (input.arguments.length = d.arguments.length ∧
      ((∃ a ∈ d.arguments, ∃ tok ∈ input.arguments,
          msg = "unable to set argument field \"" ++ a.field ++ "\" to \"" ++ tok ++ "\"") ∨
       (∃ e ∈ d.flags, ∃ dv, e.2.defaultValue = some dv ∧
          msg = "unable to set default flag field \"" ++ e.2.field ++ "\" to \"" ++ dv ++
            "\"") ∨
       (∃ fl ∈ input.flags,
          (d.flags.get fl.name = none ∧ msg = "unrecognized flag \"" ++ fl.name ++ "\"") ∨
          ∃ fd, d.flags.get fl.name = some fd ∧
            msg = "unable to set flag field \"" ++ fd.field ++ "\" to \"" ++ fl.value ++
              "\""))) := by
  rcases Nat.lt_trichotomy input.arguments.length d.arguments.length with hlt | heq | hgt
  · right; left
    obtain ⟨arg, harg, hc⟩ := fillCommand_too_few (L := L) (o := o) hlt
    rw [hc] at h
    rcases bind_eq_error h with h1 | ⟨details, hdet, h2⟩
    · exact absurd h1 (helpCommandDetails_ne_error L o d msg)
    · refine ⟨hlt, details, hdet, ?_⟩
      by_cases h0 : input.arguments.length = 0
      · rw [if_pos h0] at h2
        simp only [Outcome.error.injEq] at h2
        exact Or.inl ⟨h0, h2.symm⟩
      · rw [if_neg h0] at h2
        simp only [Outcome.error.injEq] at h2
        exact Or.inr ⟨by omega, arg, harg, h2.symm⟩
  · right; right
    refine ⟨heq, ?_⟩
    rw [fillCommand_equal heq] at h
    rcases bind_eq_error h with h1 | ⟨inst1, _, h2⟩
    · exact Or.inl (setArguments_error h1)
    · rcases bind_eq_error h2 with h3 | ⟨inst2, _, h4⟩
      · obtain ⟨e, he, hrest⟩ := applyDefaults_error h3
        exact Or.inr (Or.inl ⟨e, (o.perm _).mem_iff.1 he, hrest⟩)
      · exact Or.inr (Or.inr (setFlags_error h4))
  · left
    rw [fillCommand_too_many hgt] at h
    rcases bind_eq_error h with h1 | ⟨details, hdet, h2⟩
    · exact absurd h1 (helpCommandDetails_ne_error L o d msg)
    · simp only [Outcome.error.injEq] at h2
      exact ⟨hgt, details, hdet, h2.symm⟩

/-! ## The detail text of a command -/

theorem len_datatype_le_longest {rows : List row} {r : row} {dt : String} (h : r ∈ rows)
    (hd : r.datatype = some dt) : len dt ≤ longestDatatype rows := by
  have key : ∀ (rows : List row) (m0 : Nat),
      m0 ≤ rows.foldl (fun m r =>
        match r.datatype with
        | some dt => if m < len dt then len dt else m
        | none => m) m0 ∧
      ∀ r ∈ rows, ∀ dt, r.datatype = some dt → len dt ≤ rows.foldl (fun m r =>
        match r.datatype with
        | some dt => if m < len dt then len dt else m
        | none => m) m0 := by
    intro rows
    induction rows with
    | nil => simp
    | cons a rows ih =>
      intro m0
      simp only [List.foldl_cons, List.mem_cons, forall_eq_or_imp]
      obtain ⟨h1, h2⟩ := ih (match a.datatype with
        | some dt => if m0 < len dt then len dt else m0
        | none => m0)
      refine ⟨?_, ?_, h2⟩
      · refine Nat.le_trans ?_ h1
        split
        · split <;> omega
        · exact Nat.le_refl _
      · intro dt hdt
        refine Nat.le_trans ?_ h1
        rw [hdt]
        simp only
        split <;> omega
  exact (key rows 0).2 r h dt hd

/-- A row is rendered when its key is not longer than the longest key and its
rendered type is not longer than the longest type name. -/
theorem formatRow_ok (L : StdLib) (lk lv ld : Nat) (r : row) (hk : len r.key ≤ lk)
    (hd : ∀ dt, r.datatype = some dt → len (renderType L dt) ≤ ld) :
    ∃ line, formatRow L lk lv ld r = .ok line := by
  have hint : (4 + (lk : Int) - (len r.key : Int)) = ((4 + lk - len r.key : Nat) : Int) := by
    omega
  simp only [formatRow, hint, Repeat_space, bind_ok]
  cases hdt : r.datatype with
  | none => exact ⟨_, rfl⟩
  | some dt =>
    have hle := hd dt hdt
    have hint2 : ((ld : Int) - (len (renderType L dt) : Int)) =
        ((ld - len (renderType L dt) : Nat) : Int) := by omega
    simp only [hint2, Repeat_space, bind_ok]
    cases r.defaultValue <;> exact ⟨_, rfl⟩

theorem formatRows_ok (L : StdLib) (lk lv ld : Nat) (rows : List row)
    (h : ∀ r ∈ rows, len r.key ≤ lk ∧
      ∀ dt, r.datatype = some dt → len (renderType L dt) ≤ ld) :
    ∃ lines, formatRows L lk lv ld rows = .ok lines := by
  induction rows with
  | nil => exact ⟨_, rfl⟩
  | cons r rows ih =>
    obtain ⟨line, hline⟩ := formatRow_ok L lk lv ld r (h r (List.mem_cons_self _ _)).1
      (h r (List.mem_cons_self _ _)).2
    obtain ⟨lines, hlines⟩ := ih (fun q hq => h q (List.mem_cons_of_mem _ hq))
    exact ⟨line ++ lines, by simp only [formatRows, hline, hlines, bind_ok]⟩

/-- The detail text of a command is rendered when lowering does not lengthen
the type names of its rows; it begins with the invocation line. -/
theorem helpCommandDetails_ok (L : StdLib) (o : MapOrder) (d : commandDef) (name : String)
    (hname : d.name = some name)
    (hlower : ∀ r ∈ detailRows o d, ∀ dt, r.datatype = some dt →
      len (renderType L dt) ≤ len dt) :
    ∃ table, helpCommandDetails L o d =
      .ok ("\nusage: " ++ name ++ " " ++ usageKeys (detailRows o d) ++ "\n\n" ++ table) := by
  obtain ⟨lines, hlines⟩ := formatRows_ok L (longestKey (detailRows o d))
    (longestValue (detailRows o d)) (longestDatatype (detailRows o d)) (detailRows o d)
    (fun r hr => ⟨len_key_le_longestKey hr, fun dt hdt =>
      Nat.le_trans (hlower r hr dt hdt) (len_datatype_le_longest hr hdt)⟩)
  exact ⟨lines ++ "\n", by
    simp only [helpCommandDetails, hname, deref, bind_ok, formatTable, hlines]⟩

/-! ## Wrong numbers of positional tokens -/

/-- With more positional tokens than arguments, `Parse` renders the detail
text of the command and fails with it, followed by `too many arguments given`;
it panics when the rendering panics. -/
theorem Parse_too_many {L : StdLib} {o : MapOrder} {commands tpre tpost : List Template}
    {args : List String} {input : userInput} {command : String} {t : Template}
    {d : commandDef} (hwf : ∀ t ∈ commands, wellFormed t = true)
    (hinput : parseUserInput args = .ok input) (hcmd : input.command = some command)
    (hcommands : commands = tpre ++ t :: tpost) (hd : deriveCommand L t = .ok d)
    (hname : d.name = some command)
    (hfirst : ∀ q ∈ tpre, ∀ dq, deriveCommand L q = .ok dq → dq.name ≠ some command)
    (hmany : d.arguments.length < input.arguments.length) :
    Parse L o commands args =
      (helpCommandDetails L o d).bind fun help =>
        .error (help ++ "\ntoo many arguments given\n") := by
  rw [Parse_selected hwf hinput hcmd hcommands hd hname hfirst, fillCommand_too_many hmany]

/-- With fewer positional tokens than arguments, `Parse` renders the detail
text of the command and fails with it; when at least one token was given, a
line names the first argument without a token.  It panics when the rendering
panics. -/
theorem Parse_too_few {L : StdLib} {o : MapOrder} {commands tpre tpost : List Template}
    {args : List String} {input : userInput} {command : String} {t : Template}
    {d : commandDef} (hwf : ∀ t ∈ commands, wellFormed t = true)
    (hinput : parseUserInput args = .ok input) (hcmd : input.command = some command)
    (hcommands : commands = tpre ++ t :: tpost) (hd : deriveCommand L t = .ok d)
    (hname : d.name = some command)
    (hfirst : ∀ q ∈ tpre, ∀ dq, deriveCommand L q = .ok dq → dq.name ≠ some command)
    (hfew : input.arguments.length < d.arguments.length) :
    ∃ arg, d.arguments[input.arguments.length]? = some arg ∧
      Parse L o commands args =
        (helpCommandDetails L o d).bind fun help =>
          if input.arguments.length = 0 then .error help
          else .error (help ++ "\n" ++ ("[fail] missing argument <" ++ arg.name ++ ">\n")) := by
  obtain ⟨arg, harg, hfill⟩ := fillCommand_too_few (L := L) (o := o) hfew
  exact ⟨arg, harg, by
    rw [Parse_selected hwf hinput hcmd hcommands hd hname hfirst, hfill]⟩

/-! ## Claims -/

theorem wellFormed_false_iff (fields : List Field) :
    wellFormed (.struct fields) = false ↔
      (∀ f ∈ fields, isHeader f = false) ∨
      (∃ f ∈ fields, isHeader f = true ∧ segments f ≠ 2) ∨
      (∃ f ∈ fields, isOption f = true ∧ (segments f = 0 ∨ 2 < segments f)) ∨
      (∃ f ∈ fields, isArgument f = true ∧ segments f ≠ 1) := by
  have hbad : (∃ f ∈ fields, fieldOk f = false) ↔
      (∃ f ∈ fields, isHeader f = true ∧ segments f ≠ 2) ∨
      (∃ f ∈ fields, isOption f = true ∧ (segments f = 0 ∨ 2 < segments f)) ∨
      (∃ f ∈ fields, isArgument f = true ∧ segments f ≠ 1) := by
    constructor
    · rintro ⟨f, hf, hbad⟩
      rcases (fieldOk_false_iff f).1 hbad with h | h | h
      · exact Or.inl ⟨f, hf, h⟩
      · exact Or.inr (Or.inl ⟨f, hf, h⟩)
      · exact Or.inr (Or.inr ⟨f, hf, h⟩)
    · rintro (⟨f, hf, h⟩ | ⟨f, hf, h⟩ | ⟨f, hf, h⟩)
      · exact ⟨f, hf, (fieldOk_false_iff f).2 (Or.inl h)⟩
      · exact ⟨f, hf, (fieldOk_false_iff f).2 (Or.inr (Or.inl h))⟩
      · exact ⟨f, hf, (fieldOk_false_iff f).2 (Or.inr (Or.inr h))⟩
  rw [← hbad]
  simp only [wellFormed, Bool.and_eq_false_iff, List.any_eq_false, List.all_eq_false,
    Bool.not_eq_true]

/-- C10. For a list of struct-valued templates, schema derivation panics
exactly when some template has no header field, or a header annotation that
does not split into two segments, or an option field whose annotation splits
into zero or more than two segments, or an argument field whose annotation
does not split into one segment.  Otherwise it returns one schema per
template, in the order of the templates, each with the struct of its template
and with the name and the usage of the header present. -/
theorem C10_derivation_aborts_iff (L : StdLib) (commands : List Template)
    (hstruct : ∀ t ∈ commands, ∃ fields, t = Template.struct fields) :
    ((∃ msg, parseCommandDefs L commands = .abort msg) ↔
      ∃ fields, Template.struct fields ∈ commands ∧
        ((∀ f ∈ fields, isHeader f = false) ∨
         (∃ f ∈ fields, isHeader f = true ∧ segments f ≠ 2) ∨
         (∃ f ∈ fields, isOption f = true ∧ (segments f = 0 ∨ 2 < segments f)) ∨
         (∃ f ∈ fields, isArgument f = true ∧ segments f ≠ 1))) ∧
    ((¬ ∃ msg, parseCommandDefs L commands = .abort msg) →
      ∃ defs, parseCommandDefs L commands = .ok defs ∧
        List.Forall₂ (fun t d => t = Template.struct d.value ∧
          ∃ f ∈ d.value, isHeader f = true ∧
            ∃ n u, Split f.tag '|' = [n, u] ∧ d.name = some n ∧ d.usage = some u)
          commands defs) := by
  have hiff : (∃ t ∈ commands, wellFormed t = false) ↔
      ∃ fields, Template.struct fields ∈ commands ∧
        ((∀ f ∈ fields, isHeader f = false) ∨
         (∃ f ∈ fields, isHeader f = true ∧ segments f ≠ 2) ∨
         (∃ f ∈ fields, isOption f = true ∧ (segments f = 0 ∨ 2 < segments f)) ∨
         (∃ f ∈ fields, isArgument f = true ∧ segments f ≠ 1)) := by
    constructor
    · rintro ⟨t, ht, hw⟩
      obtain ⟨fields, rfl⟩ := hstruct t ht
      exact ⟨fields, ht, (wellFormed_false_iff fields).1 hw⟩
    · rintro ⟨fields, ht, hm⟩
      exact ⟨_, ht, (wellFormed_false_iff fields).2 hm⟩
  have hcases : (∃ t ∈ commands, wellFormed t = false) ∨ ∀ t ∈ commands, wellFormed t = true := by
    by_cases hex : ∃ t ∈ commands, wellFormed t = false
    · exact Or.inl hex
    · right
      intro t ht
      cases hw : wellFormed t
      · exact absurd ⟨t, ht, hw⟩ hex
      · rfl
  constructor
  · rw [← hiff]
    constructor
    · rintro ⟨msg, hmsg⟩
      rcases hcases with hex | hall
      · exact hex
      · obtain ⟨defs, hdefs⟩ := (parseCommandDefs_total L commands).1 hall
        rw [hdefs] at hmsg
        cases hmsg
    · exact (parseCommandDefs_total L commands).2
  · intro hno
    rcases hcases with hex | hall
    · exact absurd ((parseCommandDefs_total L commands).2 hex) hno
    · obtain ⟨defs, hdefs⟩ := (parseCommandDefs_total L commands).1 hall
      refine ⟨defs, hdefs, ?_⟩
      exact (parseCommandDefs_ok hdefs).imp fun _ _ hd => ⟨hd.struct, hd.header⟩

/-- C10 at the template of the tests, annotated with `|`: one schema, named
`testcmd`. -/
theorem C10_witness :
    (∀ t ∈ [TestStructPiped], ∃ fields, t = Template.struct fields) ∧
    (¬ ∃ msg, parseCommandDefs sampleLib [TestStructPiped] = .abort msg) ∧
    ∃ defs, parseCommandDefs sampleLib [TestStructPiped] = .ok defs ∧
      defs.map (·.name) = [some "testcmd"] := by
  have hs : ∀ t ∈ [TestStructPiped], ∃ fields, t = Template.struct fields := by
    intro t ht
    rw [List.mem_singleton] at ht
    exact ⟨_, ht⟩
  have hno : ¬ ∃ msg, parseCommandDefs sampleLib [TestStructPiped] = .abort msg := by
    rintro ⟨msg, hmsg⟩
    have hev : (parseCommandDefs sampleLib [TestStructPiped]).isOk = true := by decide
    rw [hmsg] at hev
    cases hev
  refine ⟨hs, hno, ?_⟩
  obtain ⟨defs, hdefs, _⟩ := (C10_derivation_aborts_iff sampleLib [TestStructPiped] hs).2 hno
  refine ⟨defs, hdefs, ?_⟩
  have : parseCommandDefs sampleLib [TestStructPiped] = .ok defs := hdefs
  have hev : (parseCommandDefs sampleLib [TestStructPiped]).bind
      (fun ds => .ok (ds.map (·.name))) = .ok [some "testcmd"] := by decide
  rw [this] at hev
  simpa using hev

/-- C8. For well-formed templates and an argument vector whose tokenization
succeeds with fewer than two positional tokens, `Parse` fails and its message
is the text that `GetUsage` returns: the command overview, which has one row
(name, usage) per template, in the order of the templates. -/
theorem C8_no_command_overview (L : StdLib) (o : MapOrder) (commands : List Template)
    (args : List String) (raw : userInput)
    (hwf : ∀ t ∈ commands, wellFormed t = true)
    (hscan : scanArgs args ⟨none, none, [], []⟩ = .ok raw)
    (hfew : raw.arguments.length < 2) :
    ∃ rows text,
      List.Forall₂ (fun t r => ∃ fields f, t = Template.struct fields ∧ f ∈ fields ∧
        isHeader f = true ∧ Split f.tag '|' = [r.key, r.value] ∧ r.datatype = none ∧
        r.defaultValue = none) commands rows ∧
      text = "\n" ++ (joinLines (rows.map fun r =>
        overviewLine (longestKey rows) (longestValue rows) r.key r.value) ++ "\n") ∧
      GetUsage L commands = .ok text ∧ Parse L o commands args = .error text := by
  obtain ⟨defs, hdefs⟩ := (parseCommandDefs_total L commands).1 hwf
  obtain ⟨rows, hrel, hov⟩ := helpOverview_ok (parseCommandDefs_ok hdefs)
  refine ⟨rows, _, hrel, rfl, ?_, ?_⟩
  · simp only [GetUsage, hdefs, bind_ok]; exact hov
  · have hinput : parseUserInput args = .ok (splitCommand raw) := by
      simp only [parseUserInput, hscan, bind_ok]
    have hcmd : (splitCommand raw).command = none := by
      obtain ⟨raw1, hraw1, _, _, _, _, _, _, hiff1⟩ := parseUserInput_ok hinput
      rw [hscan] at hraw1
      cases hraw1
      exact hiff1.2 hfew
    simp only [Parse, hdefs, hinput, bind_ok, hcmd, hov]

/-- C8 at the template of the tests and the vector `cmd -h`. -/
theorem C8_witness :
    (∀ t ∈ [TestStructPiped], wellFormed t = true) ∧
    scanArgs ["cmd", "-h"] ⟨none, none, [], []⟩ = .ok ⟨none, none, ["cmd"], []⟩ ∧
    (["cmd"] : List String).length < 2 ∧
    Parse sampleLib insertionOrder [TestStructPiped] ["cmd", "-h"] =
      .error "\n    testcmd.......Test command    \n\n" := by
  have hwf : ∀ t ∈ [TestStructPiped], wellFormed t = true := by
    intro t ht
    rw [List.mem_singleton] at ht
    subst ht
    decide
  have hscan : scanArgs ["cmd", "-h"] ⟨none, none, [], []⟩ = .ok ⟨none, none, ["cmd"], []⟩ := by
    decide
  refine ⟨hwf, hscan, by decide, ?_⟩
  obtain ⟨rows, text, _, _, husage, hparse⟩ :=
    C8_no_command_overview sampleLib insertionOrder [TestStructPiped] ["cmd", "-h"] _ hwf hscan
      (by decide)
  have hev : GetUsage sampleLib [TestStructPiped] =
      .ok "\n    testcmd.......Test command    \n\n" := by decide
  rw [hev] at husage
  cases husage
  exact hparse

/-- C6 as stated fails: a template list with a template without header makes
`Parse` panic, whatever command the vector selects. -/
theorem C6_counterexample :
    Parse sampleLib insertionOrder
      [Template.struct [⟨"Arg1", "The first required argument", .string "string", true⟩]]
      ["cmd", "invalidcmd"] = .abort "command missing name/usage\n" := by
  decide

/-- C6, amended. For well-formed templates and an argument vector whose
selected command name is the name of no header, `Parse` fails with the command
overview followed by `unrecognized command` and the name; and when the name is
declared, `Parse` is the matching against the schema of the first template of
that name. -/
theorem C6_unrecognized_command (L : StdLib) (o : MapOrder) (commands : List Template)
    (args : List String) (input : userInput) (command : String)
    (hwf : ∀ t ∈ commands, wellFormed t = true)
    (hinput : parseUserInput args = .ok input) (hcmd : input.command = some command) :
    ((∀ fields f n u, Template.struct fields ∈ commands → f ∈ fields → isHeader f = true →
        Split f.tag '|' = [n, u] → n ≠ command) →
      ∃ overview, GetUsage L commands = .ok overview ∧
        Parse L o commands args =
          .error (overview ++ "\nunrecognized command \"" ++ command ++ "\"\n")) ∧
    (∀ tpre t tpost d, commands = tpre ++ t :: tpost → deriveCommand L t = .ok d →
      d.name = some command →
      (∀ q ∈ tpre, ∀ dq, deriveCommand L q = .ok dq → dq.name ≠ some command) →
      Parse L o commands args = fillCommand L o d input) := by
  obtain ⟨defs, hdefs⟩ := (parseCommandDefs_total L commands).1 hwf
  have hrel := parseCommandDefs_ok hdefs
  constructor
  · intro hno
    obtain ⟨rows, _, hov⟩ := helpOverview_ok hrel
    refine ⟨_, (by simp only [GetUsage, hdefs, bind_ok]; exact hov), ?_⟩
    have hfind : findCommand defs command = .ok none := by
      apply findCommand_none
      intro p hp
      obtain ⟨t, ht, hd⟩ := derived_mem hrel hp
      obtain ⟨f, hf, hh, n, u, hsp, hn, _⟩ := hd.header
      refine ⟨n, hn, ?_⟩
      have hts := hd.struct
      subst hts
      exact hno _ f n u ht hf hh hsp
    simp only [Parse, hdefs, hinput, bind_ok, hcmd, hfind, hov]
  · intro tpre t tpost d hsplit hd hname hpre
    subst hsplit
    obtain ⟨dpre, d1, dpost, hdefs1, hdpre, hd1⟩ := parseCommandDefs_split hdefs
    rw [hd] at hd1
    cases hd1
    have hfind : findCommand defs command = .ok (some d) := by
      apply findCommand_first hdefs1 hname
      intro p hp
      obtain ⟨q, hq, hdq⟩ := parseCommandDefs_mem hdpre hp
      obtain ⟨_, _, _, n, _, _, hn, _⟩ := (deriveCommand_ok hdq).header
      refine ⟨n, hn, ?_⟩
      intro hc
      exact hpre q hq p hdq (by rw [hn, hc])
    exact Parse_eq_fill hdefs hinput hcmd hfind

/-- C6, amended, at the template of the tests and the command `invalidcmd`. -/
theorem C6_witness :
    (∀ t ∈ [TestStructPiped], wellFormed t = true) ∧
    parseUserInput ["cmd", "invalidcmd"] = .ok ⟨some "cmd", some "invalidcmd", [], []⟩ ∧
    Parse sampleLib insertionOrder [TestStructPiped] ["cmd", "invalidcmd"] =
      .error ("\n    testcmd.......Test command    \n\n" ++
        "\nunrecognized command \"" ++ "invalidcmd" ++ "\"\n") := by
  have hwf : ∀ t ∈ [TestStructPiped], wellFormed t = true := by
    intro t ht
    rw [List.mem_singleton] at ht
    subst ht
    decide
  have hinput : parseUserInput ["cmd", "invalidcmd"] =
      .ok ⟨some "cmd", some "invalidcmd", [], []⟩ := by decide
  refine ⟨hwf, hinput, ?_⟩
  obtain ⟨overview, husage, hparse⟩ :=
    (C6_unrecognized_command sampleLib insertionOrder [TestStructPiped] ["cmd", "invalidcmd"]
      _ "invalidcmd" hwf hinput rfl).1 (by
        intro fields f n u ht hf hh hsp
        rw [List.mem_singleton] at ht
        cases ht
        simp only [List.mem_cons, List.mem_singleton, List.not_mem_nil, or_false] at hf
        rcases hf with rfl | rfl | rfl | rfl | rfl | rfl | rfl | rfl | rfl | rfl <;>
          first
          | (exfalso; revert hh; decide)
          | (revert hsp; simp only [show Split "testcmd|Test command" '|' =
                ["testcmd", "Test command"] by decide, List.cons.injEq, and_true]
             rintro ⟨rfl, _⟩
             decide))
  have hev : GetUsage sampleLib [TestStructPiped] =
      .ok "\n    testcmd.......Test command    \n\n" := by decide
  rw [hev] at husage
  cases husage
  exact hparse

/-- C2 as stated fails: of two option fields with the same derived name only
the later one is in the option mapping.  The value given for `-ab` is stored
in `Ab` and the declared option field `ab` stays nil; and the default `1` of
the exported field `AÉ`, which the user did not override, is never applied,
because `Aé` derives the same name `aé`. -/
theorem C2_counterexample :
    (Parse sampleLib insertionOrder [ShadowStruct] ["bin", "c", "-ab", "5"]).field "Ab" =
      some (Value.ref (Value.int 5)) ∧
    (Parse sampleLib insertionOrder [ShadowStruct] ["bin", "c", "-ab", "5"]).field "ab" =
      some Value.nil ∧
    toKebabCase sampleLib "ab" = "ab" ∧ toKebabCase sampleLib "Ab" = "ab" ∧
    (Parse sampleLib insertionOrder [AccentStruct] ["bin", "c"]).isOk = true ∧
    (Parse sampleLib insertionOrder [AccentStruct] ["bin", "c"]).field "AÉ" =
      some Value.nil ∧
    toKebabCase sampleLib "AÉ" = "aé" ∧ toKebabCase sampleLib "Aé" = "aé" := by
  decide

/-- C3 as stated fails: with the three arguments given and no option, `Parse`
returns a record in which the option without default is not set. -/
theorem C3_counterexample :
    (Parse sampleLib insertionOrder [TestStructPiped] ["cmd", "testcmd", "a", "b", "c"]).isOk =
      true ∧
    (Parse sampleLib insertionOrder [TestStructPiped] ["cmd", "testcmd", "a", "b", "c"]).field
      "FlagInt2" = some Value.nil := by
  decide

/-- C7. Let the vector select a command of well-formed templates and give
exactly as many positional tokens as the first template of that name has
argument fields, each storable in its field, and let every declared default
be storable.  If an option of the user is not declared (`fl`, the first such,
after the declared options `pre`), `Parse` fails and returns no record; the
name of the option is a token of the vector without its leading `-`; and when
the values of the options before it can be stored, the message is
`unrecognized flag` followed by that name. -/
theorem C7_unrecognized_flag (L : StdLib) (o : MapOrder) (commands tpre tpost : List Template)
    (args : List String) (input : userInput) (command : String) (fields : List Field)
    (d : commandDef) (pre post : List flag) (fl : flag)
    (hwf : ∀ t ∈ commands, wellFormed t = true)
    (hinput : parseUserInput args = .ok input) (hcmd : input.command = some command)
    (hcommands : commands = tpre ++ Template.struct fields :: tpost)
    (hd : deriveCommand L (Template.struct fields) = .ok d) (hname : d.name = some command)
    (hfirst : ∀ q ∈ tpre, ∀ dq, deriveCommand L q = .ok dq → dq.name ≠ some command)
    (harity : input.arguments.length = (fields.filter isArgument).length)
    (hargs : ∀ (i : Nat) (f : Field) (tok : String),
      (fields.filter isArgument)[i]? = some f → input.arguments[i]? = some tok →
      canSet L fields f.name tok)
    (hdefaults : ∀ f ∈ fields, isOption f = true → ∀ dv u, Split f.tag '|' = [dv, u] →
      canSet L fields f.name dv)
    (hflags : input.flags = pre ++ fl :: post)
    (hpre : ∀ p ∈ pre, ∃ f ∈ fields, isOption f = true ∧ toKebabCase L f.name = p.name)
    (hund : ∀ f ∈ fields, isOption f = true → toKebabCase L f.name ≠ fl.name) :
    (∃ msg, Parse L o commands args = .error msg) ∧
    (∃ a ∈ args, HasPrefix a "-" = true ∧ fl.name = TrimPrefix a "-") ∧
    ((∀ p ∈ pre, ∀ f ∈ fields, isOption f = true → toKebabCase L f.name = p.name →
        canSet L fields f.name p.value) →
      Parse L o commands args = .error ("unrecognized flag \"" ++ fl.name ++ "\"")) := by
  have hder := deriveCommand_ok hd
  have hfv : fields = d.value := by
    have := hder.struct
    simpa using this
  subst hfv
  obtain ⟨inst2, hf2, _, hfill⟩ :=
    @fillCommand_to_flags L o d input hder.arguments hder.flags harity hargs hdefaults
  have hparse : Parse L o commands args = setFlags L d.flags input.flags inst2 := by
    rw [Parse_selected hwf hinput hcmd hcommands hd hname hfirst, hfill]
  have hnone : d.flags.get fl.name = none := by
    rw [hder.flags]
    exact get_optionMap_none L (fun g hg => hund g (List.mem_filter.1 hg).1
      (List.mem_filter.1 hg).2)
  refine ⟨?_, ?_, ?_⟩
  · rw [hparse]
    exact setFlags_undeclared inst2 (show fl ∈ input.flags by rw [hflags]; simp) hnone
  · obtain ⟨_, _, _, _, _, _, hfl, _⟩ := parseUserInput_ok hinput
    obtain ⟨a, ha, hp, _, hn⟩ := hfl fl (by rw [hflags]; simp)
    exact ⟨a, ha, hp, hn⟩
  · intro hset
    obtain ⟨r1, hr1, _⟩ := setFlags_succeeds hder.flags hf2 hpre hset
    rw [hparse, hflags]
    exact setFlags_unrecognized hr1 hnone

/-- C7 at the concrete scenario: in `cmd testcmd -count 7 -nope 1 5 6` the
option `nope` is not declared. -/
theorem C7_witness :
    parseUserInput ["cmd", "testcmd", "-count", "7", "-nope", "1", "5", "6"] =
      .ok ⟨some "cmd", some "testcmd", ["5", "6"], [⟨"count", "7"⟩, ⟨"nope", "1"⟩]⟩ ∧
    deriveCommand sampleLib (Template.struct scenarioFields) = .ok scenarioDef ∧
    Parse sampleLib insertionOrder [Template.struct scenarioFields]
      ["cmd", "testcmd", "-count", "7", "-nope", "1", "5", "6"] =
      .error ("unrecognized flag \"" ++ "nope" ++ "\"") := by
  have hinput : parseUserInput ["cmd", "testcmd", "-count", "7", "-nope", "1", "5", "6"] =
      .ok ⟨some "cmd", some "testcmd", ["5", "6"], [⟨"count", "7"⟩, ⟨"nope", "1"⟩]⟩ := by
    decide
  have hd : deriveCommand sampleLib (Template.struct scenarioFields) = .ok scenarioDef := by
    decide
  refine ⟨hinput, hd, ?_⟩
  refine (C7_unrecognized_flag sampleLib insertionOrder
    [Template.struct scenarioFields] [] []
    ["cmd", "testcmd", "-count", "7", "-nope", "1", "5", "6"]
    ⟨some "cmd", some "testcmd", ["5", "6"], [⟨"count", "7"⟩, ⟨"nope", "1"⟩]⟩ "testcmd"
    scenarioFields scenarioDef [⟨"count", "7"⟩] [] ⟨"nope", "1"⟩
    (by intro t ht; rw [List.mem_singleton] at ht; subst ht; decide)
    hinput rfl rfl hd rfl (by intro q hq; cases hq) (by decide)
    (index_of_zip (Q := fun (f : Field) (tok : String) => canSet sampleLib scenarioFields f.name tok) (by
      intro p hp
      have hz : List.zip (scenarioFields.filter isArgument) ["5", "6"] =
          [(⟨"First", "The first argument", .string "string", true⟩, "5"),
           (⟨"Second", "The second argument", .string "string", true⟩, "6")] := by decide
      rw [hz] at hp
      simp only [List.mem_cons, List.mem_singleton, List.not_mem_nil, or_false] at hp
      rcases hp with rfl | rfl <;> exact canSet_of_isOk (by decide)))
    (defaults_of_check (by decide))
    rfl
    (by
      intro p hp
      rw [List.mem_singleton] at hp
      subst hp
      exact ⟨⟨"Count", "10|An integer option", .ptr "*int" (.int "int" 64), true⟩,
        by decide, by decide, by decide⟩)
    (by decide)).2.2 ?_
  intro p hp f hf ho hk
  rw [List.mem_singleton] at hp
  subst hp
  simp only [scenarioFields, List.mem_cons, List.mem_singleton, List.not_mem_nil,
    or_false] at hf
  rcases hf with rfl | rfl | rfl | rfl
  · exact absurd ho (by decide)
  · exact canSet_of_isOk (by decide)
  · exact absurd ho (by decide)
  · exact absurd ho (by decide)

/-- C4: the code panics where the claim promises a failure with the usage
text.  With no positional token for a command whose argument has the type
`main.Ⱥ`, the detail text is not rendered: the type name has 7 bytes, lowered
it has 8, and `strings.Repeat` is called with the count -1. -/
theorem C4_failing_input :
    len "main.Ⱥ" = 7 ∧ len (renderType sampleLib "main.Ⱥ") = 8 ∧
    parseUserInput ["bin", "c"] = .ok ⟨some "bin", some "c", [], []⟩ ∧
    Parse sampleLib insertionOrder [StrokeStruct] ["bin", "c"] =
      .abort "strings: negative Repeat count" := by
  decide

/-- C5: the code panics where the claim promises a failure with the usage
text.  With two positional tokens for a command of one argument, of the type
`main.Ⱥ`, the detail text is not rendered: the type name has 7 bytes, lowered
it has 8, and `strings.Repeat` is called with the count -1. -/
theorem C5_failing_input :
    len "main.Ⱥ" = 7 ∧ len (renderType sampleLib "main.Ⱥ") = 8 ∧
    parseUserInput ["bin", "c", "1", "2"] = .ok ⟨some "bin", some "c", ["1", "2"], []⟩ ∧
    Parse sampleLib insertionOrder [StrokeStruct] ["bin", "c", "1", "2"] =
      .abort "strings: negative Repeat count" := by
  decide

/-- C9 as stated fails: at these inputs the failures for an unknown option, for
a value that does not convert and for a missing option value are messages in
which neither the command overview nor the detail text of the command
occurs. -/
theorem C9_counterexample :
    Parse sampleLib insertionOrder [ScenarioStruct]
      ["cmd", "testcmd", "-nope", "1", "5", "6"] = .error "unrecognized flag \"nope\"" ∧
    helpTextsIn sampleLib insertionOrder [ScenarioStruct] "unrecognized flag \"nope\"" =
      .ok [false, false] ∧
    Parse sampleLib insertionOrder [ScenarioStruct]
      ["cmd", "testcmd", "-count", "x", "5", "6"] =
      .error "unable to set flag field \"Count\" to \"x\"" ∧
    helpTextsIn sampleLib insertionOrder [ScenarioStruct]
      "unable to set flag field \"Count\" to \"x\"" = .ok [false, false] ∧
    Parse sampleLib insertionOrder [ScenarioStruct] ["cmd", "testcmd", "5", "6", "-count"] =
      .error "missing value for flag \"count\"" ∧
    helpTextsIn sampleLib insertionOrder [ScenarioStruct] "missing value for flag \"count\"" =
      .ok [false, false] := by
  decide

/-! ## The tokenizer: one token at a time -/

theorem dash_cases (a : String) :
    (∃ k : String, a = "-" ++ k ∧ HasPrefix a "-" = true ∧ TrimPrefix a "-" = k) ∨
    (HasPrefix a "-" = false ∧ TrimPrefix a "-" = a) := by
  rcases a with ⟨cs⟩
  cases cs with
  | nil => right; exact ⟨rfl, rfl⟩
  | cons c cs =>
    by_cases hc : c = '-'
    · subst hc
      left
      refine ⟨⟨cs⟩, rfl, ?_, ?_⟩ <;> simp [HasPrefix, TrimPrefix, List.isPrefixOf]
    · right
      have hp : HasPrefix ⟨c :: cs⟩ "-" = false := by
        have hne : ('-' == c) = false := by
          simp only [beq_eq_false_iff_ne, ne_eq]
          exact fun h => hc h.symm
        simp [HasPrefix, List.isPrefixOf, hne]
      exact ⟨hp, by simp [TrimPrefix, hp]⟩

theorem hasPrefix_dash_append (k : String) : HasPrefix ("-" ++ k) "-" = true := by
  simp [HasPrefix, String.data_append, List.isPrefixOf]

theorem dash_append_inj {k1 k2 : String} (h : "-" ++ k1 = "-" ++ k2) : k1 = k2 := by
  have h1 := congrArg String.data h
  simp only [String.data_append] at h1
  exact String.ext (by simpa using h1)

theorem trimPrefix_dash_append (k : String) : TrimPrefix ("-" ++ k) "-" = k := by
  rcases dash_cases ("-" ++ k) with ⟨k1, hk, _, ht⟩ | ⟨h, _⟩
  · rw [ht]
    exact (dash_append_inj hk).symm
  · rw [hasPrefix_dash_append] at h
    cases h

/-- The tokens that the tokenizer skips at a position where it examines a
token: exactly `help`, `-help`, `--help` and `-h`. -/
theorem isHelpAlias_iff (a : String) (hs : startsOption a = true) :
    isHelpAlias a = true ↔ a = "help" ∨ a = "-help" ∨ a = "--help" ∨ a = "-h" := by
  rcases dash_cases a with ⟨k, hk, hp, ht⟩ | ⟨hp, ht⟩
  · subst hk
    simp only [isHelpAlias, ht, Bool.or_eq_true, beq_iff_eq]
    constructor
    · rintro ((h | h) | h)
      · subst h; right; left; rfl
      · subst h; right; right; left; rfl
      · right; right; right; exact h
    · rintro (h | h | h | h)
      · have h1 := congrArg String.data h
        simp [String.data_append] at h1
      · left; left
        exact dash_append_inj (h.trans (by rfl : "-help" = "-" ++ "help"))
      · left; right
        exact dash_append_inj (h.trans (by rfl : "--help" = "-" ++ "-help"))
      · right; exact h
  · have ha : a = "help" := by
      simp only [startsOption, hp, Bool.false_or, beq_iff_eq] at hs
      exact hs
    subst ha
    constructor
    · intro _; left; rfl
    · intro _; decide

/-- A token that does not start an option is a positional token. -/
theorem scanArgs_positional (a : String) (rest : List String) (acc : userInput)
    (hs : startsOption a = false) :
    scanArgs (a :: rest) acc = scanArgs rest { acc with arguments := acc.arguments ++ [a] } := by
  cases rest with
  | nil => simp [scanArgs, hs]
  | cons v rest => simp [scanArgs, hs]

/-- A help alias is skipped: it gives neither an option pair nor a positional
token. -/
theorem scanArgs_alias (a : String) (rest : List String) (acc : userInput)
    (hs : startsOption a = true) (ha : isHelpAlias a = true) :
    scanArgs (a :: rest) acc = scanArgs rest acc := by
  cases rest with
  | nil => simp [scanArgs, hs, ha]
  | cons v rest => simp [scanArgs, hs, ha]

/-- An option name takes the next token as its value, whatever that token is,
and the scan goes on after the value. -/
theorem scanArgs_pair (a v : String) (rest : List String) (acc : userInput)
    (hs : startsOption a = true) (ha : isHelpAlias a = false) :
    scanArgs (a :: v :: rest) acc =
      scanArgs rest { acc with flags := acc.flags ++ [⟨TrimPrefix a "-", v⟩] } := by
  simp [scanArgs, hs, ha]

/-- An option name without a next token ends the scan with an error. -/
theorem scanArgs_last (a : String) (acc : userInput)
    (hs : startsOption a = true) (ha : isHelpAlias a = false) :
    scanArgs [a] acc = .error ("missing value for flag \"" ++ TrimPrefix a "-" ++ "\"") := by
  simp [scanArgs, hs, ha]

/-- A token that starts an option and is no help alias begins with `-`. -/
theorem option_name_dash {a : String} (hs : startsOption a = true)
    (ha : isHelpAlias a = false) : HasPrefix a "-" = true := by
  simp only [startsOption, Bool.or_eq_true, beq_iff_eq] at hs
  rcases hs with hs | hs
  · exact hs
  · subst hs
    exact absurd (by decide : isHelpAlias "help" = true) (by rw [ha]; simp)

theorem startsOption_of_dash {a : String} (hp : HasPrefix a "-" = true) :
    startsOption a = true := by
  simp [startsOption, hp]

/-- The scan of tokens that do not stop on an option name without value: it
succeeds, and the scan of a longer vector goes on from its result. -/
theorem scanArgs_split (pre : List String) (acc : userInput) (h : endsPending pre = false) :
    ∃ acc1, scanArgs pre acc = .ok acc1 ∧
      ∀ post, scanArgs (pre ++ post) acc = scanArgs post acc1 := by
  induction pre, acc using scanArgs.induct with
  | case1 input => exact ⟨input, rfl, fun post => rfl⟩
  | case2 a input hs ha =>
    exact ⟨input, by simp [scanArgs, hs, ha], fun post => scanArgs_alias a post input hs ha⟩
  | case3 a input hs ha =>
    simp only [endsPending, hs, Bool.true_and, Bool.not_eq_false'] at h
    exact absurd h ha
  | case4 a input hs =>
    have hs1 : startsOption a = false := by simpa using hs
    exact ⟨_, by simp [scanArgs, hs], fun post => scanArgs_positional a post input hs1⟩
  | case5 a v rest input hs ha ih =>
    simp only [endsPending, hs, ha, if_true] at h
    obtain ⟨acc1, h1, h2⟩ := ih h
    refine ⟨acc1, by rw [scanArgs_alias a _ input hs ha]; exact h1, fun post => ?_⟩
    rw [List.cons_append, scanArgs_alias a _ input hs ha]
    exact h2 post
  | case6 a v rest input hs ha ih =>
    have ha1 : isHelpAlias a = false := by simpa using ha
    simp only [endsPending, hs, ha1, if_true, Bool.false_eq_true, if_false] at h
    obtain ⟨acc1, h1, h2⟩ := ih h
    refine ⟨acc1, by rw [scanArgs_pair a v rest input hs ha1]; exact h1, fun post => ?_⟩
    rw [List.cons_append, List.cons_append, scanArgs_pair a v _ input hs ha1]
    exact h2 post
  | case7 a v rest input hs ih =>
    have hs1 : startsOption a = false := by simpa using hs
    simp only [endsPending, hs1, Bool.false_eq_true, if_false] at h
    obtain ⟨acc1, h1, h2⟩ := ih h
    refine ⟨acc1, by rw [scanArgs_positional a _ input hs1]; exact h1, fun post => ?_⟩
    rw [List.cons_append, scanArgs_positional a _ input hs1]
    exact h2 post

/-- The scan stops on an option name without value exactly when the last token
is examined and is an option name. -/
theorem endsPending_iff (args : List String) :
    endsPending args = true ↔
      ∃ pre a, args = pre ++ [a] ∧ endsPending pre = false ∧ startsOption a = true ∧
        isHelpAlias a = false := by
  induction args using endsPending.induct with
  | case1 => simp [endsPending]
  | case2 a =>
    simp only [endsPending, Bool.and_eq_true, Bool.not_eq_true']
    constructor
    · rintro ⟨hs, ha⟩
      exact ⟨[], a, rfl, rfl, hs, ha⟩
    · rintro ⟨pre, b, hsplit, _, hs, ha⟩
      cases pre with
      | nil =>
        simp only [List.nil_append, List.cons.injEq, and_true] at hsplit
        subst hsplit
        exact ⟨hs, ha⟩
      | cons p pre =>
        simp only [List.cons_append, List.cons.injEq] at hsplit
        have := hsplit.2
        cases pre <;> simp at this
  | case3 a v rest hs ha ih =>
    simp only [endsPending, hs, ha, if_true]
    rw [ih]
    constructor
    · rintro ⟨pre, b, hsplit, hp, hsb, hab⟩
      refine ⟨a :: pre, b, by rw [hsplit]; rfl, ?_, hsb, hab⟩
      cases pre with
      | nil => simp [endsPending, hs, ha]
      | cons p pre => simp only [endsPending, hs, ha, if_true]; exact hp
    · rintro ⟨pre, b, hsplit, hp, hsb, hab⟩
      cases pre with
      | nil => simp at hsplit
      | cons p pre =>
        simp only [List.cons_append, List.cons.injEq] at hsplit
        obtain ⟨rfl, hrest⟩ := hsplit
        cases pre with
        | nil =>
          simp only [List.nil_append, List.cons.injEq] at hrest
          simp only [endsPending, hs, ha, Bool.not_true, Bool.and_false] at hp
          exact ⟨[], b, by simp [hrest.1, hrest.2], rfl, hsb, hab⟩
        | cons q pre =>
          simp only [endsPending, hs, ha, if_true] at hp
          exact ⟨q :: pre, b, hrest, hp, hsb, hab⟩
  | case4 a v rest hs ha ih =>
    have ha1 : isHelpAlias a = false := by simpa using ha
    simp only [endsPending, hs, ha1, if_true, Bool.false_eq_true, if_false]
    rw [ih]
    constructor
    · rintro ⟨pre, b, hsplit, hp, hsb, hab⟩
      refine ⟨a :: v :: pre, b, by rw [hsplit]; rfl, ?_, hsb, hab⟩
      simp only [endsPending, hs, ha1, if_true, Bool.false_eq_true, if_false]
      exact hp
    · rintro ⟨pre, b, hsplit, hp, hsb, hab⟩
      cases pre with
      | nil => simp at hsplit
      | cons p pre =>
        simp only [List.cons_append, List.cons.injEq] at hsplit
        obtain ⟨rfl, hrest⟩ := hsplit
        cases pre with
        | nil =>
          simp only [endsPending, hs, ha1, Bool.not_false, Bool.and_true] at hp
          cases hp
        | cons q pre =>
          simp only [List.cons_append, List.cons.injEq] at hrest
          obtain ⟨rfl, hrest⟩ := hrest
          simp only [endsPending, hs, ha1, if_true, Bool.false_eq_true, if_false] at hp
          exact ⟨pre, b, hrest, hp, hsb, hab⟩
  | case5 a v rest hs ih =>
    have hs1 : startsOption a = false := by simpa using hs
    simp only [endsPending, hs1, Bool.false_eq_true, if_false]
    rw [ih]
    constructor
    · rintro ⟨pre, b, hsplit, hp, hsb, hab⟩
      refine ⟨a :: pre, b, by rw [hsplit]; rfl, ?_, hsb, hab⟩
      cases pre with
      | nil => simp [endsPending, hs1]
      | cons p pre => simp only [endsPending, hs1, Bool.false_eq_true, if_false]; exact hp
    · rintro ⟨pre, b, hsplit, hp, hsb, hab⟩
      cases pre with
      | nil => simp at hsplit
      | cons p pre =>
        simp only [List.cons_append, List.cons.injEq] at hsplit
        obtain ⟨rfl, hrest⟩ := hsplit
        cases pre with
        | nil =>
          simp only [List.nil_append, List.cons.injEq] at hrest
          exact ⟨[], b, by simp [hrest.1, hrest.2], rfl, hsb, hab⟩
        | cons q pre =>
          simp only [endsPending, hs1, Bool.false_eq_true, if_false] at hp
          exact ⟨q :: pre, b, hrest, hp, hsb, hab⟩

/-- The outcome of the scan: it succeeds when the tokens do not stop on an
option name without value, and otherwise fails with the message that names
the last token without its leading `-`. -/
theorem scanArgs_outcome (args : List String) (acc : userInput) :
    (endsPending args = false ∧ ∃ r, scanArgs args acc = .ok r) ∨
    (∃ pre a, args = pre ++ [a] ∧ endsPending pre = false ∧ HasPrefix a "-" = true ∧
      isHelpAlias a = false ∧
      scanArgs args acc = .error ("missing value for flag \"" ++ TrimPrefix a "-" ++ "\"")) := by
  cases h : endsPending args with
  | false =>
    obtain ⟨acc1, h1, _⟩ := scanArgs_split args acc h
    exact Or.inl ⟨rfl, acc1, h1⟩
  | true =>
    obtain ⟨pre, a, hsplit, hp, hs, ha⟩ := (endsPending_iff args).1 h
    obtain ⟨acc1, _, h2⟩ := scanArgs_split pre acc hp
    exact Or.inr ⟨pre, a, hsplit, hp, option_name_dash hs ha, ha, by
      rw [hsplit, h2, scanArgs_last a acc1 hs ha]⟩

/-- C15. At a position where the tokenizer examines a token, a token that
begins with `-` and is no help alias is an option name, the token without one
leading `-`; it takes the next token as its value, whatever that token is, and
the scan goes on after the value.  Tokenization fails exactly when the last
token of the vector is such an option name, and the message is then `missing
value for flag` with that name. -/
theorem C15_option_values (args : List String) :
    (∀ (pre : List String) (a : String) (acc : userInput), endsPending pre = false →
      HasPrefix a "-" = true → isHelpAlias a = false →
      ∃ acc1, scanArgs pre acc = .ok acc1 ∧
        ∀ (v : String) (post : List String), scanArgs (pre ++ a :: v :: post) acc =
          scanArgs post { acc1 with flags := acc1.flags ++ [⟨TrimPrefix a "-", v⟩] }) ∧
    ((∃ msg, parseUserInput args = .error msg) ↔
      ∃ pre a, args = pre ++ [a] ∧ endsPending pre = false ∧ HasPrefix a "-" = true ∧
        isHelpAlias a = false) ∧
    (∀ pre a, args = pre ++ [a] → endsPending pre = false → HasPrefix a "-" = true →
      isHelpAlias a = false →
      parseUserInput args = .error ("missing value for flag \"" ++ TrimPrefix a "-" ++ "\"")) := by
  refine ⟨?_, ?_, ?_⟩
  · intro pre a acc hp hd ha
    obtain ⟨acc1, h1, h2⟩ := scanArgs_split pre acc hp
    refine ⟨acc1, h1, fun v post => ?_⟩
    rw [h2, scanArgs_pair a v post acc1 (startsOption_of_dash hd) ha]
  · constructor
    · rintro ⟨msg, hmsg⟩
      rcases scanArgs_outcome args ⟨none, none, [], []⟩ with ⟨_, r, hr⟩ | ⟨pre, a, h1, h2, h3, h4, _⟩
      · simp [parseUserInput, hr] at hmsg
      · exact ⟨pre, a, h1, h2, h3, h4⟩
    · rintro ⟨pre, a, hsplit, hp, hd, ha⟩
      obtain ⟨acc1, _, h2⟩ := scanArgs_split pre ⟨none, none, [], []⟩ hp
      exact ⟨_, by
        simp only [parseUserInput]
        rw [hsplit, h2, scanArgs_last a acc1 (startsOption_of_dash hd) ha]
        rfl⟩
  · intro pre a hsplit hp hd ha
    obtain ⟨acc1, _, h2⟩ := scanArgs_split pre ⟨none, none, [], []⟩ hp
    simp only [parseUserInput]
    rw [hsplit, h2, scanArgs_last a acc1 (startsOption_of_dash hd) ha]
    rfl

/-- C15 on concrete vectors: the value of `-x` is `-y`, which is not examined
again; the vector that ends on `-x` fails. -/
theorem C15_witness :
    parseUserInput ["bin", "c", "-x", "-y", "z"] =
      .ok ⟨some "bin", some "c", ["z"], [⟨"x", "-y"⟩]⟩ ∧
    parseUserInput ["bin", "c", "-x", "help"] =
      .ok ⟨some "bin", some "c", [], [⟨"x", "help"⟩]⟩ ∧
    parseUserInput ["bin", "c", "-x"] =
      .error ("missing value for flag \"" ++ TrimPrefix "-x" "-" ++ "\"") :=
  ⟨by decide, by decide,
    (C15_option_values ["bin", "c", "-x"]).2.2 ["bin", "c"] "-x" rfl (by decide) (by decide)
      (by decide)⟩

/-- C16 as stated fails: the token `-help` is skipped as well, so an option
of the derived name `help` cannot be given; and an option of the derived name
`h`, which is none of the aliases, cannot be given either, as its token `-h`
is skipped. -/
theorem C16_counterexample :
    parseUserInput ["bin", "c", "-help", "x"] = .ok ⟨some "bin", some "c", ["x"], []⟩ ∧
    parseUserInput ["bin", "c", "-h", "1"] = .ok ⟨some "bin", some "c", ["1"], []⟩ ∧
    toKebabCase sampleLib "H" = "h" ∧ toKebabCase sampleLib "Help" = "help" := by
  decide

/-- C16, amended. At a position where it examines a token, the tokenizer skips
the token, giving neither an option pair nor a positional token, exactly when
the token is `help`, `-help`, `--help` or `-h`; every other token that begins
with `-` is an option name.  So an option can be given under every name but
`help`, `-help` and `h`, and under these three names never. -/
theorem C16_skipped_tokens :
    (∀ a, startsOption a = true →
      (isHelpAlias a = true ↔ a = "help" ∨ a = "-help" ∨ a = "--help" ∨ a = "-h")) ∧
    (∀ a rest acc, (a = "help" ∨ a = "-help" ∨ a = "--help" ∨ a = "-h") →
      scanArgs (a :: rest) acc = scanArgs rest acc) ∧
    (∀ a v rest acc, HasPrefix a "-" = true → a ≠ "-help" → a ≠ "--help" → a ≠ "-h" →
      scanArgs (a :: v :: rest) acc =
        scanArgs rest { acc with flags := acc.flags ++ [⟨TrimPrefix a "-", v⟩] }) ∧
    (∀ k v rest acc, k ≠ "help" → k ≠ "-help" → k ≠ "h" →
      scanArgs (("-" ++ k) :: v :: rest) acc =
        scanArgs rest { acc with flags := acc.flags ++ [⟨k, v⟩] }) ∧
    (∀ args input, parseUserInput args = .ok input →
      ∀ fl ∈ input.flags, fl.name ≠ "help" ∧ fl.name ≠ "-help" ∧ fl.name ≠ "h") := by
  have hskip : ∀ a, (a = "help" ∨ a = "-help" ∨ a = "--help" ∨ a = "-h") →
      startsOption a = true ∧ isHelpAlias a = true := by
    rintro a (h | h | h | h) <;> subst h <;> exact ⟨by decide, by decide⟩
  have hname : ∀ a, HasPrefix a "-" = true → a ≠ "-help" → a ≠ "--help" → a ≠ "-h" →
      isHelpAlias a = false := by
    intro a hd h1 h2 h3
    cases hal : isHelpAlias a with
    | false => rfl
    | true =>
      rcases (isHelpAlias_iff a (startsOption_of_dash hd)).1 hal with h | h | h | h
      · subst h
        exact absurd hd (by decide)
      · exact absurd h h1
      · exact absurd h h2
      · exact absurd h h3
  refine ⟨isHelpAlias_iff, ?_, ?_, ?_, ?_⟩
  · intro a rest acc ha
    exact scanArgs_alias a rest acc (hskip a ha).1 (hskip a ha).2
  · intro a v rest acc hd h1 h2 h3
    exact scanArgs_pair a v rest acc (startsOption_of_dash hd) (hname a hd h1 h2 h3)
  · intro k v rest acc h1 h2 h3
    have hd := hasPrefix_dash_append k
    have hal : isHelpAlias ("-" ++ k) = false := by
      apply hname _ hd
      · intro h
        exact h1 (dash_append_inj (h.trans (by rfl : "-help" = "-" ++ "help")))
      · intro h
        exact h2 (dash_append_inj (h.trans (by rfl : "--help" = "-" ++ "-help")))
      · intro h
        exact h3 (dash_append_inj (h.trans (by rfl : "-h" = "-" ++ "h")))
    rw [scanArgs_pair _ v rest acc (startsOption_of_dash hd) hal, trimPrefix_dash_append]
  · intro args input hinput fl hfl
    obtain ⟨_, _, _, _, _, _, hflags, _⟩ := parseUserInput_ok hinput
    obtain ⟨a, _, hd, hal, hn⟩ := hflags fl hfl
    rcases dash_cases a with ⟨k, hk, _, ht⟩ | ⟨hp, _⟩
    · rw [hn, ht]
      subst hk
      refine ⟨?_, ?_, ?_⟩
      · rintro rfl
        exact absurd hal (by decide)
      · rintro rfl
        exact absurd hal (by decide)
      · rintro rfl
        exact absurd hal (by decide)
    · rw [hd] at hp
      cases hp

/-- C12 as stated fails: a help alias inserted right after an option name is
taken as the value of the option, and the old value becomes a positional
token; inserted after an option name at the end of the vector it turns the
failure into a success. -/
theorem C12_counterexample :
    parseUserInput ["bin", "c", "-x", "5"] = .ok ⟨some "bin", some "c", [], [⟨"x", "5"⟩]⟩ ∧
    parseUserInput ["bin", "c", "-x", "help", "5"] =
      .ok ⟨some "bin", some "c", ["5"], [⟨"x", "help"⟩]⟩ ∧
    parseUserInput ["bin", "c", "-x"] = .error "missing value for flag \"x\"" ∧
    parseUserInput ["bin", "c", "-x", "--help"] =
      .ok ⟨some "bin", some "c", [], [⟨"x", "--help"⟩]⟩ := by
  decide

/-- C12, amended. Inserting one of the help aliases `help`, `-h`, `--help` at
a position where the tokenizer examines a token leaves its outcome unchanged;
inserted right after an option name that waits for its value, the alias is
taken as that value. -/
theorem C12_insert_alias (pre post : List String) (a : String)
    (halias : a = "help" ∨ a = "-h" ∨ a = "--help") :
    (endsPending pre = false →
      parseUserInput (pre ++ a :: post) = parseUserInput (pre ++ post)) ∧
    (endsPending pre = true →
      ∃ p n acc1, pre = p ++ [n] ∧ scanArgs p ⟨none, none, [], []⟩ = .ok acc1 ∧
        parseUserInput (pre ++ a :: post) =
          (scanArgs post { acc1 with flags := acc1.flags ++ [⟨TrimPrefix n "-", a⟩] }).bind
            fun input => .ok (splitCommand input)) := by
  have hskip : startsOption a = true ∧ isHelpAlias a = true := by
    rcases halias with h | h | h <;> subst h <;> exact ⟨by decide, by decide⟩
  constructor
  · intro hp
    obtain ⟨acc1, _, h2⟩ := scanArgs_split pre ⟨none, none, [], []⟩ hp
    simp only [parseUserInput]
    rw [h2, h2, scanArgs_alias a post acc1 hskip.1 hskip.2]
  · intro hp
    obtain ⟨p, n, hsplit, hpp, hs, hal⟩ := (endsPending_iff pre).1 hp
    obtain ⟨acc1, h1, h2⟩ := scanArgs_split p ⟨none, none, [], []⟩ hpp
    refine ⟨p, n, acc1, hsplit, h1, ?_⟩
    simp only [parseUserInput]
    rw [hsplit, List.append_assoc, h2]
    simp only [List.singleton_append]
    rw [scanArgs_pair n a post acc1 hs hal]

/-- C12, amended, on a concrete vector: `--help` inserted before the option. -/
theorem C12_witness :
    endsPending ["bin", "c"] = false ∧
    parseUserInput (["bin", "c"] ++ "--help" :: ["-x", "5"]) =
      parseUserInput (["bin", "c"] ++ ["-x", "5"]) :=
  ⟨by decide, (C12_insert_alias ["bin", "c"] ["-x", "5"] "--help" (Or.inr (Or.inr rfl))).1
    (by decide)⟩

/-! ## The annotations of the test fixture -/

/-- C11 fails on the test fixture itself. The annotation of the header of
`TestStruct` has no `|`, so it is one segment, and schema derivation aborts
with `command missing usage`: `Parse` on `TestStruct` aborts for every
argument vector, in particular for the two vectors of the claim, where the
same template written with `|` gives the error and the record that the tests
ask for. -/
theorem C11_failing_input :
    Split "testcmd,Test command" '|' = ["testcmd,Test command"] ∧
    (∀ (L : StdLib) (o : MapOrder) (args : List String),
      Parse L o [TestStruct] args = .abort "command missing usage\n") ∧
    Parse sampleLib insertionOrder [TestStruct] ["cmd", "invalidcmd"] =
      .abort "command missing usage\n" ∧
    Parse sampleLib insertionOrder [TestStruct] allFlagsAndArguments =
      .abort "command missing usage\n" ∧
    (match Parse sampleLib insertionOrder [TestStructPiped] ["cmd", "invalidcmd"] with
      | .error msg => containsText msg.data "unrecognized command".data
      | _ => false) = true ∧
    (Parse sampleLib insertionOrder [TestStructPiped] allFlagsAndArguments).field "FlagInt" =
      some (Value.ref (Value.int 42)) := by
  have h : ∀ (L : StdLib) (o : MapOrder) (args : List String),
      Parse L o [TestStruct] args = .abort "command missing usage\n" := by
    intro L o args
    have hd : parseCommandDefs L [TestStruct] = .abort "command missing usage\n" := by
      simp only [parseCommandDefs, TestStruct, deriveCommand, deriveFields, deriveField]
      rfl
    simp only [Parse, hd, bind_abort]
  exact ⟨by decide, h, h _ _ _, h _ _ _, by decide, by decide⟩

/-! ## Derived names and rendered type names -/

theorem kebabLoop_pos (rs : List Char) :
    ∀ i pos : Nat, 0 < i → 0 < pos → kebabLoop i rs = hyphenate asciiUpper pos rs := by
  induction rs with
  | nil => intro i pos _ _; rfl
  | cons r rs ih =>
    intro i pos hi hpos
    have hne : pos ≠ 0 := Nat.pos_iff_ne_zero.1 hpos
    simp only [kebabLoop, hyphenate, asciiUpper, hi, hne, true_and, ne_eq, not_false_eq_true,
      decide_True, Bool.and_true, decide_eq_true_eq]
    rw [ih (i + r.utf8Size) (pos + 1) (by omega) (by omega)]

theorem kebabLoop_zero (rs : List Char) : kebabLoop 0 rs = hyphenate asciiUpper 0 rs := by
  cases rs with
  | nil => rfl
  | cons r rs =>
    have hr : 0 < r.utf8Size := Char.utf8Size_pos r
    simp only [kebabLoop, hyphenate, Nat.lt_irrefl, false_and, if_false, ne_eq, not_true_eq_false,
      decide_False, Bool.and_false, Bool.false_eq_true, Nat.zero_add]
    rw [kebabLoop_pos rs r.utf8Size 1 hr (by omega)]

theorem toKebabCase_eq (L : StdLib) (s : String) :
    toKebabCase L s = kebabSpec asciiUpper L s := by
  simp only [toKebabCase, kebabSpec, kebabLoop_zero]

theorem hasPrefix_append (p k : String) : HasPrefix (p ++ k) p = true := by
  simp [HasPrefix, String.data_append]

theorem trimPrefix_append (p k : String) : TrimPrefix (p ++ k) p = k := by
  simp [TrimPrefix, hasPrefix_append, String.data_append]

theorem dropWhile_star_of_head {cs : List Char} (h : cs.head? ≠ some '*') :
    cs.dropWhile (· = '*') = cs := by
  cases cs with
  | nil => rfl
  | cons c cs =>
    have hc : c ≠ '*' := by
      intro hc
      exact h (by simp [hc])
    simp [List.dropWhile, hc]

theorem trim_of_noStar {t : String} (h : noStarAtEnds t = true) : Trim t '*' = t := by
  simp only [noStarAtEnds, Bool.and_eq_true, bne_iff_ne, ne_eq] at h
  have h1 := dropWhile_star_of_head h.1
  have h2 : (t.data.reverse).dropWhile (· = '*') = t.data.reverse :=
    dropWhile_star_of_head (by rw [List.head?_reverse]; exact h.2)
  simp only [Trim, h1, h2, List.reverse_reverse]

theorem trim_star_append (t : String) : Trim ("*" ++ t) '*' = Trim t '*' := by
  simp [Trim, String.data_append, List.dropWhile]

/-- C17 as stated fails for identifiers with an upper-case letter outside
ASCII: in the exported identifier `AÉ` the letter `É` is upper case and not at
position 0, yet no hyphen is put before it. -/
theorem C17_counterexample :
    toKebabCase sampleLib "AÉ" = "aé" ∧
    (∀ upper : Char → Bool, upper 'É' = true → kebabSpec upper sampleLib "AÉ" = "a-é") ∧
    sampleLib.toLower "A-É" = "a-é" := by
  refine ⟨by decide, ?_, by decide⟩
  intro upper h
  have hs : hyphenate upper 0 "AÉ".data = "A-É".data := by
    have hd : "AÉ".data = ['A', 'É'] := by decide
    rw [hd]
    simp only [hyphenate, h, ne_eq, not_true_eq_false, decide_False, Bool.and_false,
      Bool.false_eq_true, if_false, Nat.zero_add, Nat.one_ne_zero, not_false_eq_true, decide_True,
      Bool.and_true, if_true]
    decide
  simp only [kebabSpec, hs]
  decide

/-- C17, amended. For every field identifier `s`, `toKebabCase s` is the lower
case of the text that has a hyphen before every upper-case letter of ASCII
(`A` to `Z`) that is not at position 0: `FlagInt2` gives `flag-int2`,
`FlagDur` gives `flag-dur`.  The option derived from a pointer field is stored
under exactly that name, and every entry of the option mapping of a derived
schema is stored under the name derived from its field. -/
theorem C17_kebab_case (L : StdLib) (s : String) :
    toKebabCase L s = kebabSpec asciiUpper L s ∧
    toKebabCase L "FlagInt2" = L.toLower "Flag-Int2" ∧
    toKebabCase L "FlagDur" = L.toLower "Flag-Dur" ∧
    toKebabCase sampleLib "FlagInt2" = "flag-int2" ∧
    toKebabCase sampleLib "FlagDur" = "flag-dur" ∧
    (∀ (cmd : commandDef) (f : Field), isOption f = true → fieldOk f = true →
      ∃ cmd1, deriveField L cmd f = .ok cmd1 ∧
        cmd1.flags.get (kebabSpec asciiUpper L f.name) = some (flagOf f) ∧
        (flagOf f).field = f.name) ∧
    (∀ (t : Template) (d : commandDef), deriveCommand L t = .ok d →
      (∀ f ∈ d.value, isOption f = true →
        ∃ fd, d.flags.get (kebabSpec asciiUpper L f.name) = some fd) ∧
      (∀ e ∈ d.flags, ∃ f ∈ d.value, isOption f = true ∧
        e.1 = kebabSpec asciiUpper L f.name ∧ e.2 = flagOf f ∧ e.2.field = f.name)) := by
  refine ⟨toKebabCase_eq L s, ?_, ?_, by decide, by decide, ?_, ?_⟩
  · rw [toKebabCase_eq]
    have h : hyphenate asciiUpper 0 "FlagInt2".data = "Flag-Int2".data := by decide
    simp only [kebabSpec, h]
  · rw [toKebabCase_eq]
    have h : hyphenate asciiUpper 0 "FlagDur".data = "Flag-Dur".data := by decide
    simp only [kebabSpec, h]
  · intro cmd f hopt hok
    rcases deriveField_cases L cmd f with ⟨hh, _⟩ | ⟨_, _, hd⟩ | ⟨ha, _⟩ | ⟨hbad, _⟩
    · rcases role_cases f with ⟨_, h2, _⟩ | ⟨h1, _, _⟩ | ⟨h1, _, _⟩
      · rw [h2] at hopt; cases hopt
      · rw [h1] at hh; cases hh
      · rw [h1] at hh; cases hh
    · refine ⟨_, hd, ?_, flagOf_field f⟩
      rw [← toKebabCase_eq]
      exact get_set_self _ _ _
    · rcases role_cases f with ⟨_, h2, _⟩ | ⟨_, _, h3⟩ | ⟨_, h2, _⟩
      · rw [h2] at hopt; cases hopt
      · rw [h3] at ha; cases ha
      · rw [h2] at hopt; cases hopt
    · rw [hok] at hbad; cases hbad
  · intro t d hd
    have hder := deriveCommand_ok hd
    constructor
    · intro f hf hopt
      have hmem : f ∈ d.value.filter isOption := List.mem_filter.2 ⟨hf, hopt⟩
      obtain ⟨g, _, _, hget⟩ := get_optionMap_of_mem L hmem
      refine ⟨flagOf g, ?_⟩
      rw [← toKebabCase_eq, hder.flags]
      exact hget
    · intro e he
      have hnodup : (d.flags.map (·.1)).Nodup := by
        rw [hder.flags]
        exact keys_optionMap_nodup L (by simp) _
      have hget := get_of_mem hnodup he
      rw [hder.flags] at hget
      rcases get_optionMap_some hget with ⟨f, hf, hk, hfd⟩ | hnone
      · have hf2 := List.mem_filter.1 hf
        refine ⟨f, hf2.1, hf2.2, ?_, hfd, ?_⟩
        · rw [← toKebabCase_eq]
          exact hk.symm
        · rw [hfd]
          exact flagOf_field f
      · simp [FlagMap.get] at hnone

/-- C18 as stated fails for a named type of another package: only the prefix
`time.` is cut, so `pkg.Level` is rendered as `pkg.level`, in the row too. -/
theorem C18_counterexample :
    renderType sampleLib "pkg.Level" = "pkg.level" ∧
    renderType sampleLib "pkg.Level" ≠ "level" ∧
    formatTable sampleLib [⟨"<level>", "The level", some "pkg.Level", none⟩] =
      .ok "    <level>.......The level    pkg.level\n\n" := by
  decide

/-- C18, amended. Every row rendered with a type annotation shows, after the
padded value, the declared type name without the `*` at its start and end,
without the prefix `time.`, in lower case; any other package prefix is kept.
So `*time.Duration` renders as `duration`, `*int` as `int`, and a named type
`pkg.Level` as `pkg.level`. -/
theorem C18_rendered_type (L : StdLib) :
    (∀ (lk lv ld : Nat) (r : row) (dt line : String), formatRow L lk lv ld r = .ok line →
      r.datatype = some dt →
      ∃ tabs pad : String, line = tabs ++ r.key ++ "......." ++ padRight r.value (lv + 4) ++
        renderType L dt ++ pad ++ defaultNote r.defaultValue ++ "\n") ∧
    (∀ t, renderType L ("*" ++ t) = renderType L t) ∧
    (∀ base, noStarAtEnds ("time." ++ base) = true →
      renderType L ("time." ++ base) = L.toLower base) ∧
    (∀ t, noStarAtEnds t = true → HasPrefix t "time." = false → renderType L t = L.toLower t) ∧
    renderType L "*time.Duration" = L.toLower "Duration" ∧
    renderType L "*int" = L.toLower "int" ∧
    renderType L "pkg.Level" = L.toLower "pkg.Level" ∧
    renderType sampleLib "*time.Duration" = "duration" ∧
    renderType sampleLib "*int" = "int" ∧
    renderType sampleLib "pkg.Level" = "pkg.level" := by
  have hstar : ∀ t, renderType L ("*" ++ t) = renderType L t := by
    intro t
    simp only [renderType, trim_star_append]
  have htime : ∀ base, noStarAtEnds ("time." ++ base) = true →
      renderType L ("time." ++ base) = L.toLower base := by
    intro base h
    simp only [renderType, trim_of_noStar h, trimPrefix_append]
  have hother : ∀ t, noStarAtEnds t = true → HasPrefix t "time." = false →
      renderType L t = L.toLower t := by
    intro t h hp
    simp only [renderType, trim_of_noStar h, TrimPrefix, hp, Bool.false_eq_true, if_false]
  refine ⟨?_, hstar, htime, hother, ?_, ?_, ?_, by decide, by decide, by decide⟩
  · intro lk lv ld r dt line hline hdt
    simp only [formatRow, hdt] at hline
    obtain ⟨tabs, _, hrest⟩ := bind_eq_ok hline
    obtain ⟨pad, _, hlast⟩ := bind_eq_ok hrest
    refine ⟨tabs, pad, ?_⟩
    cases hdv : r.defaultValue with
    | none =>
      rw [hdv] at hlast
      simp only [Outcome.ok.injEq] at hlast
      rw [← hlast]
      simp [defaultNote, String.append_assoc]
    | some d =>
      rw [hdv] at hlast
      simp only [Outcome.ok.injEq] at hlast
      rw [← hlast]
      simp [defaultNote, String.append_assoc]
  · rw [show "*time.Duration" = "*" ++ ("time." ++ "Duration") from by decide, hstar,
      htime _ (by decide)]
  · rw [show "*int" = "*" ++ "int" from by decide, hstar, hother _ (by decide) (by decide)]
  · exact hother _ (by decide) (by decide)

/-! ## The order of the option mapping -/

theorem runCalls_skip (L : StdLib) (slot : Slot) (cs : List (String × String))
    (h : ∀ c ∈ cs, slot.field.name ≠ c.1) (rest : Instance) :
    runCalls L cs (slot :: rest) = (runCalls L cs rest).map (slot :: ·) := by
  induction cs generalizing rest with
  | nil => rfl
  | cons c cs ih =>
    have hc : slot.field.name ≠ c.1 := h c (List.mem_cons_self _ _)
    simp only [runCalls, setField, hc, if_false]
    cases hs : setField L rest c.1 c.2 with
    | abort m => rfl
    | error m => rfl
    | ok rest1 =>
      simp only [bind_ok]
      exact ih (fun c1 hc1 => h c1 (List.mem_cons_of_mem _ hc1)) rest1

theorem runCalls_head (L : StdLib) (slot : Slot) (rest : Instance) (n v : String)
    (h : slot.field.name = n) :
    runCalls L [(n, v)] (slot :: rest) =
      if slot.field.exported then
        match fieldValue L slot.field.type v with
        | .ok x => some (⟨slot.field, x⟩ :: rest)
        | _ => none
      else none := by
  simp only [runCalls, setField, h, if_true]
  cases he : slot.field.exported with
  | false => simp
  | true =>
    cases hv : fieldValue L slot.field.type v with
    | abort m => simp
    | error m => simp
    | ok x => simp

/-- Two calls of `setField` on fields of different names give the same record
in either order. -/
theorem runCalls_swap (L : StdLib) {n1 n2 : String} (v1 v2 : String) (h : n1 ≠ n2) :
    ∀ inst, runCalls L [(n1, v1), (n2, v2)] inst = runCalls L [(n2, v2), (n1, v1)] inst := by
  have hhead : ∀ (a b : String) (va vb : String) (slot : Slot) (rest : Instance), a ≠ b →
      slot.field.name = a →
      runCalls L [(a, va), (b, vb)] (slot :: rest) =
        runCalls L [(b, vb), (a, va)] (slot :: rest) := by
    intro a b va vb slot rest hab ha
    have hb : ∀ c ∈ [(b, vb)], slot.field.name ≠ c.1 := by
      intro c hc
      simp only [List.mem_singleton] at hc
      rw [hc, ha]
      exact hab
    have hl : runCalls L [(a, va), (b, vb)] (slot :: rest) =
        (runCalls L [(a, va)] (slot :: rest)).bind (runCalls L [(b, vb)]) :=
      runCalls_append L [(a, va)] [(b, vb)] _
    have hr : runCalls L [(b, vb), (a, va)] (slot :: rest) =
        (runCalls L [(b, vb)] (slot :: rest)).bind (runCalls L [(a, va)]) :=
      runCalls_append L [(b, vb)] [(a, va)] _
    rw [hl, hr, runCalls_head L slot rest a va ha, runCalls_skip L slot _ hb rest]
    cases he : slot.field.exported with
    | false =>
      cases hrest : runCalls L [(b, vb)] rest with
      | none => simp
      | some r1 => simp [runCalls_head L slot r1 a va ha, he]
    | true =>
      cases hv : fieldValue L slot.field.type va with
      | abort m =>
        cases hrest : runCalls L [(b, vb)] rest with
        | none => simp
        | some r1 => simp [runCalls_head L slot r1 a va ha, he, hv]
      | error m =>
        cases hrest : runCalls L [(b, vb)] rest with
        | none => simp
        | some r1 => simp [runCalls_head L slot r1 a va ha, he, hv]
      | ok x =>
        have hb2 : ∀ c ∈ [(b, vb)], (⟨slot.field, x⟩ : Slot).field.name ≠ c.1 := hb
        simp only [if_true, Option.some_bind]
        rw [runCalls_skip L ⟨slot.field, x⟩ _ hb2 rest]
        cases hrest : runCalls L [(b, vb)] rest with
        | none => simp
        | some r1 => simp [runCalls_head L slot r1 a va ha, he, hv]
  intro inst
  induction inst with
  | nil => simp [runCalls, setField]
  | cons slot rest ih =>
    by_cases h1 : slot.field.name = n1
    · exact hhead n1 n2 v1 v2 slot rest h h1
    · by_cases h2 : slot.field.name = n2
      · exact (hhead n2 n1 v2 v1 slot rest (fun e => h e.symm) h2).symm
      · rw [runCalls_skip L slot _ (by
            intro c hc
            simp only [List.mem_cons, List.mem_singleton, List.not_mem_nil, or_false] at hc
            rcases hc with hc | hc <;> rw [hc] <;> assumption) rest,
          runCalls_skip L slot _ (by
            intro c hc
            simp only [List.mem_cons, List.mem_singleton, List.not_mem_nil, or_false] at hc
            rcases hc with hc | hc <;> rw [hc] <;> assumption) rest, ih]

/-- Calls of `setField` on fields of pairwise different names give the same
record in every order. -/
theorem runCalls_perm (L : StdLib) {cs1 cs2 : List (String × String)} (hp : cs1.Perm cs2)
    (hn : (cs1.map (·.1)).Nodup) : ∀ inst, runCalls L cs1 inst = runCalls L cs2 inst := by
  induction hp with
  | nil => intro inst; rfl
  | cons x _ ih =>
    intro inst
    simp only [List.map_cons, List.nodup_cons] at hn
    simp only [runCalls]
    cases hs : setField L inst x.1 x.2 with
    | abort m => rfl
    | error m => rfl
    | ok inst1 => exact ih hn.2 inst1
  | swap x y l =>
    intro inst
    simp only [List.map_cons, List.nodup_cons, List.mem_cons, not_or] at hn
    have h1 : runCalls L (y :: x :: l) inst =
        (runCalls L [y, x] inst).bind (runCalls L l) := runCalls_append L [y, x] l inst
    have h2 : runCalls L (x :: y :: l) inst =
        (runCalls L [x, y] inst).bind (runCalls L l) := runCalls_append L [x, y] l inst
    rw [h1, h2, runCalls_swap L y.2 x.2 hn.1.1 inst]
  | trans p1 _ ih1 ih2 =>
    intro inst
    rw [ih1 hn inst]
    exact ih2 (((p1.map (·.1)).nodup_iff).1 hn) inst

theorem defaultCalls_names_sublist (m : FlagMap) :
    ((defaultCalls m).map (·.1)).Sublist (m.map (·.2.field)) := by
  induction m with
  | nil => exact List.Sublist.slnil
  | cons e m ih =>
    cases hd : e.2.defaultValue with
    | none =>
      have : defaultCalls (e :: m) = defaultCalls m := by
        simp [defaultCalls, List.filterMap_cons, hd]
      rw [this]
      exact List.Sublist.cons _ ih
    | some dv =>
      have : defaultCalls (e :: m) = (e.2.field, dv) :: defaultCalls m := by
        simp [defaultCalls, List.filterMap_cons, hd]
      rw [this]
      exact List.Sublist.cons₂ _ ih

/-- No two entries of the option mapping of a derived schema name the same
field. -/
theorem flags_fields_nodup {L : StdLib} {t : Template} {d : commandDef}
    (h : deriveCommand L t = .ok d) : (d.flags.map (·.2.field)).Nodup := by
  have hder := deriveCommand_ok h
  have hnodup : (d.flags.map (·.1)).Nodup := by
    rw [hder.flags]
    exact keys_optionMap_nodup L (by simp) _
  have hkey : ∀ e ∈ d.flags, e.1 = toKebabCase L e.2.field := by
    intro e he
    have hget := get_of_mem hnodup he
    rw [hder.flags] at hget
    rcases get_optionMap_some hget with ⟨f, _, hk, hfd⟩ | hnone
    · rw [hfd, flagOf_field, hk]
    · simp [FlagMap.get] at hnone
  have hmap : d.flags.map (·.1) = (d.flags.map (·.2.field)).map (toKebabCase L) := by
    rw [List.map_map]
    exact List.map_congr_left hkey
  rw [hmap] at hnodup
  exact List.Nodup.of_map _ hnodup

theorem defaultCalls_perm (L : StdLib) (o1 o2 : MapOrder) {t : Template} {d : commandDef}
    (h : deriveCommand L t = .ok d) (inst : Instance) :
    runCalls L (defaultCalls (o1.enum d.flags)) inst =
      runCalls L (defaultCalls (o2.enum d.flags)) inst := by
  have hp : (o1.enum d.flags).Perm (o2.enum d.flags) := (o1.perm _).trans (o2.perm _).symm
  have hn : ((o1.enum d.flags).map (·.2.field)).Nodup :=
    (((o1.perm d.flags).map (·.2.field)).nodup_iff).2 (flags_fields_nodup h)
  exact runCalls_perm L (hp.filterMap _) ((defaultCalls_names_sublist _).nodup hn) inst

theorem Parse_ok_order {L : StdLib} {o1 : MapOrder} (o2 : MapOrder) {commands : List Template}
    {args : List String} {r : Instance} (h : Parse L o1 commands args = .ok r) :
    Parse L o2 commands args = .ok r := by
  obtain ⟨defs, input, command, d, hdefs, hinput, hcmd, hfind, hfill⟩ := Parse_ok h
  obtain ⟨pre, post, hsplit, _, _⟩ := findCommand_some hfind
  obtain ⟨t, _, ht⟩ := parseCommandDefs_mem hdefs (d := d) (by rw [hsplit]; simp)
  rw [Parse_eq_fill hdefs hinput hcmd hfind]
  obtain ⟨ha, hf, hrun⟩ := (fillCommand_ok_iff L o1 d input r).1 hfill
  refine (fillCommand_ok_iff L o2 d input r).2 ⟨ha, hf, ?_⟩
  rw [← hrun]
  simp only [parseCalls, runCalls_append]
  cases runCalls L (argumentCalls d.arguments input.arguments) (New d.value) with
  | none => rfl
  | some inst1 =>
    simp only [Option.some_bind]
    rw [defaultCalls_perm L o2 o1 ht inst1]

/-- C14 as stated fails in its last part: the order of the option mapping
shows not only in the order of the option rows of a help text.  When two
defaults cannot be stored, the message of the failure names the one that is
enumerated first. -/
theorem C14_counterexample :
    Parse sampleLib insertionOrder [TwoDefaultsStruct] ["bin", "c"] =
      .error "unable to set default flag field \"First\" to \"x\"" ∧
    Parse sampleLib reverseOrder [TwoDefaultsStruct] ["bin", "c"] =
      .error "unable to set default flag field \"Second\" to \"y\"" := by
  decide

/-- C14, amended. For fixed templates and a fixed argument vector, whether
`Parse` succeeds and the record it returns on success are the same for every
order in which the option mapping is enumerated. -/
theorem C14_order_independent (L : StdLib) (o1 o2 : MapOrder) (commands : List Template)
    (args : List String) :
    (∀ r, Parse L o1 commands args = .ok r ↔ Parse L o2 commands args = .ok r) ∧
    (Parse L o1 commands args).isOk = (Parse L o2 commands args).isOk := by
  have hiff : ∀ r, Parse L o1 commands args = .ok r ↔ Parse L o2 commands args = .ok r :=
    fun r => ⟨Parse_ok_order o2, Parse_ok_order o1⟩
  refine ⟨hiff, ?_⟩
  cases h1 : Parse L o1 commands args with
  | ok r => rw [(hiff r).1 h1]
  | abort m =>
    cases h2 : Parse L o2 commands args with
    | ok r => rw [(hiff r).2 h2] at h1; cases h1
    | abort m2 => rfl
    | error m2 => rfl
  | error m =>
    cases h2 : Parse L o2 commands args with
    | ok r => rw [(hiff r).2 h2] at h1; cases h1
    | abort m2 => rfl
    | error m2 => rfl

/-! ## The rows of the detail text -/

theorem set_of_not_mem (m : FlagMap) (k : String) (v : flagDef) (h : ∀ e ∈ m, e.1 ≠ k) :
    m.set k v = m ++ [(k, v)] := by
  have hf : m.filter (fun e => e.1 != k) = m :=
    List.filter_eq_self.2 (fun e he => by simpa using h e he)
  simp only [FlagMap.set, hf]

/-- When the option fields derive pairwise different names, the option
mapping has one entry for each of them, in the order of declaration. -/
theorem optionMap_of_nodup (L : StdLib) (opts : List Field) :
    ∀ m : FlagMap, (opts.map fun f => toKebabCase L f.name).Nodup →
      (∀ e ∈ m, ∀ f ∈ opts, e.1 ≠ toKebabCase L f.name) →
      optionMap L m opts = m ++ opts.map fun f => (toKebabCase L f.name, flagOf f) := by
  induction opts with
  | nil => intro m _ _; simp [optionMap]
  | cons f opts ih =>
    intro m hn hm
    simp only [List.map_cons, List.nodup_cons, List.mem_map, not_exists, not_and] at hn
    rw [optionMap_cons, set_of_not_mem m _ _ (fun e he => hm e he f (List.mem_cons_self _ _))]
    rw [ih _ hn.2 (by
      intro e he g hg
      rcases List.mem_append.1 he with he | he
      · exact hm e he g (List.mem_cons_of_mem _ hg)
      · simp only [List.mem_singleton] at he
        rw [he]
        exact fun heq => hn.1 g hg heq.symm)]
    simp

theorem flagOf_datatype (f : Field) : (flagOf f).datatype = f.type.typeString := by
  unfold flagOf
  split <;> rfl

/-- The rendered rows are the lines of the rows, one after the other. -/
theorem formatRows_lines {L : StdLib} {lk lv ld : Nat} {rows : List row} {text : String}
    (h : formatRows L lk lv ld rows = .ok text) :
    ∃ lines, List.Forall₂ (fun r line => formatRow L lk lv ld r = .ok line) rows lines ∧
      text = joinLines lines := by
  induction rows generalizing text with
  | nil =>
    simp only [formatRows, Outcome.ok.injEq] at h
    exact ⟨[], List.Forall₂.nil, h.symm⟩
  | cons r rows ih =>
    simp only [formatRows] at h
    obtain ⟨line, hline, hrest⟩ := bind_eq_ok h
    obtain ⟨rest, hrows, hlast⟩ := bind_eq_ok hrest
    obtain ⟨lines, hall, htext⟩ := ih hrows
    simp only [Outcome.ok.injEq] at hlast
    exact ⟨line :: lines, List.Forall₂.cons hline hall, by rw [← hlast, htext]; rfl⟩

/-- C13 as stated fails for a well-formed template with two option fields of
the same derived name: `AÉ` and `Aé` both derive `aé`, and the detail text has
one row and one entry in the invocation line for the two declared options. -/
theorem C13_counterexample :
    wellFormed AccentStruct = true ∧
    (match parseCommandDefs sampleLib [AccentStruct] with
      | .ok [d] => some (detailRows insertionOrder d, helpCommandDetails sampleLib insertionOrder d)
      | _ => none) =
      some ([⟨"[-aé]", "Another option", some "*int", none⟩],
        .ok "\nusage: c [-aé] \n\n    [-aé].......Another option    int \n\n") ∧
    (match AccentStruct with
      | .struct fields => (fields.filter isArgument).length + (fields.filter isOption).length
      | _ => 0) = 2 := by
  decide

/-! ## ASCII text -/

theorem ascii_cases (P : Char → Prop) (h : ∀ n, n < 128 → P (Char.ofNat n)) (c : Char)
    (hc : isAsciiRune c = true) : P c := by
  rw [← Char.ofNat_toNat c]
  exact h _ (by simpa [isAsciiRune] using hc)

theorem utf8Size_ascii (c : Char) (hc : isAsciiRune c = true) : c.utf8Size = 1 :=
  ascii_cases (fun c => c.utf8Size = 1) (by decide) c hc

theorem asciiLowerRune_ascii (c : Char) (hc : isAsciiRune c = true) :
    isAsciiRune (asciiLowerRune c) = true :=
  ascii_cases (fun c => isAsciiRune (asciiLowerRune c) = true) (by decide) c hc

theorem sampleLowerRune_ascii (c : Char) (hc : isAsciiRune c = true) :
    sampleLowerRune c = asciiLowerRune c :=
  ascii_cases (fun c => sampleLowerRune c = asciiLowerRune c) (by decide) c hc

/-- The library of the examples lowers ASCII text as `strings.ToLower`. -/
theorem sampleLib_lowersAscii : lowersAscii sampleLib := by
  intro s hs
  simp only [isAscii, List.all_eq_true] at hs
  show (⟨s.data.map sampleLowerRune⟩ : String) = ⟨s.data.map asciiLowerRune⟩
  rw [List.map_congr_left (fun c hc => sampleLowerRune_ascii c (hs c hc))]

theorem byteSize_ascii (cs : List Char) (h : cs.all isAsciiRune = true) :
    String.utf8ByteSize.go cs = cs.length := by
  induction cs with
  | nil => rfl
  | cons c cs ih =>
    simp only [List.all_cons, Bool.and_eq_true] at h
    simp only [String.utf8ByteSize.go, ih h.2, utf8Size_ascii c h.1, List.length_cons]

/-- The length in bytes of ASCII text is its number of runes. -/
theorem len_ascii {s : String} (h : isAscii s = true) : len s = runeCount s := by
  rcases s with ⟨cs⟩
  exact byteSize_ascii cs h

theorem runeCount_append (a b : String) : runeCount (a ++ b) = runeCount a + runeCount b := by
  simp [runeCount, String.data_append]

theorem runeCount_spaces (n : Nat) : runeCount ⟨List.replicate n ' '⟩ = n := by
  simp [runeCount]

theorem all_of_sublist {p : Char → Bool} {l1 l2 : List Char} (hs : l1.Sublist l2)
    (h : l2.all p = true) : l1.all p = true := by
  simp only [List.all_eq_true] at h ⊢
  exact fun c hc => h c (hs.subset hc)

theorem trim_sublist (s : String) (cut : Char) : (Trim s cut).data.Sublist s.data := by
  simp only [Trim]
  have h1 : ((s.data.dropWhile (· = cut)).reverse.dropWhile (· = cut)).Sublist
      (s.data.dropWhile (· = cut)).reverse := (List.dropWhile_suffix _).sublist
  have h2 := List.reverse_sublist.2 h1
  rw [List.reverse_reverse] at h2
  exact h2.trans (List.dropWhile_suffix _).sublist

theorem trimPrefix_sublist (s p : String) : (TrimPrefix s p).data.Sublist s.data := by
  simp only [TrimPrefix]
  split
  · exact List.drop_sublist _ _
  · exact List.Sublist.refl _

/-- Under a library that lowers ASCII text as `strings.ToLower`, the rendered
name of an ASCII type name is ASCII text and not longer than the name. -/
theorem renderType_ascii {L : StdLib} (hlib : lowersAscii L) {dt : String}
    (h : isAscii dt = true) :
    isAscii (renderType L dt) = true ∧ len (renderType L dt) ≤ len dt := by
  have hsub : (TrimPrefix (Trim dt '*') "time.").data.Sublist dt.data :=
    (trimPrefix_sublist _ _).trans (trim_sublist _ _)
  have hascii : isAscii (TrimPrefix (Trim dt '*') "time.") = true := all_of_sublist hsub h
  have hlow : renderType L dt =
      ⟨(TrimPrefix (Trim dt '*') "time.").data.map asciiLowerRune⟩ := hlib _ hascii
  have hres : isAscii (renderType L dt) = true := by
    rw [hlow]
    simp only [isAscii, List.all_eq_true, List.mem_map] at hascii ⊢
    rintro c ⟨b, hb, rfl⟩
    exact asciiLowerRune_ascii b (hascii b hb)
  refine ⟨hres, ?_⟩
  rw [len_ascii hres, len_ascii h, hlow]
  simp only [runeCount, List.length_map]
  exact hsub.length_le

/-- A row whose key is not longer than `lk` and whose rendered type is not
longer than `ld` is rendered as the aligned line. -/
theorem formatRow_aligned (L : StdLib) (lk lv ld : Nat) (r : row) (hk : len r.key ≤ lk)
    (hd : ∀ dt, r.datatype = some dt → len (renderType L dt) ≤ ld) :
    formatRow L lk lv ld r = .ok (alignedLine L lk lv ld r) := by
  have hint : (4 + (lk : Int) - (len r.key : Int)) = ((4 + lk - len r.key : Nat) : Int) := by
    omega
  have hshown : ∀ t, shownType L t = renderType L t := fun _ => rfl
  simp only [formatRow, alignedLine, typeNote, hshown, hint, Repeat_space, bind_ok]
  cases hdt : r.datatype with
  | none => simp
  | some dt =>
    have hle := hd dt hdt
    have hint2 : ((ld : Int) - (len (renderType L dt) : Int)) =
        ((ld - len (renderType L dt) : Nat) : Int) := by omega
    simp only [hint2, Repeat_space, bind_ok]
    cases r.defaultValue <;> simp [defaultNote, String.append_assoc]

theorem formatRows_aligned (L : StdLib) (lk lv ld : Nat) (rows : List row)
    (h : ∀ r ∈ rows, len r.key ≤ lk ∧
      ∀ dt, r.datatype = some dt → len (renderType L dt) ≤ ld) :
    formatRows L lk lv ld rows = .ok (joinLines (rows.map (alignedLine L lk lv ld))) := by
  induction rows with
  | nil => rfl
  | cons r rows ih =>
    simp only [formatRows, formatRow_aligned L lk lv ld r (h r (List.mem_cons_self _ _)).1
      (h r (List.mem_cons_self _ _)).2, ih (fun q hq => h q (List.mem_cons_of_mem _ hq)),
      bind_ok, List.map_cons, joinLines]

theorem len_value_le_longestValue {rows : List row} {r : row} (h : r ∈ rows) :
    len r.value ≤ longestValue rows :=
  (foldl_longest_le (fun r => len r.value) rows 0).2 r h

/-! ## Derived names of ASCII identifiers -/

theorem asciiLowerRune_of_not_upper {c : Char} (h : asciiUpper c = false) :
    asciiLowerRune c = c := by
  simp only [asciiUpper, decide_eq_false_iff_not] at h
  simp only [asciiLowerRune, h, if_false]

/-- Lowering is one to one on the upper-case letters of ASCII. -/
theorem asciiLowerRune_inj {c d : Char} (hc : isAsciiRune c = true) (hd : isAsciiRune d = true)
    (uc : asciiUpper c = true) (ud : asciiUpper d = true)
    (h : asciiLowerRune c = asciiLowerRune d) : c = d := by
  have key : ∀ x, isAsciiRune x = true → asciiUpper x = true →
      Char.ofNat ((asciiLowerRune x).toNat - 32) = x := fun x hx =>
    ascii_cases (fun x => asciiUpper x = true → Char.ofNat ((asciiLowerRune x).toNat - 32) = x)
      (by decide) x hx
  calc c = Char.ofNat ((asciiLowerRune c).toNat - 32) := (key c hc uc).symm
    _ = Char.ofNat ((asciiLowerRune d).toNat - 32) := by rw [h]
    _ = d := key d hd ud

theorem isIdentRune_ascii {c : Char} (h : isIdentRune c = true) : isAsciiRune c = true := by
  simp only [isIdentRune, Bool.and_eq_true] at h
  exact h.1

theorem hyphenate_cons_pos (upper : Char → Bool) (p : Nat) (hp : 0 < p) (c : Char)
    (cs : List Char) :
    hyphenate upper p (c :: cs) =
      (if upper c then ['-', c] else [c]) ++ hyphenate upper (p + 1) cs := by
  have hne : p ≠ 0 := Nat.pos_iff_ne_zero.1 hp
  simp only [hyphenate, hne, ne_eq, not_false_eq_true, decide_True, Bool.and_true]

theorem hyphenate_ascii (cs : List Char) :
    ∀ p : Nat, cs.all isIdentRune = true →
      (hyphenate asciiUpper p cs).all isAsciiRune = true := by
  induction cs with
  | nil => intro p _; rfl
  | cons c cs ih =>
    intro p h
    simp only [List.all_cons, Bool.and_eq_true] at h
    have hc := isIdentRune_ascii h.1
    have hdash : isAsciiRune '-' = true := by decide
    simp only [hyphenate, List.all_append, Bool.and_eq_true, ih (p + 1) h.2, and_true]
    split <;> simp [hc, hdash]

/-- The hyphenated and lowered texts of two lists of identifier runes are
equal only when the lists are. -/
theorem hyphenate_inj (cs : List Char) :
    ∀ (ds : List Char) (p q : Nat), 0 < p → 0 < q → cs.all isIdentRune = true →
      ds.all isIdentRune = true →
      (hyphenate asciiUpper p cs).map asciiLowerRune =
        (hyphenate asciiUpper q ds).map asciiLowerRune → cs = ds := by
  have hdash : asciiLowerRune '-' = '-' := by decide
  have hnodash : ∀ d, isIdentRune d = true → asciiUpper d = false → '-' ≠ asciiLowerRune d := by
    intro d hd ud heq
    rw [asciiLowerRune_of_not_upper ud] at heq
    rw [← heq] at hd
    exact absurd hd (by decide)
  induction cs with
  | nil =>
    intro ds p q _ hq _ _ h
    cases ds with
    | nil => rfl
    | cons d ds =>
      rw [hyphenate_cons_pos _ q hq] at h
      cases ud : asciiUpper d <;> simp [hyphenate, ud] at h
  | cons c cs ih =>
    intro ds p q hp hq hcs hds h
    cases ds with
    | nil =>
      rw [hyphenate_cons_pos _ p hp] at h
      cases uc : asciiUpper c <;> simp [hyphenate, uc] at h
    | cons d ds =>
      simp only [List.all_cons, Bool.and_eq_true] at hcs hds
      rw [hyphenate_cons_pos _ p hp, hyphenate_cons_pos _ q hq] at h
      cases uc : asciiUpper c with
      | true =>
        cases ud : asciiUpper d with
        | true =>
          simp only [uc, ud, if_true, List.cons_append, List.nil_append, List.map_cons,
            List.cons.injEq, true_and] at h
          have hcd := asciiLowerRune_inj (isIdentRune_ascii hcs.1) (isIdentRune_ascii hds.1)
            uc ud h.1
          rw [hcd, ih ds (p + 1) (q + 1) (by omega) (by omega) hcs.2 hds.2 h.2]
        | false =>
          simp only [uc, ud, if_true, Bool.false_eq_true, if_false, List.cons_append,
            List.nil_append, List.map_cons, List.cons.injEq, hdash] at h
          exact absurd h.1 (hnodash d hds.1 ud)
      | false =>
        cases ud : asciiUpper d with
        | true =>
          simp only [uc, ud, if_true, Bool.false_eq_true, if_false, List.cons_append,
            List.nil_append, List.map_cons, List.cons.injEq, hdash] at h
          exact absurd h.1.symm (hnodash c hcs.1 uc)
        | false =>
          simp only [uc, ud, Bool.false_eq_true, if_false, List.cons_append,
            List.nil_append, List.map_cons, List.cons.injEq] at h
          rw [asciiLowerRune_of_not_upper uc, asciiLowerRune_of_not_upper ud] at h
          rw [h.1, ih ds (p + 1) (q + 1) (by omega) (by omega) hcs.2 hds.2 h.2]

/-- Under a library that lowers ASCII text as `strings.ToLower`, the derived
name of an ASCII identifier that begins with an upper-case letter: the lower
case of the first letter, then the lowered hyphenated rest. -/
theorem toKebabCase_exported {L : StdLib} (hlib : lowersAscii L) (c : Char) (cs : List Char)
    (h : (c :: cs).all isIdentRune = true) :
    toKebabCase L ⟨c :: cs⟩ =
      ⟨asciiLowerRune c :: (hyphenate asciiUpper 1 cs).map asciiLowerRune⟩ := by
  have hh : hyphenate asciiUpper 0 (c :: cs) = c :: hyphenate asciiUpper 1 cs := by
    simp [hyphenate]
  rw [toKebabCase_eq]
  simp only [kebabSpec, hh]
  rw [hlib ⟨c :: hyphenate asciiUpper 1 cs⟩ (by
    simp only [List.all_cons, Bool.and_eq_true] at h
    simp only [isAscii, List.all_cons, Bool.and_eq_true]
    exact ⟨isIdentRune_ascii h.1, hyphenate_ascii cs 1 h.2⟩)]
  rfl

theorem toKebabCase_inj {L : StdLib} (hlib : lowersAscii L) {s1 s2 : String}
    (h1 : isExportedAscii s1 = true) (h2 : isExportedAscii s2 = true)
    (h : toKebabCase L s1 = toKebabCase L s2) : s1 = s2 := by
  rcases s1 with ⟨l1⟩
  rcases s2 with ⟨l2⟩
  cases l1 with
  | nil => simp [isExportedAscii] at h1
  | cons c cs =>
    cases l2 with
    | nil => simp [isExportedAscii] at h2
    | cons d ds =>
      simp only [isExportedAscii, Bool.and_eq_true] at h1 h2
      rw [toKebabCase_exported hlib c cs h1.2, toKebabCase_exported hlib d ds h2.2] at h
      have h := congrArg String.data h
      simp only [List.cons.injEq] at h
      have hc := h1.2
      have hd := h2.2
      simp only [List.all_cons, Bool.and_eq_true] at hc hd
      have hcd := asciiLowerRune_inj (isIdentRune_ascii hc.1) (isIdentRune_ascii hd.1)
        h1.1 h2.1 h.1
      rw [hcd, hyphenate_inj cs ds 1 1 (by omega) (by omega) hc.2 hd.2 h.2]

/-- C20. Under a library that lowers ASCII text as `strings.ToLower`,
`toKebabCase` is one to one on the ASCII identifiers that begin with an
upper-case letter.  So for a struct type that Go accepts whose option fields
are exported and have such names, schema derivation never stores one option
under the name of another: the option mapping has exactly one entry for each
option field, stored under its derived name, in the order of declaration. -/
theorem C20_kebab_injective (L : StdLib) (hlib : lowersAscii L) :
    (∀ s1 s2, isExportedAscii s1 = true → isExportedAscii s2 = true →
      toKebabCase L s1 = toKebabCase L s2 → s1 = s2) ∧
    (∀ (fields : List Field) (d : commandDef), validStruct fields →
      (∀ f ∈ fields, isOption f = true → f.exported = true ∧ isExportedAscii f.name = true) →
      deriveCommand L (.struct fields) = .ok d →
      d.flags = (fields.filter isOption).map (fun f => (toKebabCase L f.name, flagOf f)) ∧
      d.flags.length = (fields.filter isOption).length ∧
      ∀ f ∈ fields, isOption f = true →
        d.flags.get (toKebabCase L f.name) = some (flagOf f)) := by
  refine ⟨fun s1 s2 h1 h2 h => toKebabCase_inj hlib h1 h2 h, ?_⟩
  intro fields d hvalid hopt hd
  have hder := deriveCommand_ok hd
  have hvalue : d.value = fields := by
    have := hder.struct
    simp only [Template.struct.injEq] at this
    exact this.symm
  have hmem : ∀ f ∈ fields.filter isOption, f.exported = true ∧ isExportedAscii f.name = true :=
    fun f hf => hopt f (List.mem_filter.1 hf).1 (List.mem_filter.1 hf).2
  have hpair : (fields.filter isOption).Pairwise
      (fun f g => toKebabCase L f.name ≠ toKebabCase L g.name) := by
    refine List.Pairwise.imp_of_mem ?_ (List.Pairwise.sublist (List.filter_sublist _) hvalid)
    intro f g hf hg hfg heq
    have hname := toKebabCase_inj hlib (hmem f hf).2 (hmem g hg).2 heq
    have := (hfg hname).1
    rw [(hmem f hf).1] at this
    cases this
  have hnames : ((fields.filter isOption).map fun f => toKebabCase L f.name).Nodup :=
    List.pairwise_map.2 hpair
  have hflags : d.flags =
      (fields.filter isOption).map fun f => (toKebabCase L f.name, flagOf f) := by
    rw [hder.flags, hvalue, optionMap_of_nodup L _ [] hnames (by simp)]
    simp
  refine ⟨hflags, by rw [hflags, List.length_map], ?_⟩
  intro f hf hfo
  have hkeys : (d.flags.map (·.1)).Nodup := by
    rw [hder.flags]
    exact keys_optionMap_nodup L (by simp) _
  have he : (toKebabCase L f.name, flagOf f) ∈ d.flags := by
    rw [hflags]
    exact List.mem_map.2 ⟨f, List.mem_filter.2 ⟨hf, hfo⟩, rfl⟩
  exact get_of_mem hkeys he

/-- C20 on the library of the examples: the names `FlagInt` and `FlagInt2`
derive different option names, and the option mapping of the concrete
scenario has one entry for its one option field. -/
theorem C20_witness :
    lowersAscii sampleLib ∧ isExportedAscii "FlagInt" = true ∧
    isExportedAscii "FlagInt2" = true ∧
    toKebabCase sampleLib "FlagInt" ≠ toKebabCase sampleLib "FlagInt2" ∧
    validStruct scenarioFields ∧
    deriveCommand sampleLib (.struct scenarioFields) = .ok scenarioDef ∧
    scenarioDef.flags.length = (scenarioFields.filter isOption).length := by
  have hvalid : validStruct scenarioFields := by
    unfold validStruct
    decide
  have hd : deriveCommand sampleLib (.struct scenarioFields) = .ok scenarioDef := by decide
  exact ⟨sampleLib_lowersAscii, by decide, by decide, fun h =>
    absurd ((C20_kebab_injective sampleLib sampleLib_lowersAscii).1 "FlagInt" "FlagInt2"
      (by decide) (by decide) h) (by decide), hvalid, hd,
    ((C20_kebab_injective sampleLib sampleLib_lowersAscii).2 scenarioFields scenarioDef hvalid
      (by decide) hd).2.1⟩

/-! ## The tokens of the vector -/

theorem isSkippedAlias_iff (a : String) :
    isSkippedAlias a = true ↔ startsOption a = true ∧ isHelpAlias a = true := by
  constructor
  · intro h
    simp only [isSkippedAlias, Bool.or_eq_true, beq_iff_eq] at h
    rcases h with ((h | h) | h) | h <;> subst h <;> exact ⟨by decide, by decide⟩
  · rintro ⟨hs, ha⟩
    rcases (isHelpAlias_iff a hs).1 ha with h | h | h | h <;> subst h <;> decide

theorem isSkippedAlias_of_name {a : String} (ha : isHelpAlias a = false) :
    isSkippedAlias a = false := by
  cases h : isSkippedAlias a with
  | false => rfl
  | true =>
    rw [((isSkippedAlias_iff a).1 h).2] at ha
    cases ha

theorem isSkippedAlias_of_positional {a : String} (hs : startsOption a = false) :
    isSkippedAlias a = false ∧ HasPrefix a "-" = false := by
  constructor
  · cases h : isSkippedAlias a with
    | false => rfl
    | true =>
      rw [((isSkippedAlias_iff a).1 h).1] at hs
      cases hs
  · simp only [startsOption, Bool.or_eq_false_iff] at hs
    exact hs.1

theorem trimPrefix_dash_drop {a : String} (h : HasPrefix a "-" = true) :
    TrimPrefix a "-" = ⟨a.data.drop 1⟩ := by
  simp only [TrimPrefix, h, if_true]
  rfl

theorem lastValue_none {flags : List flag} {k : String}
    (h : lastValue (flags.map fun fl => (fl.name, fl.value)) k = none) :
    ∀ fl ∈ flags, fl.name ≠ k := by
  induction flags with
  | nil => intro fl hfl; cases hfl
  | cons f flags ih =>
    simp only [List.map_cons, lastValue] at h
    cases hrest : lastValue (flags.map fun fl => (fl.name, fl.value)) k with
    | some v => rw [hrest] at h; cases h
    | none =>
      rw [hrest] at h
      simp only at h
      intro fl hfl
      rcases List.mem_cons.1 hfl with rfl | hfl
      · intro hk
        rw [if_pos hk] at h
        cases h
      · exact ih hrest fl hfl

theorem lastValue_some {flags : List flag} {k v : String}
    (h : lastValue (flags.map fun fl => (fl.name, fl.value)) k = some v) :
    ∃ fl1 fl fl2, flags = fl1 ++ fl :: fl2 ∧ fl.name = k ∧ fl.value = v ∧
      ∀ y ∈ fl2, y.name ≠ k := by
  induction flags with
  | nil => simp [lastValue] at h
  | cons f flags ih =>
    simp only [List.map_cons, lastValue] at h
    cases hrest : lastValue (flags.map fun fl => (fl.name, fl.value)) k with
    | some w =>
      rw [hrest] at h
      simp only [Option.some.injEq] at h
      subst h
      obtain ⟨fl1, fl, fl2, hsplit, hk, hv, hlast⟩ := ih hrest
      exact ⟨f :: fl1, fl, fl2, by rw [hsplit]; rfl, hk, hv, hlast⟩
    | none =>
      rw [hrest] at h
      simp only at h
      by_cases hk : f.name = k
      · rw [if_pos hk] at h
        simp only [Option.some.injEq] at h
        exact ⟨[], f, flags, rfl, hk, h, lastValue_none hrest⟩
      · rw [if_neg hk] at h
        cases h

/-! ## The record against the vector -/

/-- An option field of a returned record that no later option field shadows
points to what the last value given under its name denotes, else to what its
default denotes, else it is nil; `hconv` and `hpairs` say that the switch of
`setField` and the scan of the tokenizer do what the specification says. -/
theorem run_option_values {L : StdLib} {o : MapOrder} {d : commandDef} {input : userInput}
    {r : Instance} (run : Run L o d input r) {args : List String}
    (hconv : ∀ (t : GoType) (s : String) (x : Value),
      convert L t s = .ok x → denotedValue L t s = some x)
    (hpairs : input.flags.map (fun fl => (fl.name, fl.value)) = suppliedOptions args)
    {pre post : List Field} {f : Field}
    (hfields : d.value = pre ++ f :: post) (ho : isOption f = true)
    (hun : ∀ g ∈ post, isOption g = true →
      kebabSpec asciiUpper L g.name ≠ kebabSpec asciiUpper L f.name) :
    ∃ n elem, f.type = GoType.ptr n elem ∧
      (∀ v, lastValue (suppliedOptions args) (kebabSpec asciiUpper L f.name) = some v →
        ∃ x, denotedValue L elem v = some x ∧ r.get f.name = some (Value.ref x)) ∧
      (lastValue (suppliedOptions args) (kebabSpec asciiUpper L f.name) = none →
        ∀ dv u, Split f.tag '|' = [dv, u] →
        ∃ x, denotedValue L elem dv = some x ∧ r.get f.name = some (Value.ref x)) ∧
      (lastValue (suppliedOptions args) (kebabSpec asciiUpper L f.name) = none →
        (∀ dv u, Split f.tag '|' ≠ [dv, u]) → r.get f.name = some Value.nil) := by
  have hun1 : ∀ g ∈ post, isOption g = true → toKebabCase L g.name ≠ toKebabCase L f.name := by
    intro g hg hgo
    rw [toKebabCase_eq, toKebabCase_eq]
    exact hun g hg hgo
  obtain ⟨n, elem, ht, hsup, hdef, habs⟩ := run.option_holds hfields ho hun1
  rw [toKebabCase_eq] at hsup hdef habs
  rw [← hpairs]
  refine ⟨n, elem, ht, ?_, ?_, ?_⟩
  · intro v hv
    obtain ⟨fl1, fl, fl2, hsplit, hk, hval, hlast⟩ := lastValue_some hv
    obtain ⟨x, hx, hget⟩ := hsup fl1 fl fl2 hsplit hk hlast
    rw [hval] at hx
    exact ⟨x, hconv elem v x hx, hget⟩
  · intro hnone dv u hdv
    obtain ⟨x, hx, hget⟩ := hdef (lastValue_none hnone) dv u hdv
    exact ⟨x, hconv elem dv x hx, hget⟩
  · intro hnone hdv
    exact habs (lastValue_none hnone) hdv

/-- C1. Whenever `Parse` returns a record, the record is that of a template
whose header carries the selected command name.  The tokens that remain of the
vector, in their order, after the skipped help aliases and every option name
with its value are removed, are the binary name, the command name and as many
positional tokens as the template has argument fields; the i-th argument field
in declaration order holds what the i-th positional token denotes by the
conversion rules, and a string field holds the token itself. -/
theorem C1_positional_fields (L : StdLib) (o : MapOrder) (commands : List Template)
    (args : List String) (r : Instance)
    (hvalid : ∀ fields, Template.struct fields ∈ commands → validStruct fields)
    (h : Parse L o commands args = .ok r) :
    ∃ fields bin command toks,
      Template.struct fields ∈ commands ∧
      (∃ hd ∈ fields, isHeader hd = true ∧ ∃ u, Split hd.tag '|' = [command, u]) ∧
      remainingTokens args = bin :: command :: toks ∧
      fieldsOf r = fields ∧
      toks.length = (fields.filter isArgument).length ∧
      ∀ (i : Nat) (f : Field) (tok : String),
        (fields.filter isArgument)[i]? = some f → toks[i]? = some tok →
        (∃ x, denotedValue L f.type tok = some x ∧ r.get f.name = some x) ∧
        (∀ n, f.type = GoType.string n → r.get f.name = some (Value.str tok)) := by
  have hconv : ∀ (t : GoType) (s : String) (x : Value),
      convert L t s = .ok x → denotedValue L t s = some x := by
    intro t s x
    cases t with
    | bool n =>
      simp only [convert, denotedValue]
      cases L.parseBool s <;> simp [ofExcept]
    | int n bits =>
      simp only [convert, denotedValue]
      cases L.parseInt s bits <;> simp [ofExcept]
    | duration =>
      simp only [convert, denotedValue]
      cases L.parseDuration s <;> simp [ofExcept]
    | uint n bits =>
      simp only [convert, denotedValue]
      cases L.parseUint s bits <;> simp [ofExcept]
    | float n bits =>
      simp only [convert, denotedValue]
      cases L.parseFloat s bits <;> simp [ofExcept]
    | string n => simp [convert, denotedValue]
    | ptr n elem => simp [convert, denotedValue]
    | other n kind => simp [convert, denotedValue]
  have hscan : ∀ (args : List String) (acc r : userInput), scanArgs args acc = .ok r →
      r.arguments = acc.arguments ++ remainingTokens args ∧
      r.flags.map (fun fl => (fl.name, fl.value)) =
        acc.flags.map (fun fl => (fl.name, fl.value)) ++ suppliedOptions args := by
    intro args acc
    induction args, acc using scanArgs.induct with
    | case1 input =>
      intro r h
      simp only [scanArgs, Outcome.ok.injEq] at h
      subst h
      simp [remainingTokens, suppliedOptions]
    | case2 a input hs ha =>
      intro r h
      simp only [scanArgs, hs, ha, if_true, Outcome.ok.injEq] at h
      subst h
      simp [remainingTokens, suppliedOptions, (isSkippedAlias_iff a).2 ⟨hs, ha⟩]
    | case3 a input hs ha =>
      intro r h
      have ha1 : isHelpAlias a = false := by simpa using ha
      simp [scanArgs, hs, ha1] at h
    | case4 a input hs =>
      intro r h
      have hs1 : startsOption a = false := by simpa using hs
      simp only [scanArgs, hs1, Bool.false_eq_true, if_false, Outcome.ok.injEq] at h
      subst h
      simp [remainingTokens, suppliedOptions, isSkippedAlias_of_positional hs1]
    | case5 a v rest input hs ha ih =>
      intro r h
      simp only [scanArgs, hs, ha, if_true] at h
      obtain ⟨h1, h2⟩ := ih r h
      exact ⟨by rw [h1]; simp [remainingTokens, (isSkippedAlias_iff a).2 ⟨hs, ha⟩],
        by rw [h2]; simp [suppliedOptions, (isSkippedAlias_iff a).2 ⟨hs, ha⟩]⟩
    | case6 a v rest input hs ha ih =>
      intro r h
      have ha1 : isHelpAlias a = false := by simpa using ha
      have hd := option_name_dash hs ha1
      have hk := isSkippedAlias_of_name ha1
      simp only [scanArgs, hs, ha1, if_true, Bool.false_eq_true, if_false] at h
      obtain ⟨h1, h2⟩ := ih r h
      exact ⟨by rw [h1]; simp [remainingTokens, hk, hd],
        by rw [h2]; simp [suppliedOptions, hk, hd, trimPrefix_dash_drop hd]⟩
    | case7 a v rest input hs ih =>
      intro r h
      have hs1 : startsOption a = false := by simpa using hs
      have hp := isSkippedAlias_of_positional hs1
      simp only [scanArgs, hs1, Bool.false_eq_true, if_false] at h
      obtain ⟨h1, h2⟩ := ih r h
      exact ⟨by rw [h1]; simp [remainingTokens, hp.1, hp.2],
        by rw [h2]; simp [suppliedOptions, hp.1, hp.2]⟩
  obtain ⟨input, command, d, ht, hhd, hinput, hcmd, run⟩ := Parse_run hvalid h
  obtain ⟨raw, hraw, _, hrawflags, _, _, _, hsplit, _⟩ := parseUserInput_ok hinput
  obtain ⟨hrawargs, hrawpairs⟩ := hscan args ⟨none, none, [], []⟩ raw hraw
  simp only [List.nil_append, List.map_nil] at hrawargs hrawpairs
  obtain ⟨bin, hbin⟩ := hsplit command hcmd
  have hrem : remainingTokens args = bin :: command :: input.arguments := by
    rw [← hrawargs, hbin]
  have hpairs : input.flags.map (fun fl => (fl.name, fl.value)) = suppliedOptions args := by
    rw [hrawflags, hrawpairs]
  refine ⟨d.value, bin, command, input.arguments, ht, hhd, hrem, run.fields, run.arity_fields,
    fun i f tok hf htok => ?_⟩
  obtain ⟨⟨x, hx, hget⟩, hstr⟩ := run.argument_holds hf htok
  exact ⟨⟨x, hconv _ _ _ hx, hget⟩, hstr⟩

/-- C1 at the concrete scenario of the specification: the input
`cmd testcmd 5 6` sets the two string arguments to `5` and `6`; and on a
template with an integer, a boolean, an unsigned and a duration argument the
fields hold the numbers, the truth value and the nanoseconds that the tokens
denote, the alias and the option pair of the vector being left out; an empty
token is a positional token as any other. -/
theorem C1_witness :
    (∀ fields, Template.struct fields ∈ [ScenarioStruct] → validStruct fields) ∧
    Parse sampleLib insertionOrder [ScenarioStruct] ["cmd", "testcmd", "5", "6"] =
      .ok scenarioRecord ∧
    remainingTokens ["cmd", "testcmd", "5", "6"] = ["cmd", "testcmd", "5", "6"] ∧
    scenarioRecord.get "First" = some (Value.str "5") ∧
    scenarioRecord.get "Second" = some (Value.str "6") ∧
    (∃ fields bin command toks,
      Template.struct fields ∈ [ScenarioStruct] ∧
      (∃ hd ∈ fields, isHeader hd = true ∧ ∃ u, Split hd.tag '|' = [command, u]) ∧
      remainingTokens ["cmd", "testcmd", "5", "6"] = bin :: command :: toks ∧
      fieldsOf scenarioRecord = fields ∧
      toks.length = (fields.filter isArgument).length ∧
      ∀ (i : Nat) (f : Field) (tok : String),
        (fields.filter isArgument)[i]? = some f → toks[i]? = some tok →
        (∃ x, denotedValue sampleLib f.type tok = some x ∧ scenarioRecord.get f.name = some x) ∧
        (∀ n, f.type = GoType.string n → scenarioRecord.get f.name = some (Value.str tok))) ∧
    remainingTokens ["bin", "--help", "c", "7", "-x", "1", "true", "200", "90s"] =
      ["bin", "c", "7", "true", "200", "90s"] ∧
    Parse sampleLib insertionOrder [TypedStruct] ["bin", "--help", "c", "7", "true", "200", "90s"] =
      .ok [⟨⟨"XFlag", "c|A command", .string "string", true⟩, .str ""⟩,
        ⟨⟨"Count", "The count", .int "int" 64, true⟩, .int 7⟩,
        ⟨⟨"Force", "Whether to force", .bool "bool", true⟩, .bool true⟩,
        ⟨⟨"Size", "The size", .uint "uint8" 8, true⟩, .uint 200⟩,
        ⟨⟨"Wait", "The time to wait", .duration, true⟩, .int 90000000000⟩] ∧
    remainingTokens ["cmd", "testcmd", "", "6"] = ["cmd", "testcmd", "", "6"] ∧
    (Parse sampleLib insertionOrder [ScenarioStruct] ["cmd", "testcmd", "", "6"]).field "First" =
      some (Value.str "") := by
  have hvalid : ∀ fields, Template.struct fields ∈ [ScenarioStruct] → validStruct fields := by
    intro fields hf
    rw [List.mem_singleton] at hf
    cases hf
    unfold validStruct
    decide
  have hparse : Parse sampleLib insertionOrder [ScenarioStruct] ["cmd", "testcmd", "5", "6"] =
      .ok scenarioRecord := by decide
  exact ⟨hvalid, hparse, by decide, by decide, by decide,
    C1_positional_fields sampleLib insertionOrder [ScenarioStruct]
      ["cmd", "testcmd", "5", "6"] scenarioRecord hvalid hparse, by decide, by decide, by decide,
    by decide⟩

/-- C2, amended. Whenever `Parse` returns a record, every option field whose
derived option name no later option field of the template derives again is
determined thus, wherever the option pairs sit in the vector: it points to
what the last value given under its name in the vector denotes by the
conversion rules; else to what the default it declares denotes (the default
`5s` of a duration option gives five seconds, the default `10` of an integer
option gives 10); else it is nil. -/
theorem C2_option_fields (L : StdLib) (o : MapOrder) (commands : List Template)
    (args : List String) (r : Instance)
    (hvalid : ∀ fields, Template.struct fields ∈ commands → validStruct fields)
    (h : Parse L o commands args = .ok r) :
    ∃ fields bin command toks,
      Template.struct fields ∈ commands ∧
      (∃ hd ∈ fields, isHeader hd = true ∧ ∃ u, Split hd.tag '|' = [command, u]) ∧
      remainingTokens args = bin :: command :: toks ∧
      fieldsOf r = fields ∧
      ∀ pre f post, fields = pre ++ f :: post → isOption f = true →
        (∀ g ∈ post, isOption g = true →
          kebabSpec asciiUpper L g.name ≠ kebabSpec asciiUpper L f.name) →
        ∃ n elem, f.type = GoType.ptr n elem ∧
          (∀ v, lastValue (suppliedOptions args) (kebabSpec asciiUpper L f.name) = some v →
            ∃ x, denotedValue L elem v = some x ∧ r.get f.name = some (Value.ref x)) ∧
          (lastValue (suppliedOptions args) (kebabSpec asciiUpper L f.name) = none →
            ∀ dv u, Split f.tag '|' = [dv, u] →
            ∃ x, denotedValue L elem dv = some x ∧ r.get f.name = some (Value.ref x)) ∧
          (lastValue (suppliedOptions args) (kebabSpec asciiUpper L f.name) = none →
            (∀ dv u, Split f.tag '|' ≠ [dv, u]) → r.get f.name = some Value.nil) ∧
          (lastValue (suppliedOptions args) (kebabSpec asciiUpper L f.name) = none →
            elem = GoType.duration → (∃ u, Split f.tag '|' = ["5s", u]) →
            L.parseDuration "5s" = .ok 5000000000 →
            r.get f.name = some (Value.ref (Value.int 5000000000))) ∧
          (lastValue (suppliedOptions args) (kebabSpec asciiUpper L f.name) = none →
            ∀ m bits, elem = GoType.int m bits → (∃ u, Split f.tag '|' = ["10", u]) →
            L.parseInt "10" bits = .ok 10 →
            r.get f.name = some (Value.ref (Value.int 10))) := by
  have hconv : ∀ (t : GoType) (s : String) (x : Value),
      convert L t s = .ok x → denotedValue L t s = some x := by
    intro t s x
    cases t with
    | bool n =>
      simp only [convert, denotedValue]
      cases L.parseBool s <;> simp [ofExcept]
    | int n bits =>
      simp only [convert, denotedValue]
      cases L.parseInt s bits <;> simp [ofExcept]
    | duration =>
      simp only [convert, denotedValue]
      cases L.parseDuration s <;> simp [ofExcept]
    | uint n bits =>
      simp only [convert, denotedValue]
      cases L.parseUint s bits <;> simp [ofExcept]
    | float n bits =>
      simp only [convert, denotedValue]
      cases L.parseFloat s bits <;> simp [ofExcept]
    | string n => simp [convert, denotedValue]
    | ptr n elem => simp [convert, denotedValue]
    | other n kind => simp [convert, denotedValue]
  have hscan : ∀ (args : List String) (acc r : userInput), scanArgs args acc = .ok r →
      r.arguments = acc.arguments ++ remainingTokens args ∧
      r.flags.map (fun fl => (fl.name, fl.value)) =
        acc.flags.map (fun fl => (fl.name, fl.value)) ++ suppliedOptions args := by
    intro args acc
    induction args, acc using scanArgs.induct with
    | case1 input =>
      intro r h
      simp only [scanArgs, Outcome.ok.injEq] at h
      subst h
      simp [remainingTokens, suppliedOptions]
    | case2 a input hs ha =>
      intro r h
      simp only [scanArgs, hs, ha, if_true, Outcome.ok.injEq] at h
      subst h
      simp [remainingTokens, suppliedOptions, (isSkippedAlias_iff a).2 ⟨hs, ha⟩]
    | case3 a input hs ha =>
      intro r h
      have ha1 : isHelpAlias a = false := by simpa using ha
      simp [scanArgs, hs, ha1] at h
    | case4 a input hs =>
      intro r h
      have hs1 : startsOption a = false := by simpa using hs
      simp only [scanArgs, hs1, Bool.false_eq_true, if_false, Outcome.ok.injEq] at h
      subst h
      simp [remainingTokens, suppliedOptions, isSkippedAlias_of_positional hs1]
    | case5 a v rest input hs ha ih =>
      intro r h
      simp only [scanArgs, hs, ha, if_true] at h
      obtain ⟨h1, h2⟩ := ih r h
      exact ⟨by rw [h1]; simp [remainingTokens, (isSkippedAlias_iff a).2 ⟨hs, ha⟩],
        by rw [h2]; simp [suppliedOptions, (isSkippedAlias_iff a).2 ⟨hs, ha⟩]⟩
    | case6 a v rest input hs ha ih =>
      intro r h
      have ha1 : isHelpAlias a = false := by simpa using ha
      have hd := option_name_dash hs ha1
      have hk := isSkippedAlias_of_name ha1
      simp only [scanArgs, hs, ha1, if_true, Bool.false_eq_true, if_false] at h
      obtain ⟨h1, h2⟩ := ih r h
      exact ⟨by rw [h1]; simp [remainingTokens, hk, hd],
        by rw [h2]; simp [suppliedOptions, hk, hd, trimPrefix_dash_drop hd]⟩
    | case7 a v rest input hs ih =>
      intro r h
      have hs1 : startsOption a = false := by simpa using hs
      have hp := isSkippedAlias_of_positional hs1
      simp only [scanArgs, hs1, Bool.false_eq_true, if_false] at h
      obtain ⟨h1, h2⟩ := ih r h
      exact ⟨by rw [h1]; simp [remainingTokens, hp.1, hp.2],
        by rw [h2]; simp [suppliedOptions, hp.1, hp.2]⟩
  obtain ⟨input, command, d, ht, hhd, hinput, hcmd, run⟩ := Parse_run hvalid h
  obtain ⟨raw, hraw, _, hrawflags, _, _, _, hsplit, _⟩ := parseUserInput_ok hinput
  obtain ⟨hrawargs, hrawpairs⟩ := hscan args ⟨none, none, [], []⟩ raw hraw
  simp only [List.nil_append, List.map_nil] at hrawargs hrawpairs
  obtain ⟨bin, hbin⟩ := hsplit command hcmd
  have hrem : remainingTokens args = bin :: command :: input.arguments := by
    rw [← hrawargs, hbin]
  have hpairs : input.flags.map (fun fl => (fl.name, fl.value)) = suppliedOptions args := by
    rw [hrawflags, hrawpairs]
  refine ⟨d.value, bin, command, input.arguments, ht, hhd, hrem, run.fields, ?_⟩
  intro pre f post hfields ho hun
  obtain ⟨n, elem, htype, hsup, hdef, habs⟩ := run_option_values run hconv hpairs hfields ho hun
  refine ⟨n, elem, htype, hsup, hdef, habs, ?_, ?_⟩
  · rintro hnone rfl ⟨u, hu⟩ hlib
    obtain ⟨x, hx, hget⟩ := hdef hnone "5s" u hu
    simp only [denotedValue, hlib, Option.some.injEq] at hx
    rw [hget, ← hx]
  · rintro hnone m bits rfl ⟨u, hu⟩ hlib
    obtain ⟨x, hx, hget⟩ := hdef hnone "10" u hu
    simp only [denotedValue, hlib, Option.some.injEq] at hx
    rw [hget, ← hx]

/-- C2, amended, on the template of the tests: the option given twice holds
its last value, the defaults `10` and `5s` give 10 and five seconds, and an
option without default that is not given stays nil. -/
theorem C2_witness :
    (∀ fields, Template.struct fields ∈ [TestStructPiped] → validStruct fields) ∧
    suppliedOptions ["cmd", "testcmd", "-flag-int2", "1", "a", "-flag-int2", "2", "b", "c"] =
      [("flag-int2", "1"), ("flag-int2", "2")] ∧
    lastValue (suppliedOptions
      ["cmd", "testcmd", "-flag-int2", "1", "a", "-flag-int2", "2", "b", "c"]) "flag-int2" =
      some "2" ∧
    (Parse sampleLib insertionOrder [TestStructPiped]
      ["cmd", "testcmd", "-flag-int2", "1", "a", "-flag-int2", "2", "b", "c"]).field "FlagInt2" =
      some (Value.ref (Value.int 2)) ∧
    (Parse sampleLib insertionOrder [TestStructPiped]
      ["cmd", "testcmd", "-flag-int2", "1", "a", "-flag-int2", "2", "b", "c"]).field "FlagInt" =
      some (Value.ref (Value.int 10)) ∧
    (Parse sampleLib insertionOrder [TestStructPiped]
      ["cmd", "testcmd", "-flag-int2", "1", "a", "-flag-int2", "2", "b", "c"]).field "FlagDur" =
      some (Value.ref (Value.int 5000000000)) ∧
    (Parse sampleLib insertionOrder [TestStructPiped]
      ["cmd", "testcmd", "-flag-int2", "1", "a", "-flag-int2", "2", "b", "c"]).field "FlagBool2" =
      some Value.nil ∧
    ∃ r fields bin command toks,
      Parse sampleLib insertionOrder [TestStructPiped]
        ["cmd", "testcmd", "-flag-int2", "1", "a", "-flag-int2", "2", "b", "c"] = .ok r ∧
      Template.struct fields ∈ [TestStructPiped] ∧
      remainingTokens ["cmd", "testcmd", "-flag-int2", "1", "a", "-flag-int2", "2", "b", "c"] =
        bin :: command :: toks ∧
      fieldsOf r = fields := by
  have hvalid : ∀ fields, Template.struct fields ∈ [TestStructPiped] → validStruct fields := by
    intro fields hf
    rw [List.mem_singleton] at hf
    cases hf
    unfold validStruct
    decide
  refine ⟨hvalid, by decide, by decide, by decide, by decide, by decide, by decide, ?_⟩
  cases hp : Parse sampleLib insertionOrder [TestStructPiped]
      ["cmd", "testcmd", "-flag-int2", "1", "a", "-flag-int2", "2", "b", "c"] with
  | ok r =>
    obtain ⟨fields, bin, command, toks, ht, _, hrem, hfields, _⟩ :=
      C2_option_fields sampleLib insertionOrder [TestStructPiped] _ r hvalid hp
    exact ⟨r, fields, bin, command, toks, rfl, ht, hrem, hfields⟩
  | abort m =>
    have hok : (Parse sampleLib insertionOrder [TestStructPiped]
      ["cmd", "testcmd", "-flag-int2", "1", "a", "-flag-int2", "2", "b", "c"]).isOk = true := by
      decide
    rw [hp] at hok
    cases hok
  | error m =>
    have hok : (Parse sampleLib insertionOrder [TestStructPiped]
      ["cmd", "testcmd", "-flag-int2", "1", "a", "-flag-int2", "2", "b", "c"]).isOk = true := by
      decide
    rw [hp] at hok
    cases hok

/-- C3, amended. Let the vector select a command of well-formed templates, the
first template of that name having a struct type that Go accepts, and let it
give exactly as many positional tokens as the template has argument fields,
each storable in its field, and only declared options, each value storable in
the option field of that name; let every declared default be storable.  Then
`Parse` returns a record of the template: every argument field holds what its
positional token denotes by the conversion rules; every option field not
shadowed by a later one points to what the last value given under its name
denotes, else to what its default denotes, and is nil when the option is
neither given nor declares a default.  The positional tokens and the option
pairs are those of the vector. -/
theorem C3_complete_input (L : StdLib) (o : MapOrder) (commands tpre tpost : List Template)
    (args : List String) (input : userInput) (command : String) (fields : List Field)
    (d : commandDef)
    (hwf : ∀ t ∈ commands, wellFormed t = true)
    (hvalid : validStruct fields)
    (hinput : parseUserInput args = .ok input) (hcmd : input.command = some command)
    (hcommands : commands = tpre ++ Template.struct fields :: tpost)
    (hd : deriveCommand L (Template.struct fields) = .ok d) (hname : d.name = some command)
    (hfirst : ∀ q ∈ tpre, ∀ dq, deriveCommand L q = .ok dq → dq.name ≠ some command)
    (harity : input.arguments.length = (fields.filter isArgument).length)
    (hargs : ∀ (i : Nat) (f : Field) (tok : String),
      (fields.filter isArgument)[i]? = some f → input.arguments[i]? = some tok →
      canSet L fields f.name tok)
    (hflags : ∀ fl ∈ input.flags,
      (∃ f ∈ fields, isOption f = true ∧ toKebabCase L f.name = fl.name) ∧
      ∀ f ∈ fields, isOption f = true → toKebabCase L f.name = fl.name →
        canSet L fields f.name fl.value)
    (hdefaults : ∀ f ∈ fields, isOption f = true → ∀ dv u, Split f.tag '|' = [dv, u] →
      canSet L fields f.name dv) :
    ∃ r, Parse L o commands args = .ok r ∧ fieldsOf r = fields ∧
      (∃ bin, remainingTokens args = bin :: command :: input.arguments) ∧
      input.flags.map (fun fl => (fl.name, fl.value)) = suppliedOptions args ∧
      (∀ (i : Nat) (f : Field) (tok : String),
        (fields.filter isArgument)[i]? = some f → input.arguments[i]? = some tok →
        (∃ x, denotedValue L f.type tok = some x ∧ r.get f.name = some x) ∧
        (∀ n, f.type = GoType.string n → r.get f.name = some (Value.str tok))) ∧
      (∀ pre f post, fields = pre ++ f :: post → isOption f = true →
        (∀ g ∈ post, isOption g = true →
          kebabSpec asciiUpper L g.name ≠ kebabSpec asciiUpper L f.name) →
        ∃ n elem, f.type = GoType.ptr n elem ∧
          (∀ v, lastValue (suppliedOptions args) (kebabSpec asciiUpper L f.name) = some v →
            ∃ x, denotedValue L elem v = some x ∧ r.get f.name = some (Value.ref x)) ∧
          (lastValue (suppliedOptions args) (kebabSpec asciiUpper L f.name) = none →
            ∀ dv u, Split f.tag '|' = [dv, u] →
            ∃ x, denotedValue L elem dv = some x ∧ r.get f.name = some (Value.ref x)) ∧
          (lastValue (suppliedOptions args) (kebabSpec asciiUpper L f.name) = none →
            (∀ dv u, Split f.tag '|' ≠ [dv, u]) → r.get f.name = some Value.nil)) := by
  have hconv : ∀ (t : GoType) (s : String) (x : Value),
      convert L t s = .ok x → denotedValue L t s = some x := by
    intro t s x
    cases t with
    | bool n =>
      simp only [convert, denotedValue]
      cases L.parseBool s <;> simp [ofExcept]
    | int n bits =>
      simp only [convert, denotedValue]
      cases L.parseInt s bits <;> simp [ofExcept]
    | duration =>
      simp only [convert, denotedValue]
      cases L.parseDuration s <;> simp [ofExcept]
    | uint n bits =>
      simp only [convert, denotedValue]
      cases L.parseUint s bits <;> simp [ofExcept]
    | float n bits =>
      simp only [convert, denotedValue]
      cases L.parseFloat s bits <;> simp [ofExcept]
    | string n => simp [convert, denotedValue]
    | ptr n elem => simp [convert, denotedValue]
    | other n kind => simp [convert, denotedValue]
  have hscan : ∀ (args : List String) (acc r : userInput), scanArgs args acc = .ok r →
      r.arguments = acc.arguments ++ remainingTokens args ∧
      r.flags.map (fun fl => (fl.name, fl.value)) =
        acc.flags.map (fun fl => (fl.name, fl.value)) ++ suppliedOptions args := by
    intro args acc
    induction args, acc using scanArgs.induct with
    | case1 input =>
      intro r h
      simp only [scanArgs, Outcome.ok.injEq] at h
      subst h
      simp [remainingTokens, suppliedOptions]
    | case2 a input hs ha =>
      intro r h
      simp only [scanArgs, hs, ha, if_true, Outcome.ok.injEq] at h
      subst h
      simp [remainingTokens, suppliedOptions, (isSkippedAlias_iff a).2 ⟨hs, ha⟩]
    | case3 a input hs ha =>
      intro r h
      have ha1 : isHelpAlias a = false := by simpa using ha
      simp [scanArgs, hs, ha1] at h
    | case4 a input hs =>
      intro r h
      have hs1 : startsOption a = false := by simpa using hs
      simp only [scanArgs, hs1, Bool.false_eq_true, if_false, Outcome.ok.injEq] at h
      subst h
      simp [remainingTokens, suppliedOptions, isSkippedAlias_of_positional hs1]
    | case5 a v rest input hs ha ih =>
      intro r h
      simp only [scanArgs, hs, ha, if_true] at h
      obtain ⟨h1, h2⟩ := ih r h
      exact ⟨by rw [h1]; simp [remainingTokens, (isSkippedAlias_iff a).2 ⟨hs, ha⟩],
        by rw [h2]; simp [suppliedOptions, (isSkippedAlias_iff a).2 ⟨hs, ha⟩]⟩
    | case6 a v rest input hs ha ih =>
      intro r h
      have ha1 : isHelpAlias a = false := by simpa using ha
      have hd := option_name_dash hs ha1
      have hk := isSkippedAlias_of_name ha1
      simp only [scanArgs, hs, ha1, if_true, Bool.false_eq_true, if_false] at h
      obtain ⟨h1, h2⟩ := ih r h
      exact ⟨by rw [h1]; simp [remainingTokens, hk, hd],
        by rw [h2]; simp [suppliedOptions, hk, hd, trimPrefix_dash_drop hd]⟩
    | case7 a v rest input hs ih =>
      intro r h
      have hs1 : startsOption a = false := by simpa using hs
      have hp := isSkippedAlias_of_positional hs1
      simp only [scanArgs, hs1, Bool.false_eq_true, if_false] at h
      obtain ⟨h1, h2⟩ := ih r h
      exact ⟨by rw [h1]; simp [remainingTokens, hp.1, hp.2],
        by rw [h2]; simp [suppliedOptions, hp.1, hp.2]⟩
  obtain ⟨raw, hraw, _, hrawflags, _, _, _, hsplit, _⟩ := parseUserInput_ok hinput
  obtain ⟨hrawargs, hrawpairs⟩ := hscan args ⟨none, none, [], []⟩ raw hraw
  simp only [List.nil_append, List.map_nil] at hrawargs hrawpairs
  obtain ⟨bin, hbin⟩ := hsplit command hcmd
  have hrem : remainingTokens args = bin :: command :: input.arguments := by
    rw [← hrawargs, hbin]
  have hpairs : input.flags.map (fun fl => (fl.name, fl.value)) = suppliedOptions args := by
    rw [hrawflags, hrawpairs]
  have hder := deriveCommand_ok hd
  have hfv : fields = d.value := by
    have := hder.struct
    simpa using this
  subst hfv
  obtain ⟨inst2, hf2, h2, hfill⟩ :=
    @fillCommand_to_flags L o d input hder.arguments hder.flags harity hargs hdefaults
  obtain ⟨r, hr, hcalls⟩ := setFlags_succeeds hder.flags hf2 (fun fl hfl => (hflags fl hfl).1)
    (fun fl hfl => (hflags fl hfl).2)
  have run : Run L o d input r := by
    refine ⟨hvalid, hder.arguments, hder.flags, ?_, ?_⟩
    · rw [harity, hder.arguments, List.length_map]
    · simp only [parseCalls]
      rw [runCalls_append, h2]
      exact hcalls
  refine ⟨r, ?_, run.fields, ⟨bin, hrem⟩, hpairs, ?_,
    fun pre f post hfields ho hun => run_option_values run hconv hpairs hfields ho hun⟩
  · rw [Parse_selected hwf hinput hcmd hcommands hd hname hfirst, hfill, hr]
  · intro i f tok hf htok
    obtain ⟨⟨x, hx, hget⟩, hstr⟩ := run.argument_holds hf htok
    exact ⟨⟨x, hconv _ _ _ hx, hget⟩, hstr⟩

/-- C3, amended, at the concrete scenario with the option given:
`cmd testcmd -count 7 5 6` returns the record with 7, `5` and `6`; and on the
template of the tests with all options given, the boolean option holds the
truth value and the duration option the nanoseconds of its value. -/
theorem C3_witness :
    parseUserInput ["cmd", "testcmd", "-count", "7", "5", "6"] =
      .ok ⟨some "cmd", some "testcmd", ["5", "6"], [⟨"count", "7"⟩]⟩ ∧
    deriveCommand sampleLib (Template.struct scenarioFields) = .ok scenarioDef ∧
    validStruct scenarioFields ∧
    remainingTokens ["cmd", "testcmd", "-count", "7", "5", "6"] = ["cmd", "testcmd", "5", "6"] ∧
    suppliedOptions ["cmd", "testcmd", "-count", "7", "5", "6"] = [("count", "7")] ∧
    denotedValue sampleLib (.int "int" 64) "7" = some (Value.int 7) ∧
    (Parse sampleLib insertionOrder [TestStructPiped] allFlagsAndArguments).field "FlagBool" =
      some (Value.ref (Value.bool true)) ∧
    (Parse sampleLib insertionOrder [TestStructPiped] allFlagsAndArguments).field "FlagDur" =
      some (Value.ref (Value.int 10000000000)) ∧
    (Parse sampleLib insertionOrder [TestStructPiped] allFlagsAndArguments).field "Arg3" =
      some (Value.str "arg3_value") ∧
    ∃ r, Parse sampleLib insertionOrder [Template.struct scenarioFields]
        ["cmd", "testcmd", "-count", "7", "5", "6"] = .ok r ∧
      r.get "Count" = some (Value.ref (Value.int 7)) ∧
      r.get "First" = some (Value.str "5") ∧ r.get "Second" = some (Value.str "6") := by
  have hinput : parseUserInput ["cmd", "testcmd", "-count", "7", "5", "6"] =
      .ok ⟨some "cmd", some "testcmd", ["5", "6"], [⟨"count", "7"⟩]⟩ := by decide
  have hd : deriveCommand sampleLib (Template.struct scenarioFields) = .ok scenarioDef := by
    decide
  have hvalid : validStruct scenarioFields := by
    unfold validStruct
    decide
  refine ⟨hinput, hd, hvalid, by decide, by decide, by decide, by decide, by decide, by decide,
    ?_⟩
  obtain ⟨r, hr, _, _, _⟩ := C3_complete_input sampleLib insertionOrder
    [Template.struct scenarioFields] [] [] ["cmd", "testcmd", "-count", "7", "5", "6"]
    ⟨some "cmd", some "testcmd", ["5", "6"], [⟨"count", "7"⟩]⟩ "testcmd" scenarioFields
    scenarioDef
    (by intro t ht; rw [List.mem_singleton] at ht; subst ht; decide)
    hvalid hinput rfl rfl hd rfl (by intro q hq; cases hq) (by decide)
    (index_of_zip (Q := fun (f : Field) (tok : String) => canSet sampleLib scenarioFields f.name tok) (by
      intro p hp
      have hz : List.zip (scenarioFields.filter isArgument) ["5", "6"] =
          [(⟨"First", "The first argument", .string "string", true⟩, "5"),
           (⟨"Second", "The second argument", .string "string", true⟩, "6")] := by decide
      rw [hz] at hp
      simp only [List.mem_cons, List.mem_singleton, List.not_mem_nil, or_false] at hp
      rcases hp with rfl | rfl <;> exact canSet_of_isOk (by decide)))
    (by
      intro fl hfl
      rw [List.mem_singleton] at hfl
      subst hfl
      refine ⟨⟨⟨"Count", "10|An integer option", .ptr "*int" (.int "int" 64), true⟩,
        by decide, by decide, by decide⟩, ?_⟩
      intro f hf ho hk
      simp only [scenarioFields, List.mem_cons, List.mem_singleton, List.not_mem_nil,
        or_false] at hf
      rcases hf with rfl | rfl | rfl | rfl
      · exact absurd ho (by decide)
      · exact canSet_of_isOk (by decide)
      · exact absurd ho (by decide)
      · exact absurd ho (by decide))
    (defaults_of_check (by decide))
  refine ⟨r, hr, ?_⟩
  have hev : Parse sampleLib insertionOrder [Template.struct scenarioFields]
      ["cmd", "testcmd", "-count", "7", "5", "6"] =
      .ok [⟨⟨"XFlag", "testcmd|Test command", .string "string", true⟩, .str ""⟩,
        ⟨⟨"Count", "10|An integer option", .ptr "*int" (.int "int" 64), true⟩, .ref (.int 7)⟩,
        ⟨⟨"First", "The first argument", .string "string", true⟩, .str "5"⟩,
        ⟨⟨"Second", "The second argument", .string "string", true⟩, .str "6"⟩] := by decide
  rw [hr] at hev
  cases hev
  decide

/-! ## Messages without help text -/

theorem lineBreaks_append (a b : String) : lineBreaks (a ++ b) = lineBreaks a + lineBreaks b := by
  simp [lineBreaks, String.data_append, List.count_append]

theorem containsText_mem {m t : List Char} (h : containsText m t = true) :
    ∀ c ∈ t, c ∈ m := by
  induction m with
  | nil =>
    simp only [containsText, List.isEmpty_iff] at h
    subst h
    intro c hc
    cases hc
  | cons x m ih =>
    simp only [containsText, Bool.or_eq_true] at h
    rcases h with h | h
    · intro c hc
      exact (List.isPrefixOf_iff_prefix.1 h).subset hc
    · intro c hc
      exact List.mem_cons_of_mem _ (ih h c hc)

/-- Every help text begins with a line break. -/
theorem help_lineBreaks {L : StdLib} {o : MapOrder} {defs : List commandDef} {help : String}
    (h : helpOverview L defs = .ok help ∨ ∃ d ∈ defs, helpCommandDetails L o d = .ok help) :
    ∃ t, help = "\n" ++ t := by
  rcases h with h | ⟨d, _, h⟩
  · simp only [helpOverview] at h
    obtain ⟨rows, _, h1⟩ := bind_eq_ok h
    obtain ⟨table, _, h2⟩ := bind_eq_ok h1
    simp only [Outcome.ok.injEq] at h2
    exact ⟨table, h2.symm⟩
  · simp only [helpCommandDetails] at h
    obtain ⟨name, _, h1⟩ := bind_eq_ok h
    obtain ⟨table, _, h2⟩ := bind_eq_ok h1
    simp only [Outcome.ok.injEq] at h2
    exact ⟨"usage: " ++ name ++ " " ++ usageKeys (detailRows o d) ++ "\n\n" ++ table, by
      rw [← h2]
      simp only [String.append_assoc]
      rfl⟩

theorem addsNoHelp_of {L : StdLib} {o : MapOrder} {defs : List commandDef} {msg : String}
    {quoted : List String} (h : (∀ q ∈ quoted, lineBreaks q = 0) → lineBreaks msg = 0) :
    addsNoHelp L o defs msg quoted := by
  intro hq
  refine ⟨h hq, fun help hhelp => ?_⟩
  obtain ⟨t, ht⟩ := help_lineBreaks hhelp
  cases hc : containsText msg.data help.data with
  | false => rfl
  | true =>
    have hmem : '\n' ∈ msg.data := containsText_mem hc '\n' (by
      rw [ht]
      simp [String.data_append])
    have hzero := h hq
    simp only [lineBreaks, List.count_eq_zero] at hzero
    exact absurd hmem hzero

theorem addsNoHelp_one {L : StdLib} {o : MapOrder} {defs : List commandDef}
    (p1 p2 x : String) (h1 : lineBreaks p1 = 0) (h2 : lineBreaks p2 = 0) :
    addsNoHelp L o defs (p1 ++ x ++ p2) [x] := by
  apply addsNoHelp_of
  intro hq
  rw [lineBreaks_append, lineBreaks_append, h1, h2, hq x (List.mem_singleton.2 rfl)]

theorem addsNoHelp_two {L : StdLib} {o : MapOrder} {defs : List commandDef}
    (p1 p2 p3 x y : String) (h1 : lineBreaks p1 = 0) (h2 : lineBreaks p2 = 0)
    (h3 : lineBreaks p3 = 0) :
    addsNoHelp L o defs (p1 ++ x ++ p2 ++ y ++ p3) [x, y] := by
  apply addsNoHelp_of
  intro hq
  rw [lineBreaks_append, lineBreaks_append, lineBreaks_append, lineBreaks_append, h1, h2, h3,
    hq x (by simp), hq y (by simp)]

/-- C9, amended. Every failure that `Parse` returns is one of these.  For a
missing option value: `missing value for flag`, with the last token of the
vector without its first rune in quotes.  For no selected command: the command
overview.  For an unknown command: the command overview followed by
`unrecognized command` and the name.  For a wrong argument count: the detail
text of the selected command, alone or followed by `too many arguments given`
or by the line of the first missing argument.  For a value that does not
convert: `unable to set argument field`, `unable to set default flag field` or
`unable to set flag field`, with the field name and the value in quotes.  For
an unknown option: `unrecognized flag`, with the name in quotes.  To the
messages for a missing value, a value that does not convert and an unknown
option `Parse` adds no help text: when the quoted name and value have no line
break, the message is one line in which neither the command overview nor the
detail text of a command occurs. -/
theorem C9_failure_messages (L : StdLib) (o : MapOrder) (commands : List Template)
    (args : List String) (msg : String) (h : Parse L o commands args = .error msg) :
    ∃ defs, parseCommandDefs L commands = .ok defs ∧
    ((∃ pre a, args = pre ++ [a] ∧ endsPending pre = false ∧ HasPrefix a "-" = true ∧
        isSkippedAlias a = false ∧
        msg = "missing value for flag \"" ++ ⟨a.data.drop 1⟩ ++ "\"" ∧
        addsNoHelp L o defs msg [⟨a.data.drop 1⟩]) ∨
    ∃ input, parseUserInput args = .ok input ∧
      ((input.command = none ∧ helpOverview L defs = .ok msg) ∨
       (∃ command overview, input.command = some command ∧
          findCommand defs command = .ok none ∧ helpOverview L defs = .ok overview ∧
          msg = overview ++ "\nunrecognized command \"" ++ command ++ "\"\n") ∨
       (∃ command d, input.command = some command ∧
          findCommand defs command = .ok (some d) ∧
          ((d.arguments.length < input.arguments.length ∧
              ∃ details, helpCommandDetails L o d = .ok details ∧
                msg = details ++ "\ntoo many arguments given\n") ∨
           (input.arguments.length < d.arguments.length ∧
              ∃ details, helpCommandDetails L o d = .ok details ∧
                ((input.arguments.length = 0 ∧ msg = details) ∨
                  (0 < input.arguments.length ∧ ∃ arg,
                    d.arguments[input.arguments.length]? = some arg ∧
                    msg = details ++ "\n" ++
                      ("[fail] missing argument <" ++ arg.name ++ ">\n")))) ∨
           (input.arguments.length = d.arguments.length ∧
              ((∃ a ∈ d.arguments, ∃ tok ∈ input.arguments,
                  msg = "unable to set argument field \"" ++ a.field ++ "\" to \"" ++ tok ++
                    "\"" ∧ addsNoHelp L o defs msg [a.field, tok]) ∨
               (∃ e ∈ d.flags, ∃ dv, e.2.defaultValue = some dv ∧
                  msg = "unable to set default flag field \"" ++ e.2.field ++ "\" to \"" ++
                    dv ++ "\"" ∧ addsNoHelp L o defs msg [e.2.field, dv]) ∨
               (∃ fl ∈ input.flags,
                  (d.flags.get fl.name = none ∧
                    msg = "unrecognized flag \"" ++ fl.name ++ "\"" ∧
                    addsNoHelp L o defs msg [fl.name]) ∨
                  ∃ fd, d.flags.get fl.name = some fd ∧
                    msg = "unable to set flag field \"" ++ fd.field ++ "\" to \"" ++
                      fl.value ++ "\"" ∧
                    addsNoHelp L o defs msg [fd.field, fl.value]))))))) := by
  have hq : lineBreaks "\"" = 0 := by decide
  have hto : lineBreaks "\" to \"" = 0 := by decide
  simp only [Parse] at h
  rcases bind_eq_error h with h1 | ⟨defs, hdefs, h2⟩
  · exact absurd h1 (parseCommandDefs_ne_error L commands msg)
  · refine ⟨defs, hdefs, ?_⟩
    rcases bind_eq_error h2 with h3 | ⟨input, hinput, h4⟩
    · left
      simp only [parseUserInput] at h3
      rcases bind_eq_error h3 with h5 | ⟨raw, _, h6⟩
      · rcases scanArgs_outcome args ⟨none, none, [], []⟩ with
          ⟨_, r, hr⟩ | ⟨pre, a, hsplit, hp, hd, ha, herr⟩
        · rw [hr] at h5
          cases h5
        · rw [herr] at h5
          simp only [Outcome.error.injEq] at h5
          rw [trimPrefix_dash_drop hd] at h5
          refine ⟨pre, a, hsplit, hp, hd, isSkippedAlias_of_name ha, h5.symm, ?_⟩
          rw [← h5]
          exact addsNoHelp_one _ _ _ (by decide) hq
      · cases h6
    · right
      refine ⟨input, hinput, ?_⟩
      cases hc : input.command with
      | none =>
        rw [hc] at h4
        simp only at h4
        rcases bind_eq_error h4 with h5 | ⟨help, hhelp, h6⟩
        · exact absurd h5 (helpOverview_ne_error L defs msg)
        · simp only [Outcome.error.injEq] at h6
          subst h6
          exact Or.inl ⟨rfl, hhelp⟩
      | some command =>
        rw [hc] at h4
        simp only at h4
        right
        rcases bind_eq_error h4 with h5 | ⟨found, hfound, h6⟩
        · exfalso
          clear h h2 h4 hdefs
          induction defs with
          | nil => simp [findCommand] at h5
          | cons p defs ih =>
            simp only [findCommand] at h5
            rcases bind_eq_error h5 with h7 | ⟨n, _, h8⟩
            · exact deref_ne_error _ _ h7
            · split at h8
              · cases h8
              · exact ih h8
        · cases found with
          | none =>
            simp only at h6
            rcases bind_eq_error h6 with h7 | ⟨help, hhelp, h8⟩
            · exact absurd h7 (helpOverview_ne_error L defs msg)
            · simp only [Outcome.error.injEq] at h8
              exact Or.inl ⟨command, help, rfl, hfound, hhelp, h8.symm⟩
          | some d =>
            simp only at h6
            refine Or.inr ⟨command, d, rfl, hfound, ?_⟩
            rcases fillCommand_error h6 with hmany | hfew | ⟨hlen, hset⟩
            · exact Or.inl hmany
            · exact Or.inr (Or.inl hfew)
            · refine Or.inr (Or.inr ⟨hlen, ?_⟩)
              rcases hset with ⟨a, ha, tok, htok, hm⟩ | ⟨e, he, dv, hdv, hm⟩ |
                  ⟨fl, hfl, ⟨hnone, hm⟩ | ⟨fd, hfd, hm⟩⟩
              · exact Or.inl ⟨a, ha, tok, htok, hm, by
                  rw [hm]
                  exact addsNoHelp_two _ _ _ _ _ (by decide) hto hq⟩
              · exact Or.inr (Or.inl ⟨e, he, dv, hdv, hm, by
                  rw [hm]
                  exact addsNoHelp_two _ _ _ _ _ (by decide) hto hq⟩)
              · exact Or.inr (Or.inr ⟨fl, hfl, Or.inl ⟨hnone, hm, by
                  rw [hm]
                  exact addsNoHelp_one _ _ _ (by decide) hq⟩⟩)
              · exact Or.inr (Or.inr ⟨fl, hfl, Or.inr ⟨fd, hfd, hm, by
                  rw [hm]
                  exact addsNoHelp_two _ _ _ _ _ (by decide) hto hq⟩⟩)

/-- C9, amended, at the concrete scenario and an unknown command: the message
is the command overview followed by the line of the unknown command.  And a
value that is itself the overview shows in the message of the failure to
convert it: the message then holds the overview, which the user gave. -/
theorem C9_witness :
    Parse sampleLib insertionOrder [ScenarioStruct] ["cmd", "nope"] =
      .error "\n    testcmd.......Test command    \n\n\nunrecognized command \"nope\"\n" ∧
    (∃ defs overview, parseCommandDefs sampleLib [ScenarioStruct] = .ok defs ∧
      helpOverview sampleLib defs = .ok overview ∧
      "\n    testcmd.......Test command    \n\n\nunrecognized command \"nope\"\n" =
        overview ++ "\nunrecognized command \"" ++ "nope" ++ "\"\n") ∧
    Parse sampleLib insertionOrder [ScenarioStruct]
      ["cmd", "testcmd", "-count", "\n    testcmd.......Test command    \n\n", "5", "6"] =
      .error ("unable to set flag field \"Count\" to \"" ++
        "\n    testcmd.......Test command    \n\n" ++ "\"") ∧
    helpTextsIn sampleLib insertionOrder [ScenarioStruct]
      ("unable to set flag field \"Count\" to \"" ++
        "\n    testcmd.......Test command    \n\n" ++ "\"") = .ok [true, false] := by
  have hparse : Parse sampleLib insertionOrder [ScenarioStruct] ["cmd", "nope"] =
      .error "\n    testcmd.......Test command    \n\n\nunrecognized command \"nope\"\n" := by
    decide
  refine ⟨hparse, ?_, by decide, by decide⟩
  have hinput : parseUserInput ["cmd", "nope"] = .ok ⟨some "cmd", some "nope", [], []⟩ := by
    decide
  obtain ⟨defs, hdefs, hcases⟩ :=
    C9_failure_messages sampleLib insertionOrder [ScenarioStruct] ["cmd", "nope"] _ hparse
  rcases hcases with ⟨pre, a, hsplit, _, hdash, _⟩ | ⟨input, hin, hcases⟩
  · exfalso
    have hlast := congrArg List.getLast? hsplit
    have ha : a = "nope" := by
      have : List.getLast? ["cmd", "nope"] = some "nope" := by decide
      rw [this] at hlast
      simpa using hlast.symm
    subst ha
    exact absurd hdash (by decide)
  · rw [hinput] at hin
    cases hin
    rcases hcases with ⟨hnone, _⟩ | ⟨command, overview, hc, _, hov, hmsg⟩ |
        ⟨command, d, hc, hfind, _⟩
    · cases hnone
    · simp only [Option.some.injEq] at hc
      subst hc
      exact ⟨defs, overview, hdefs, hov, hmsg⟩
    · exfalso
      simp only [Option.some.injEq] at hc
      subst hc
      have hd : parseCommandDefs sampleLib [ScenarioStruct] = .ok [scenarioDef] := by decide
      rw [hd] at hdefs
      cases hdefs
      have hf : findCommand [scenarioDef] "nope" = .ok none := by decide
      rw [hf] at hfind
      cases hfind

/-! ## The widths of the columns and the text of a table -/

/-- A row is rendered only when its shown type name is not longer than the
width of the type column. -/
theorem formatRow_ok_le {L : StdLib} {lk lv ld : Nat} {r : row} {line : String}
    (h : formatRow L lk lv ld r = .ok line) :
    ∀ dt, r.datatype = some dt → len (renderType L dt) ≤ ld := by
  intro dt hdt
  simp only [formatRow, hdt] at h
  obtain ⟨tabs, _, h1⟩ := bind_eq_ok h
  obtain ⟨pad, hpad, _⟩ := bind_eq_ok h1
  simp only [Repeat] at hpad
  split at hpad
  · cases hpad
  · omega

/-- The rendered rows are the aligned lines of the rows. -/
theorem formatRows_text {L : StdLib} {lk lv ld : Nat} {rows : List row} {text : String}
    (h : formatRows L lk lv ld rows = .ok text) (hk : ∀ r ∈ rows, len r.key ≤ lk) :
    text = joinLines (rows.map (alignedLine L lk lv ld)) := by
  induction rows generalizing text with
  | nil =>
    simp only [formatRows, Outcome.ok.injEq] at h
    exact h.symm
  | cons r rows ih =>
    simp only [formatRows] at h
    obtain ⟨line, hline, hrest⟩ := bind_eq_ok h
    obtain ⟨rest, hrows, hlast⟩ := bind_eq_ok hrest
    simp only [Outcome.ok.injEq] at hlast
    have hal := formatRow_aligned L lk lv ld r (hk r (List.mem_cons_self _ _))
      (formatRow_ok_le hline)
    rw [hline] at hal
    simp only [Outcome.ok.injEq] at hal
    rw [← hlast, hal, ih hrows (fun q hq => hk q (List.mem_cons_of_mem _ hq))]
    rfl

/-- A rendered table is the aligned lines of its rows, at the widths that the
first loop of `formatTable` finds, and an empty line. -/
theorem formatTable_text {L : StdLib} {rows : List row} {table : String}
    (h : formatTable L rows = .ok table) :
    table = joinLines (rows.map
      (alignedLine L (longestKey rows) (longestValue rows) (longestDatatype rows))) ++ "\n" := by
  simp only [formatTable] at h
  obtain ⟨body, hbody, hlast⟩ := bind_eq_ok h
  simp only [Outcome.ok.injEq] at hlast
  rw [← hlast, formatRows_text hbody (fun r hr => len_key_le_longestKey hr)]

/-- C13, amended. For every well-formed template whose option fields derive
pairwise different names, the rows of the detail text are as many as the
declared arguments and options together: first one row for each declared
argument, in the order of declaration, with the lower case of the field name
between `<` and `>`; then one row for each declared option, in some order,
with the derived name between `[-` and `]`.  A rendered detail text is a line
break, the invocation line with the command name of the header and the keys of
these rows in their order, an empty line, the aligned line of each row in the
same order, and an empty line; it is rendered when lowering lengthens no type
name. -/
theorem C13_detail_help (L : StdLib) (o : MapOrder) (fields : List Field)
    (hwf : wellFormed (.struct fields) = true)
    (hnames : ((fields.filter isOption).map fun f => kebabSpec asciiUpper L f.name).Nodup) :
    ∃ d name usage optionRows rows,
      deriveCommand L (.struct fields) = .ok d ∧
      (∃ hd ∈ fields, isHeader hd = true ∧ Split hd.tag '|' = [name, usage]) ∧
      optionRows.Perm ((fields.filter isOption).map (optionRow L)) ∧
      rows = (fields.filter isArgument).map (argumentRow L) ++ optionRows ∧
      rows.length = (fields.filter isArgument).length + (fields.filter isOption).length ∧
      (∀ text, helpCommandDetails L o d = .ok text →
        text = "\n" ++ invocationLine name (rows.map (·.key)) ++ "\n\n" ++
          joinLines (rows.map
            (alignedLine L (keyWidth rows) (valueWidth rows) (typeWidth rows))) ++ "\n") ∧
      ((∀ f ∈ fields, len (shownType L f.type.typeString) ≤ len f.type.typeString) →
        ∃ text, helpCommandDetails L o d = .ok text) := by
  have hfold : ∀ (g : row → Nat) (rs : List row) (m0 : Nat),
      rs.foldl (fun m r => if m < g r then g r else m) m0 = max m0 (widest (rs.map g)) := by
    intro g rs
    induction rs with
    | nil => intro m0; simp [widest]
    | cons r rs ih =>
      intro m0
      simp only [List.foldl_cons, List.map_cons, widest, List.foldr_cons]
      rw [ih]
      simp only [widest]
      split <;> omega
  have hkw : ∀ rs : List row, longestKey rs = keyWidth rs := by
    intro rs
    simp only [longestKey, keyWidth, hfold, Nat.zero_max]
  have hvw : ∀ rs : List row, longestValue rs = valueWidth rs := by
    intro rs
    simp only [longestValue, valueWidth, hfold, Nat.zero_max]
  have htw : ∀ rs : List row, longestDatatype rs = typeWidth rs := by
    have key : ∀ (rs : List row) (m0 : Nat),
        rs.foldl (fun m r =>
          match r.datatype with
          | some dt => if m < len dt then len dt else m
          | none => m) m0 = max m0 (widest (rs.filterMap fun r => r.datatype.map len)) := by
      intro rs
      induction rs with
      | nil => intro m0; simp [widest]
      | cons r rs ih =>
        intro m0
        simp only [List.foldl_cons]
        rw [ih]
        cases hd : r.datatype with
        | none => simp [List.filterMap_cons, hd]
        | some dt =>
          simp only [List.filterMap_cons, hd, Option.map_some', widest, List.foldr_cons]
          split <;> omega
    intro rs
    simp only [longestDatatype, typeWidth, key, Nat.zero_max]
  have hkeys : ∀ rs : List row,
      usageKeys rs = joinLines ((rs.map (·.key)).map fun k => k ++ " ") := by
    intro rs
    induction rs with
    | nil => rfl
    | cons r rs ih => simp only [usageKeys, List.map_cons, joinLines, ih]
  obtain ⟨d, hd⟩ := (deriveCommand_total L (.struct fields)).1 hwf
  have hder := deriveCommand_ok hd
  have hvalue : d.value = fields := by
    have := hder.struct
    simp only [Template.struct.injEq] at this
    exact this.symm
  obtain ⟨hdr, hhdr, hhead, n, u, hsplit, hname, _⟩ := hder.header
  have hnames1 : ((fields.filter isOption).map fun f => toKebabCase L f.name).Nodup := by
    simp only [toKebabCase_eq]
    exact hnames
  have hflags : d.flags = (fields.filter isOption).map fun f => (toKebabCase L f.name, flagOf f) := by
    rw [hder.flags, hvalue, optionMap_of_nodup L _ [] hnames1 (by simp)]
    simp
  have hargs : d.arguments.map
      (fun a => (⟨"<" ++ a.name ++ ">", a.usage, some a.datatype, none⟩ : row)) =
      (fields.filter isArgument).map (argumentRow L) := by
    rw [hder.arguments, hvalue, List.map_map]
    rfl
  have hopts : d.flags.map
      (fun e => (⟨"[-" ++ e.1 ++ "]", e.2.usage, some e.2.datatype, e.2.defaultValue⟩ : row)) =
      (fields.filter isOption).map (optionRow L) := by
    rw [hflags, List.map_map]
    apply List.map_congr_left
    intro f _
    simp only [Function.comp, optionRow, flagOf_datatype, toKebabCase_eq]
  have hperm : ((o.enum d.flags).map
      (fun e => (⟨"[-" ++ e.1 ++ "]", e.2.usage, some e.2.datatype, e.2.defaultValue⟩ : row))).Perm
      ((fields.filter isOption).map (optionRow L)) := by
    rw [← hopts]
    exact (o.perm d.flags).map _
  have hrows : detailRows o d = (fields.filter isArgument).map (argumentRow L) ++
      (o.enum d.flags).map
        (fun e => (⟨"[-" ++ e.1 ++ "]", e.2.usage, some e.2.datatype, e.2.defaultValue⟩ : row)) := by
    simp only [detailRows, hargs]
  refine ⟨d, n, u, _, _, hd, ⟨hdr, by rw [← hvalue]; exact hhdr, hhead, hsplit⟩, hperm, rfl,
    ?_, ?_, ?_⟩
  · rw [List.length_append, hperm.length_eq, List.length_map, List.length_map]
  · intro text htext
    simp only [helpCommandDetails, hname, deref, bind_ok] at htext
    obtain ⟨table, htable, hlast⟩ := bind_eq_ok htext
    simp only [Outcome.ok.injEq] at hlast
    rw [← hlast, formatTable_text htable, hkw, hvw, htw, hkeys, hrows]
    simp only [invocationLine, String.append_assoc]
    rfl
  · intro hlower
    obtain ⟨table, htable⟩ := helpCommandDetails_ok L o d n hname (by
      intro r hr dt hdt
      rw [hrows] at hr
      have hfield : ∃ f ∈ fields, r.datatype = some f.type.typeString := by
        rcases List.mem_append.1 hr with hr | hr
        · obtain ⟨f, hf, hrow⟩ := List.mem_map.1 hr
          exact ⟨f, (List.mem_filter.1 hf).1, by rw [← hrow]; rfl⟩
        · obtain ⟨f, hf, hrow⟩ := List.mem_map.1 (hperm.mem_iff.1 hr)
          exact ⟨f, (List.mem_filter.1 hf).1, by rw [← hrow]; rfl⟩
      obtain ⟨f, hf, hfd⟩ := hfield
      rw [hfd] at hdt
      simp only [Option.some.injEq] at hdt
      rw [← hdt]
      exact hlower f hf)
    exact ⟨_, htable⟩

set_option maxRecDepth 8000 in
/-- C13, amended, on the template of the concrete scenario: two argument rows
and one option row, and the detail text with its invocation line. -/
theorem C13_witness :
    wellFormed (.struct scenarioFields) = true ∧
    ((scenarioFields.filter isOption).map fun f =>
      kebabSpec asciiUpper sampleLib f.name).Nodup ∧
    deriveCommand sampleLib (.struct scenarioFields) = .ok scenarioDef ∧
    helpCommandDetails sampleLib insertionOrder scenarioDef =
      .ok ("\nusage: testcmd <first> <second> [-count] \n\n" ++
        "     <first>.......The first argument     string\n" ++
        "    <second>.......The second argument    string\n" ++
        "    [-count].......An integer option      int     (default: \"10\")\n" ++ "\n") ∧
    invocationLine "testcmd" ["<first>", "<second>", "[-count]"] =
      "usage: testcmd <first> <second> [-count] " ∧
    ∃ d name usage optionRows rows,
      deriveCommand sampleLib (.struct scenarioFields) = .ok d ∧
      (∃ hd ∈ scenarioFields, isHeader hd = true ∧ Split hd.tag '|' = [name, usage]) ∧
      optionRows.Perm ((scenarioFields.filter isOption).map (optionRow sampleLib)) ∧
      rows = (scenarioFields.filter isArgument).map (argumentRow sampleLib) ++ optionRows ∧
      rows.length = 2 + 1 ∧
      ∀ text, helpCommandDetails sampleLib insertionOrder d = .ok text →
        text = "\n" ++ invocationLine name (rows.map (·.key)) ++ "\n\n" ++
          joinLines (rows.map (alignedLine sampleLib (keyWidth rows) (valueWidth rows)
            (typeWidth rows))) ++ "\n" := by
  have hwf : wellFormed (.struct scenarioFields) = true := by decide
  have hnames : ((scenarioFields.filter isOption).map
      fun f => kebabSpec asciiUpper sampleLib f.name).Nodup := by decide
  obtain ⟨d, name, usage, optionRows, rows, hd, hhd, hperm, hrows, hlen, htext, _⟩ :=
    C13_detail_help sampleLib insertionOrder scenarioFields hwf hnames
  exact ⟨hwf, hnames, by decide, by decide, by decide, d, name, usage, optionRows, rows, hd, hhd,
    hperm, hrows, by rw [hlen]; decide, htext⟩

/-! ## Aligned tables -/

theorem lineBreaks_spaces (n : Nat) : lineBreaks ⟨List.replicate n ' '⟩ = 0 := by
  simp only [lineBreaks, List.count_eq_zero]
  intro h
  have := List.eq_of_mem_replicate h
  exact absurd this (by decide)

theorem asciiLowerRune_break (c : Char) (hc : isAsciiRune c = true)
    (h : asciiLowerRune c = '\n') : c = '\n' :=
  ascii_cases (fun c => asciiLowerRune c = '\n' → c = '\n') (by decide) c hc h

/-- Under a library that lowers ASCII text as `strings.ToLower`, the shown
name of an ASCII type name is ASCII text, not longer than the name, and has
no line break when the name has none. -/
theorem shownType_ascii {L : StdLib} (hlib : lowersAscii L) {dt : String}
    (h : isAscii dt = true) :
    isAscii (shownType L dt) = true ∧ len (shownType L dt) ≤ len dt ∧
    (lineBreaks dt = 0 → lineBreaks (shownType L dt) = 0) := by
  have hsub : (TrimPrefix (Trim dt '*') "time.").data.Sublist dt.data :=
    (trimPrefix_sublist _ _).trans (trim_sublist _ _)
  have hascii : isAscii (TrimPrefix (Trim dt '*') "time.") = true := all_of_sublist hsub h
  have hlow : shownType L dt =
      ⟨(TrimPrefix (Trim dt '*') "time.").data.map asciiLowerRune⟩ := hlib _ hascii
  have h1 := renderType_ascii hlib h
  refine ⟨h1.1, h1.2, ?_⟩
  intro hplain
  rw [hlow]
  simp only [lineBreaks, List.count_eq_zero, List.mem_map, not_exists, not_and] at hplain ⊢
  intro c hc hlc
  simp only [isAscii, List.all_eq_true] at hascii
  have := asciiLowerRune_break c (hascii c hc) hlc
  subst this
  exact hplain (hsub.subset hc)

theorem lineBreaks_joinLines {α : Type} (f : α → String) (l : List α)
    (h : ∀ a ∈ l, lineBreaks (f a) = 1) : lineBreaks (joinLines (l.map f)) = l.length := by
  induction l with
  | nil => rfl
  | cons a l ih =>
    simp only [List.map_cons, joinLines, lineBreaks_append, List.length_cons,
      h a (List.mem_cons_self _ _), ih (fun b hb => h b (List.mem_cons_of_mem _ hb))]
    omega

theorem len_le_widest {ns : List Nat} {n : Nat} (h : n ∈ ns) : n ≤ widest ns := by
  induction ns with
  | nil => cases h
  | cons m ns ih =>
    simp only [widest, List.foldr_cons]
    rcases List.mem_cons.1 h with rfl | h
    · omega
    · have := ih h
      simp only [widest] at this
      omega

/-- C19 as stated fails for rows of ASCII text with a line break: the value
`x`, line break, `y` gives a table that has three lines of text for two rows,
and the second of them begins with no key. -/
theorem C19_counterexample :
    asciiRows [⟨"a", "x\ny", none, none⟩, ⟨"b", "z", none, none⟩] ∧
    formatTable sampleLib [⟨"a", "x\ny", none, none⟩, ⟨"b", "z", none, none⟩] =
      .ok "    a.......x\ny    \n    b.......z      \n\n" ∧
    lineBreaks "    a.......x\ny    \n    b.......z      \n\n" = 4 := by
  refine ⟨?_, by decide, by decide⟩
  intro r hr
  simp only [List.mem_cons, List.mem_singleton, List.not_mem_nil, or_false] at hr
  rcases hr with h | h <;> subst h <;>
    exact ⟨by decide, by decide, (fun dt hdt => by cases hdt), (fun dv hdv => by cases hdv)⟩

/-- C19, amended. Under a library that lowers ASCII text as `strings.ToLower`,
the table of rows of ASCII text without line breaks is rendered as one line
for each row, in the order of the rows, and an empty line at the end.  In each
line the key comes after 4 + longest key - its length spaces, so that every
key ends at column 4 + longest key; seven dots follow; the value is padded to
the longest value + 4; the shown type is padded with a count of spaces that is
not negative to the longest declared type name, so that each part of a line
begins at the same column in every row. -/
theorem C19_aligned_table (L : StdLib) (hlib : lowersAscii L) (rows : List row)
    (hascii : asciiRows rows) (hplain : plainRows rows) :
    formatTable L rows = .ok (joinLines (rows.map
      (alignedLine L (keyWidth rows) (valueWidth rows) (typeWidth rows))) ++ "\n") ∧
    (∀ r ∈ rows,
      lineBreaks (alignedLine L (keyWidth rows) (valueWidth rows) (typeWidth rows) r) = 1) ∧
    lineBreaks (joinLines (rows.map
      (alignedLine L (keyWidth rows) (valueWidth rows) (typeWidth rows))) ++ "\n") =
      rows.length + 1 ∧
    ∀ r ∈ rows,
      len r.key ≤ keyWidth rows ∧
      runeCount (⟨List.replicate (4 + keyWidth rows - len r.key) ' '⟩ ++ r.key) =
        4 + keyWidth rows ∧
      runeCount (padRight r.value (valueWidth rows + 4)) = valueWidth rows + 4 ∧
      ∀ dt, r.datatype = some dt →
        0 ≤ (typeWidth rows : Int) - (len (shownType L dt) : Int) ∧
        runeCount (shownType L dt ++
          ⟨List.replicate (typeWidth rows - len (shownType L dt)) ' '⟩) = typeWidth rows := by
  have hfold : ∀ (g : row → Nat) (rs : List row) (m0 : Nat),
      rs.foldl (fun m r => if m < g r then g r else m) m0 = max m0 (widest (rs.map g)) := by
    intro g rs
    induction rs with
    | nil => intro m0; simp [widest]
    | cons r rs ih =>
      intro m0
      simp only [List.foldl_cons, List.map_cons, widest, List.foldr_cons]
      rw [ih]
      simp only [widest]
      split <;> omega
  have hkw : ∀ rs : List row, longestKey rs = keyWidth rs := by
    intro rs
    simp only [longestKey, keyWidth, hfold, Nat.zero_max]
  have hvw : ∀ rs : List row, longestValue rs = valueWidth rs := by
    intro rs
    simp only [longestValue, valueWidth, hfold, Nat.zero_max]
  have htw : ∀ rs : List row, longestDatatype rs = typeWidth rs := by
    have key : ∀ (rs : List row) (m0 : Nat),
        rs.foldl (fun m r =>
          match r.datatype with
          | some dt => if m < len dt then len dt else m
          | none => m) m0 = max m0 (widest (rs.filterMap fun r => r.datatype.map len)) := by
      intro rs
      induction rs with
      | nil => intro m0; simp [widest]
      | cons r rs ih =>
        intro m0
        simp only [List.foldl_cons]
        rw [ih]
        cases hd : r.datatype with
        | none => simp [List.filterMap_cons, hd]
        | some dt =>
          simp only [List.filterMap_cons, hd, Option.map_some', widest, List.foldr_cons]
          split <;> omega
    intro rs
    simp only [longestDatatype, typeWidth, key, Nat.zero_max]
  have hkey : ∀ r ∈ rows, len r.key ≤ keyWidth rows := fun r hr =>
    len_le_widest (List.mem_map.2 ⟨r, hr, rfl⟩)
  have hval : ∀ r ∈ rows, len r.value ≤ valueWidth rows := fun r hr =>
    len_le_widest (List.mem_map.2 ⟨r, hr, rfl⟩)
  have htype : ∀ r ∈ rows, ∀ dt, r.datatype = some dt →
      len (shownType L dt) ≤ typeWidth rows := by
    intro r hr dt hdt
    refine Nat.le_trans (shownType_ascii hlib ((hascii r hr).2.2.1 dt hdt)).2.1 ?_
    exact len_le_widest (List.mem_filterMap.2 ⟨r, hr, by rw [hdt]; rfl⟩)
  have hline : ∀ r ∈ rows,
      lineBreaks (alignedLine L (keyWidth rows) (valueWidth rows) (typeWidth rows) r) = 1 := by
    intro r hr
    obtain ⟨hk, hv, ht, hd⟩ := hplain r hr
    have hnote : lineBreaks (typeNote L (typeWidth rows) r) = 0 := by
      simp only [typeNote]
      cases hdt : r.datatype with
      | none => rfl
      | some dt =>
        have hs := (shownType_ascii hlib ((hascii r hr).2.2.1 dt hdt)).2.2 (ht dt hdt)
        simp only [lineBreaks_append, hs, lineBreaks_spaces]
        cases hdv : r.defaultValue with
        | none => rfl
        | some dv =>
          simp only [defaultNote, lineBreaks_append, hd dv hdv]
          decide
    simp only [alignedLine, padRight, lineBreaks_append, lineBreaks_spaces, hk, hv, hnote]
    decide
  refine ⟨?_, hline, ?_, ?_⟩
  · have hrow : ∀ (lk lv ld : Nat) (r : row), len r.key ≤ lk →
        (∀ dt, r.datatype = some dt → len (shownType L dt) ≤ ld) →
        formatRow L lk lv ld r = .ok (alignedLine L lk lv ld r) := by
      intro lk lv ld r hk hd
      have hint : (4 + (lk : Int) - (len r.key : Int)) = ((4 + lk - len r.key : Nat) : Int) := by
        omega
      simp only [formatRow, renderType, alignedLine, typeNote, shownType, hint, Repeat_space,
        bind_ok]
      cases hdt : r.datatype with
      | none => simp
      | some dt =>
        have hle := hd dt hdt
        simp only [shownType] at hle
        have hint2 : ((ld : Int) - (len (L.toLower (TrimPrefix (Trim dt '*') "time.")) : Int)) =
            ((ld - len (L.toLower (TrimPrefix (Trim dt '*') "time.")) : Nat) : Int) := by omega
        simp only [hint2, Repeat_space, bind_ok]
        cases r.defaultValue <;> simp [defaultNote, String.append_assoc]
    have hrows : ∀ (lk lv ld : Nat) (rs : List row),
        (∀ r ∈ rs, len r.key ≤ lk ∧ ∀ dt, r.datatype = some dt → len (shownType L dt) ≤ ld) →
        formatRows L lk lv ld rs = .ok (joinLines (rs.map (alignedLine L lk lv ld))) := by
      intro lk lv ld rs
      induction rs with
      | nil => intro _; rfl
      | cons r rs ih =>
        intro hall
        simp only [formatRows, hrow lk lv ld r (hall r (List.mem_cons_self _ _)).1
          (hall r (List.mem_cons_self _ _)).2,
          ih (fun q hq => hall q (List.mem_cons_of_mem _ hq)), bind_ok, List.map_cons, joinLines]
    have htable := hrows (keyWidth rows) (valueWidth rows) (typeWidth rows) rows
      (fun r hr => ⟨hkey r hr, htype r hr⟩)
    simp only [formatTable, hkw, hvw, htw, htable, bind_ok]
  · rw [lineBreaks_append, lineBreaks_joinLines _ rows hline]
    rfl
  · intro r hr
    obtain ⟨hak, hav, hat, _⟩ := hascii r hr
    refine ⟨hkey r hr, ?_, ?_, ?_⟩
    · have := hkey r hr
      rw [runeCount_append, runeCount_spaces, ← len_ascii hak]
      omega
    · have := hval r hr
      rw [len_ascii hav] at this
      simp only [padRight]
      rw [runeCount_append, runeCount_spaces]
      omega
    · intro dt hdt
      have hle := htype r hr dt hdt
      refine ⟨by omega, ?_⟩
      rw [runeCount_append, runeCount_spaces,
        ← len_ascii (shownType_ascii hlib (hat dt hdt)).1]
      omega

set_option maxRecDepth 8000 in
/-- C19, amended, on the rows of the detail text of the concrete scenario. -/
theorem C19_witness :
    lowersAscii sampleLib ∧ asciiRows (detailRows insertionOrder scenarioDef) ∧
    plainRows (detailRows insertionOrder scenarioDef) ∧
    keyWidth (detailRows insertionOrder scenarioDef) = 8 ∧
    valueWidth (detailRows insertionOrder scenarioDef) = 19 ∧
    typeWidth (detailRows insertionOrder scenarioDef) = 6 ∧
    formatTable sampleLib (detailRows insertionOrder scenarioDef) =
      .ok (joinLines ((detailRows insertionOrder scenarioDef).map
        (alignedLine sampleLib (keyWidth (detailRows insertionOrder scenarioDef))
          (valueWidth (detailRows insertionOrder scenarioDef))
          (typeWidth (detailRows insertionOrder scenarioDef)))) ++ "\n") ∧
    formatTable sampleLib (detailRows insertionOrder scenarioDef) =
      .ok ("     <first>.......The first argument     string\n" ++
        "    <second>.......The second argument    string\n" ++
        "    [-count].......An integer option      int     (default: \"10\")\n" ++ "\n") := by
  have hmem : ∀ r ∈ detailRows insertionOrder scenarioDef,
      r = (⟨"<first>", "The first argument", some "string", none⟩ : row) ∨
      r = ⟨"<second>", "The second argument", some "string", none⟩ ∨
      r = ⟨"[-count]", "An integer option", some "*int", some "10"⟩ := by
    intro r hr
    have hmem : r ∈ [(⟨"<first>", "The first argument", some "string", none⟩ : row),
        ⟨"<second>", "The second argument", some "string", none⟩,
        ⟨"[-count]", "An integer option", some "*int", some "10"⟩] := hr
    simpa only [List.mem_cons, List.mem_singleton, List.not_mem_nil, or_false] using hmem
  have hrows : asciiRows (detailRows insertionOrder scenarioDef) := by
    intro r hr
    rcases hmem r hr with h | h | h <;> subst h <;>
      exact ⟨by decide, by decide, fun dt hdt => by cases hdt; decide,
        fun dv hdv => by first | cases hdv; decide | cases hdv⟩
  have hplain : plainRows (detailRows insertionOrder scenarioDef) := by
    intro r hr
    rcases hmem r hr with h | h | h <;> subst h <;>
      exact ⟨by decide, by decide, fun dt hdt => by cases hdt; decide,
        fun dv hdv => by first | cases hdv; decide | cases hdv⟩
  exact ⟨sampleLib_lowersAscii, hrows, hplain, by decide, by decide, by decide,
    (C19_aligned_table sampleLib sampleLib_lowersAscii _ hrows hplain).1, by decide⟩

end XFlag
